import Mathlib

/-!
Verification of the `wheel_sieve` ECM factorization package.

This file gives a shallow embedding, in Lean 4, of the Python sources of the
package (modular arithmetic, Weierstrass and Montgomery elliptic-curve point
arithmetic, polynomials mod n with Kronecker-substitution multiplication,
product/reciprocal/remainder trees, the ECM engines and the `factorize`
driver), and proves or refutes a list of specification claims about them.

Conventions of the embedding:
* Python `int` is `ℤ` (or `ℕ` where the source value is always non-negative);
  Python `%` on a positive modulus is `Int.emod` / `Nat.mod`.
* Python exceptions are an explicit `Except PyExc` monad.
* A Weierstrass point `(x, y)` / the infinity sentinel `(None, None)` is
  `Option (ℤ × ℤ)` (`none` is the sentinel).
* `random.randint` draws are threaded as an explicit oracle stream.
-/

namespace WheelSieve

/-- Python exceptions raised by the package, plus a fuel-exhaustion marker used
to make the embedding of unbounded `while` loops total.  `InverseNotFound`
carries `(x, n)` as in the source. -/
inductive PyExc : Type where
  | inverseNotFound (x n : ℤ) : PyExc
  | curveInitFail : PyExc
  | assertionError : PyExc
  | typeError : PyExc
  | valueError : PyExc
  | fuelExhausted : PyExc
deriving DecidableEq, Repr

/-- Result of running an embedded Python computation. -/
abbrev Py (α : Type) : Type := Except PyExc α

instance {ε α : Type} [DecidableEq ε] [DecidableEq α] : DecidableEq (Except ε α) := fun x y =>
  match x, y with
  | .ok a, .ok b =>
    if h : a = b then .isTrue (by rw [h]) else .isFalse (by intro hh; cases hh; exact h rfl)
  | .error a, .error b =>
    if h : a = b then .isTrue (by rw [h]) else .isFalse (by intro hh; cases hh; exact h rfl)
  | .ok _, .error _ => .isFalse (by intro hh; cases hh)
  | .error _, .ok _ => .isFalse (by intro hh; cases hh)

theorem py_bind_ok {α β : Type} (a : α) (f : α → Py β) :
    (Except.ok a >>= f) = f a := rfl

theorem py_bind_err {α β : Type} (e : PyExc) (f : α → Py β) :
    ((Except.error e : Py α) >>= f) = Except.error e := rfl

/-- Embedding of `math.gcd` (non-negative gcd of the absolute values). -/
def pyGcd (a b : ℤ) : ℤ := (Int.gcd a b : ℤ)

/-- Embedding of `inv` from `wheel_sieve/common.py`.  The external
`gmpy2.invert(x, n)` is modelled by its contract: it returns the unique
inverse of `x` in `[0, n)` when one exists and raises otherwise, in which
case `inv` raises `InverseNotFound(x % n, n)`.  The unique inverse is
realized as the first `y ∈ [0, n)` with `x·y ≡ 1 (mod n)`. -/
def inv (x n : ℤ) : Py ℤ :=
  match (List.range n.toNat).find? (fun (y : ℕ) => x * (y : ℤ) % n == 1 % n) with
  | some y => .ok (y : ℤ)
  | none => .error (.inverseNotFound (x % n) n)

/-- The value returned by `inv` is in `[0, n)` and is a modular inverse. -/
theorem inv_spec {x n y : ℤ} (hn : 0 < n) (h : inv x n = .ok y) :
    0 ≤ y ∧ y < n ∧ (x * y) % n = 1 % n := by
  unfold inv at h
  rcases hf : (List.range n.toNat).find? (fun (y : ℕ) => x * (y : ℤ) % n == 1 % n) with _ | y0
  · rw [hf] at h
    cases h
  · rw [hf] at h
    injection h with h
    subst h
    have hp := List.find?_some hf
    have hm := List.mem_range.mp (List.mem_of_find?_eq_some hf)
    refine ⟨by positivity, by omega, by simpa using hp⟩

/-- `inv` succeeds whenever `gcd(x, n) = 1` (for positive `n`). -/
theorem inv_ok_of_gcd_one {x n : ℤ} (hn : 0 < n) (hg : Int.gcd x n = 1) :
    ∃ y, inv x n = .ok y := by
  have hex : ∃ y ∈ List.range n.toNat, (fun (y : ℕ) => x * (y : ℤ) % n == 1 % n) y := by
    refine ⟨(Int.gcdA x n % n).toNat, List.mem_range.mpr ?_, ?_⟩
    · have h1 : 0 ≤ Int.gcdA x n % n := Int.emod_nonneg _ (by omega)
      have h2 : Int.gcdA x n % n < n := Int.emod_lt_of_pos _ hn
      omega
    · have hb := Int.gcd_eq_gcd_ab x n
      rw [hg] at hb
      have h1 : 0 ≤ Int.gcdA x n % n := Int.emod_nonneg _ (by omega)
      have hc : ((Int.gcdA x n % n).toNat : ℤ) = Int.gcdA x n % n := Int.toNat_of_nonneg h1
      simp only [beq_iff_eq, hc]
      calc x * (Int.gcdA x n % n) % n = x * Int.gcdA x n % n := by
            rw [Int.mul_emod, Int.emod_emod_of_dvd _ (dvd_refl n), ← Int.mul_emod]
        _ = (1 - n * Int.gcdB x n) % n := by
            congr 1
            push_cast at hb
            linarith
        _ = 1 % n := by
            rw [Int.sub_emod, Int.mul_emod_right]
            simp
  rcases Option.isSome_iff_exists.mp
      (List.find?_isSome.mpr hex) with ⟨y0, hy0⟩
  exact ⟨(y0 : ℤ), by simp [inv, hy0]⟩

/-- `inv` raises iff no inverse exists; in particular it raises whenever
`gcd(x, n) ≠ 1`, with payload `(x % n, n)`. -/
theorem inv_err_of_gcd_ne_one {x n : ℤ} (hn : 0 < n) (hg : Int.gcd x n ≠ 1) :
    inv x n = .error (.inverseNotFound (x % n) n) := by
  unfold inv
  rcases hf : (List.range n.toNat).find? (fun (y : ℕ) => x * (y : ℤ) % n == 1 % n) with _ | y0
  · rfl
  · exfalso
    have hp := List.find?_some hf
    simp only [beq_iff_eq] at hp
    apply hg
    have hdvd : Int.gcd x n ∣ 1 := by
      have h1 : (Int.gcd x n : ℤ) ∣ x * (y0 : ℤ) := Dvd.dvd.mul_right (Int.gcd_dvd_left) _
      have h2 : (Int.gcd x n : ℤ) ∣ n := Int.gcd_dvd_right
      have h3 : (Int.gcd x n : ℤ) ∣ x * (y0 : ℤ) % n := by
        rw [Int.emod_def]
        exact dvd_sub h1 (Dvd.dvd.mul_right h2 _)
      rw [hp] at h3
      have h4 : (Int.gcd x n : ℤ) ∣ 1 % n + n * (1 / n) :=
        dvd_add h3 (Dvd.dvd.mul_right h2 _)
      rw [Int.emod_add_ediv] at h4
      exact_mod_cast h4
    exact Nat.eq_one_of_dvd_one (by exact_mod_cast hdvd)

/-! ## Weierstrass curves (`wheel_sieve/ecm/ecm_weierstrass.py`)

A point is `Option (ℤ × ℤ)`; `none` embeds the sentinel `(None, None)`.
A curve is the triple `(a, b, n)`. -/

/-- Weierstrass point: `none` is the `(None, None)` infinity sentinel. -/
abbrev WPoint : Type := Option (ℤ × ℤ)

/-- Weierstrass curve `(a, b, n)` for `y² = x³ + a·x + b (mod n)`. -/
abbrev WCurve : Type := ℤ × ℤ × ℤ

/-- Embedding of `get_curve`: derive `b` from a point and `a`. -/
def get_curve (pt0 : ℤ × ℤ) (a n : ℤ) : WCurve :=
  (a, (pt0.2 ^ 2 - pt0.1 ^ 3 - a * pt0.1) % n, n)

/-- Embedding of `get_delta`: `gcd(4a³ + 27b² mod n, n) % n`. -/
def get_delta (curve : WCurve) : ℤ :=
  pyGcd ((4 * curve.1 ^ 3 + 27 * curve.2.1 ^ 2) % curve.2.2) curve.2.2 % curve.2.2

/-- Embedding of `neg_pt`: negate a point (no reduction: `(x, n - y)`). -/
def neg_pt (pt : WPoint) (curve : WCurve) : WPoint :=
  match pt with
  | none => none
  | some (x, y) => some (x, curve.2.2 - y)

/-- First half of the generator `add_pt_gen`: the denominator the generator
yields for inversion, or `none` when no inversion is required (one of the
operands is the infinity sentinel). -/
def add_pt_req (pt1 pt2 : WPoint) (curve : WCurve) : Option ℤ :=
  match pt1, pt2 with
  | none, _ => none
  | some _, none => none
  | some (x1, y1), some (x2, _) =>
    if pt1 = pt2 then some (2 * y1 % curve.2.2) else some ((x2 - x1) % curve.2.2)

/-- Second half of the generator `add_pt_gen`: the point it yields once the
inverse `res` of the requested denominator has been sent back.  Only used
when `add_pt_req` yielded a denominator, so both points are finite. -/
def add_pt_finish (pt1 pt2 : WPoint) (curve : WCurve) (res : ℤ) : WPoint :=
  match pt1, pt2 with
  | none, _ => pt2
  | some _, none => pt1
  | some (x1, y1), some (x2, y2) =>
    let n := curve.2.2
    let s := if pt1 = pt2 then (3 * x1 * x1 + curve.1) * res % n else (y2 - y1) * res % n
    let xr := (s * s - x1 - x2) % n
    some (xr, (s * (x1 - xr) - y1) % n)

/-- Embedding of `add_pt_exn`: drive `add_pt_gen`, feeding it `inv` of the
yielded denominator (raising `InverseNotFound` when it does not exist). -/
def add_pt_exn (pt1 pt2 : WPoint) (curve : WCurve) : Py WPoint :=
  match add_pt_req pt1 pt2 curve with
  | none => .ok (match pt1 with | none => pt2 | some _ => pt1)
  | some d => (inv d curve.2.2).map (add_pt_finish pt1 pt2 curve)

/-- The double-and-add loop of `mul_pt_exn` (its `while k >= 1` body, for a
non-negative multiplier). -/
def mul_pt_loop (curve : WCurve) (res point : WPoint) (k : ℕ) : Py WPoint :=
  if k = 0 then .ok res
  else do
    let res' ← if k % 2 = 1 then add_pt_exn res point curve else pure res
    let point' ← add_pt_exn point point curve
    mul_pt_loop curve res' point' (k / 2)
decreasing_by exact Nat.div_lt_self (Nat.pos_of_ne_zero (by assumption)) (by omega)

/-- Embedding of `mul_pt_exn`: scalar multiplication by `k` (a negative `k`
negates the point first). -/
def mul_pt_exn (point : WPoint) (curve : WCurve) (k : ℤ) : Py WPoint :=
  if k < 0 then mul_pt_loop curve none (neg_pt point curve) (-k).toNat
  else mul_pt_loop curve none point k.toNat

/-! ### Claim C10 -/

/-- C10: for every curve `(a, b, n)` and every `x`, `neg_pt (x, 0)` returns
`(x, n)`, whose `y`-coordinate equals `n` and hence lies outside the
normalized range `[0, n)`; and for a finite point with `0 < y < n`, the
result `(x, n - y)` is normalized. -/
theorem claim_C10_neg_pt (a b n x y : ℤ) :
    neg_pt (some (x, 0)) (a, b, n) = some (x, n) ∧ ¬ (n < n) ∧
    (0 < y → y < n → neg_pt (some (x, y)) (a, b, n) = some (x, n - y) ∧
      0 ≤ n - y ∧ n - y < n) := by
  refine ⟨by simp [neg_pt], by omega, fun h1 h2 => ⟨by simp [neg_pt], by omega, by omega⟩⟩

theorem claim_C10_neg_pt_witness :
    neg_pt (some (7, 0)) (1, 1, 5) = some (7, 5) ∧ ¬ ((5 : ℤ) < 5) ∧
    (0 < (2 : ℤ) → (2 : ℤ) < 5 → neg_pt (some (7, 2)) (1, 1, 5) = some (7, 3) ∧
      (0 : ℤ) ≤ 5 - 2 ∧ (5 : ℤ) - 2 < 5) := by
  have h := claim_C10_neg_pt 1 1 5 7 2
  simpa using h

/-! ### Claim C3 -/

/-- The identity branches: adding the infinity sentinel is the identity. -/
theorem add_pt_exn_none_left (pt : WPoint) (curve : WCurve) :
    add_pt_exn none pt curve = .ok pt := by
  cases pt <;> rfl

theorem add_pt_exn_none_right (pt : WPoint) (curve : WCurve) :
    add_pt_exn pt none curve = .ok pt := by
  cases pt <;> rfl

/-- For a finite point `P = (x, y)` on a curve with modulus `n ≥ 2`,
`add_pt_exn P (neg_pt P)` raises `InverseNotFound(0, n)` instead of
returning the infinity sentinel. -/
theorem add_pt_exn_neg_raises (x y a b n : ℤ) (hn : 2 ≤ n) :
    add_pt_exn (some (x, y)) (neg_pt (some (x, y)) (a, b, n)) (a, b, n) =
      .error (.inverseNotFound 0 n) := by
  unfold add_pt_exn add_pt_req neg_pt
  by_cases h : (some (x, y) : WPoint) = some (x, n - y)
  · have hy : n - y = y := by
      injection h with h'
      have := congrArg Prod.snd h'
      simpa using this.symm
    have h2y : 2 * y % n = 0 := by
      have : 2 * y = n := by omega
      simp [this]
    simp only [h, if_true, h2y]
    have hg : Int.gcd 0 n ≠ 1 := by
      rw [Int.gcd]
      simp only [Int.natAbs_zero, Nat.gcd_zero_left]
      omega
    rw [inv_err_of_gcd_ne_one (by omega) hg]
    simp [Except.map, Int.zero_emod]
  · have hxx : (x - x) % n = 0 := by simp
    simp only [h, if_false, hxx]
    have hg : Int.gcd 0 n ≠ 1 := by
      rw [Int.gcd]
      simp only [Int.natAbs_zero, Nat.gcd_zero_left]
      omega
    rw [inv_err_of_gcd_ne_one (by omega) hg]
    simp [Except.map, Int.zero_emod]

/-- C3 counterexample: on the curve `y² = x³ + x + 1 (mod 5)` with the
on-curve point `P = (0, 1)`, `add_pt_exn P (neg_pt P)` raises
`InverseNotFound` rather than returning the infinity point, refuting the
claim that `add(P, neg(P)) = O` for every on-curve point. -/
theorem claim_C3_counterexample :
    ((1 : ℤ) ^ 2 - (0 : ℤ) ^ 3 - 1 * 0 - 1) % 5 = 0 ∧
    neg_pt (some (0, 1)) (1, 1, 5) = some (0, 4) ∧
    add_pt_exn (some (0, 1)) (neg_pt (some (0, 1)) (1, 1, 5)) (1, 1, 5) =
      .error (.inverseNotFound 0 5) ∧
    ∀ q : WPoint, (Except.error (PyExc.inverseNotFound 0 5) : Py WPoint) ≠ .ok q := by
  refine ⟨by decide, by decide, ?_, fun q h => by cases h⟩
  exact add_pt_exn_neg_raises 0 1 1 1 5 (by omega)

/-- C3 (amended): for every curve with modulus `n ≥ 2` and every point `P`
(infinity included), `add(O, P) = add(P, O) = P`; and `add(P, neg(P))`
returns the infinity point when `P = O`, while for finite `P` it raises
`InverseNotFound(0, n)` — the exception by which the implementation signals
a sum at infinity — instead of returning the sentinel. -/
theorem claim_C3_add_neg (a b n : ℤ) (P : WPoint) (hn : 2 ≤ n) :
    add_pt_exn none P (a, b, n) = .ok P ∧
    add_pt_exn P none (a, b, n) = .ok P ∧
    (P = none → add_pt_exn P (neg_pt P (a, b, n)) (a, b, n) = .ok none) ∧
    (∀ x y, P = some (x, y) →
      add_pt_exn P (neg_pt P (a, b, n)) (a, b, n) = .error (.inverseNotFound 0 n)) := by
  refine ⟨add_pt_exn_none_left P _, add_pt_exn_none_right P _, ?_, ?_⟩
  · rintro rfl
    rfl
  · rintro x y rfl
    exact add_pt_exn_neg_raises x y a b n hn

/-! ## Montgomery XZ curves (`src/ecm_montgomery.py`)

The package module `wheel_sieve/ecm/ecm_montgomery.py` is not present in the
sources; its functions are embedded from the sibling implementation
`src/ecm_montgomery.py`, which the specification describes identically.
A point is the projective pair `(X, Z)`; a curve is `(A, s, n)` with
`s = (A + 2)/4 mod n`. -/

/-- Montgomery XZ point `(X, Z)`. -/
abbrev MPoint : Type := ℤ × ℤ

/-- Montgomery curve `(A, s, n)`. -/
abbrev MCurve : Type := ℤ × ℤ × ℤ

namespace Mnt

/-- Embedding of `get_curve_suyama` (including the source's unparenthesized
`sigma ** 2 - 5 % n`, which is `σ² - (5 % n)` under Python precedence). -/
def get_curve_suyama (sigma n : ℤ) : Py (MPoint × MCurve) :=
  if sigma % n = n - 5 ∨ sigma % n = n - 3 ∨ sigma % n = n - 1 ∨ sigma % n = 0 ∨
      sigma % n = 1 ∨ sigma % n = 3 ∨ sigma % n = 5 ∨
      sigma * 3 % n = n - 5 ∨ sigma * 3 % n = 5 then
    .error .curveInitFail
  else do
    let u := sigma ^ 2 - 5 % n
    let v := 4 * sigma % n
    let x0 := u ^ 3 % n
    let z0 := v ^ 3 % n
    let ai ← inv (4 * u ^ 3 * v) n
    let A := ((v - u) ^ 3 * (3 * u + v) * ai - 2) % n
    if A = n - 2 ∨ A = 2 then .error .curveInitFail
    else do
      let fi ← inv 4 n
      let s := (A + 2) * fi % n
      .ok ((x0, z0), (A, s, n))

/-- Embedding of `add_pt` (differential addition). -/
def add_pt (ptp ptq pt_ : MPoint) (curve : MCurve) : MPoint :=
  let n := curve.2.2
  let u := (ptp.1 - ptp.2) * (ptq.1 + ptq.2) % n
  let v := (ptp.1 + ptp.2) * (ptq.1 - ptq.2) % n
  (pt_.2 * ((u + v) ^ 2 % n) % n, pt_.1 * ((u - v) ^ 2 % n) % n)

/-- Embedding of `dbl_pt` (doubling with the precomputed `s`). -/
def dbl_pt (pt : MPoint) (curve : MCurve) : MPoint :=
  let n := curve.2.2
  let a := (pt.1 + pt.2) ^ 2 % n
  let b := (pt.1 - pt.2) ^ 2 % n
  let t := a - b
  (a * b % n, t * ((b + curve.2.1 * t) % n) % n)

/-- Embedding of `check`: raise `InverseNotFound(Z, n)` when `gcd(Z, n) > 1`
(the point is at infinity), otherwise return the point. -/
def check (pt : MPoint) (curve : MCurve) : Py MPoint :=
  if 1 < pyGcd pt.2 curve.2.2 then .error (.inverseNotFound pt.2 curve.2.2) else .ok pt

/-- Embedding of `add_pt_exn`. -/
def add_pt_exn (ptp ptq pt_ : MPoint) (curve : MCurve) : Py MPoint :=
  check (add_pt ptp ptq pt_ curve) curve

/-- The `while j >= 1` ladder loop of `mul_pt_exn`, walking the bits of `k`
from `j` down to `1` with state `(res0, res1)`. -/
def mul_pt_ladder (curve : MCurve) (pt : MPoint) (k : ℕ) :
    MPoint → MPoint → ℕ → MPoint × MPoint
  | res0, res1, 0 => (res0, res1)
  | res0, res1, j + 1 =>
    if (k >>> (j + 1)) % 2 = 1 then
      mul_pt_ladder curve pt k (add_pt res1 res0 pt curve) (dbl_pt res1 curve) j
    else
      mul_pt_ladder curve pt k (dbl_pt res0 curve) (add_pt res1 res0 pt curve) j

/-- Embedding of `mul_pt_exn` for a non-negative multiplier (the Montgomery
ladder; `k.bit_length() - 2` is `Nat.log2 k - 1` for `k ≥ 1`). -/
def mul_pt_exn_nat (pt : MPoint) (curve : MCurve) (k : ℕ) : Py MPoint :=
  if k = 0 then check (0, 0) curve
  else if k = 1 then check pt curve
  else if k = 2 then check (dbl_pt pt curve) curve
  else
    let rp := mul_pt_ladder curve pt k pt (dbl_pt pt curve) (Nat.log2 k - 1)
    let res0 := if k % 2 = 1 then add_pt rp.2 rp.1 pt curve else dbl_pt rp.1 curve
    check res0 curve

/-- Embedding of `mul_pt_exn`: a negative `k` multiplies by `-k` (X and Z
coordinates agree for `P` and `-P`). -/
def mul_pt_exn (pt : MPoint) (curve : MCurve) (k : ℤ) : Py MPoint :=
  if k < 0 then mul_pt_exn_nat pt curve (-k).toNat else mul_pt_exn_nat pt curve k.toNat

/-- Embedding of `to_weierstrass`.  Its two `assert` statements are embedded
as explicit checks raising `AssertionError`. -/
def to_weierstrass (pt : MPoint) (curve : MCurve) : Py ((ℤ × ℤ) × WCurve) := do
  let x := pt.1
  let z := pt.2
  let A := curve.1
  let n := curve.2.2
  let zi ← inv z n
  let x_norm := x * zi
  let B := (x_norm ^ 3 + A * x_norm ^ 2 + x_norm) % n
  if B * 1 ^ 2 % n = (x_norm ^ 3 + A * x_norm ^ 2 + x_norm) % n then
    do
      let B_inv ← inv B n
      let three_inv ← inv 3 n
      let t := (x_norm * B_inv + A * three_inv * B_inv) % n
      let v := 1 * B_inv % n
      let a := (3 - A ^ 2) * three_inv * B_inv * B_inv % n
      let b := (2 * A ^ 3 - 9 * A) * (three_inv * B_inv % n) ^ 3 % n
      if v ^ 2 % n = (t ^ 3 + a * t + b) % n then
        .ok ((t, v), (a, b, n))
      else .error .assertionError
  else .error .assertionError

end Mnt

/-! ### Claim C8 -/

/-- Bad-parameter guard of `get_curve_suyama`, as written in the source. -/
def suyamaBad (sigma n : ℤ) : Prop :=
  sigma % n = n - 5 ∨ sigma % n = n - 3 ∨ sigma % n = n - 1 ∨ sigma % n = 0 ∨
    sigma % n = 1 ∨ sigma % n = 3 ∨ sigma % n = 5 ∨
    sigma * 3 % n = n - 5 ∨ sigma * 3 % n = 5

instance (sigma n : ℤ) : Decidable (suyamaBad sigma n) := by
  unfold suyamaBad
  infer_instance

/-- The unreduced `u = σ² - (5 % n)` of `get_curve_suyama`. -/
def suyamaU (sigma n : ℤ) : ℤ := sigma ^ 2 - 5 % n

/-- The `v = 4σ % n` of `get_curve_suyama`. -/
def suyamaV (sigma n : ℤ) : ℤ := 4 * sigma % n

/-- The denominator `4u³v` whose inverse `get_curve_suyama` needs. -/
def suyamaDen (sigma n : ℤ) : ℤ := 4 * suyamaU sigma n ^ 3 * suyamaV sigma n

/-- The curve parameter `A` computed by `get_curve_suyama` from the inverse
`ai` of `4u³v`. -/
def suyamaA (sigma n ai : ℤ) : ℤ :=
  ((suyamaV sigma n - suyamaU sigma n) ^ 3 *
    (3 * suyamaU sigma n + suyamaV sigma n) * ai - 2) % n

/-- Restatement of `get_curve_suyama` through the named abbreviations; equal
to the embedding by unfolding. -/
def get_curve_suyama_spec (sigma n : ℤ) : Py (MPoint × MCurve) :=
  if suyamaBad sigma n then .error .curveInitFail
  else do
    let ai ← inv (suyamaDen sigma n) n
    let A := suyamaA sigma n ai
    if A = n - 2 ∨ A = 2 then .error .curveInitFail
    else do
      let fi ← inv 4 n
      .ok ((suyamaU sigma n ^ 3 % n, suyamaV sigma n ^ 3 % n),
           (A, (A + 2) * fi % n, n))

theorem get_curve_suyama_eq (sigma n : ℤ) :
    Mnt.get_curve_suyama sigma n = get_curve_suyama_spec sigma n := rfl

/-- C8 counterexample: at `n = 13`, `σ = 0`, the code raises `CurveInitFail`,
although `σ mod n = 0` is outside the claim's bad-parameter set
`{1, 3, 5, n-1, n-3, n-5}` and the parameter `A` is not even computable there
(the required inverse of `4u³v = 0` does not exist). -/
theorem claim_C8_counterexample :
    Mnt.get_curve_suyama 0 13 = .error .curveInitFail ∧
    ((0 : ℤ) % 13 ≠ 1 ∧ (0 : ℤ) % 13 ≠ 3 ∧ (0 : ℤ) % 13 ≠ 5 ∧
      (0 : ℤ) % 13 ≠ 12 ∧ (0 : ℤ) % 13 ≠ 10 ∧ (0 : ℤ) % 13 ≠ 8) ∧
    suyamaDen 0 13 = 0 ∧
    inv (suyamaDen 0 13) 13 = .error (.inverseNotFound 0 13) := by
  refine ⟨by decide, by decide, by decide, by decide⟩

/-- C8 (amended): `get_curve_suyama σ n` raises `CurveInitFail` exactly when
`σ mod n ∈ {0, ±1, ±3, ±5}` or `3σ mod n ≡ ±5`, or — when those checks pass
and the inverse of `4u³v` exists — the computed `A` is `±2 mod n`; when the
checks pass and both required inverses (of `4u³v` and of `4`) exist with
`A ≢ ±2`, it returns the Suyama point `(u³, v³)` and curve `(A, s, n)`. -/
theorem claim_C8_get_curve_suyama (sigma n : ℤ) (hn : 12 ≤ n) :
    (suyamaBad sigma n →
      Mnt.get_curve_suyama sigma n = .error .curveInitFail) ∧
    (¬ suyamaBad sigma n →
      (Int.gcd (suyamaDen sigma n) n ≠ 1 →
        Mnt.get_curve_suyama sigma n =
          .error (.inverseNotFound (suyamaDen sigma n % n) n)) ∧
      (∀ ai, inv (suyamaDen sigma n) n = .ok ai →
        (suyamaA sigma n ai = n - 2 ∨ suyamaA sigma n ai = 2 →
          Mnt.get_curve_suyama sigma n = .error .curveInitFail) ∧
        (suyamaA sigma n ai ≠ n - 2 → suyamaA sigma n ai ≠ 2 →
          ∀ fi, inv 4 n = .ok fi →
          Mnt.get_curve_suyama sigma n =
            .ok ((suyamaU sigma n ^ 3 % n, suyamaV sigma n ^ 3 % n),
                 (suyamaA sigma n ai, (suyamaA sigma n ai + 2) * fi % n, n))))) := by
  rw [get_curve_suyama_eq]
  unfold get_curve_suyama_spec
  constructor
  · intro hbad
    rw [if_pos hbad]
  · intro hbad
    rw [if_neg hbad]
    refine ⟨?_, ?_⟩
    · intro hg
      rw [inv_err_of_gcd_ne_one (by omega) hg]
      rfl
    · intro ai hai
      rw [hai]
      simp only [py_bind_ok]
      constructor
      · intro hA
        rw [if_pos hA]
      · intro hA1 hA2 fi hfi
        rw [if_neg (show ¬(suyamaA sigma n ai = n - 2 ∨ suyamaA sigma n ai = 2) by tauto), hfi]
        rfl

theorem claim_C8_get_curve_suyama_witness :
    (12 : ℤ) ≤ 13 ∧ suyamaBad 0 13 ∧
    Mnt.get_curve_suyama 0 13 = .error .curveInitFail := by
  refine ⟨by omega, by decide, ?_⟩
  exact (claim_C8_get_curve_suyama 0 13 (by omega)).1 (by decide)

theorem claim_C3_add_neg_witness :
    add_pt_exn none (some (0, 1)) (1, 1, 5) = .ok (some (0, 1)) ∧
    add_pt_exn (some (0, 1)) none (1, 1, 5) = .ok (some (0, 1)) ∧
    ((some (0, 1) : WPoint) = none →
      add_pt_exn (some (0, 1)) (neg_pt (some (0, 1)) (1, 1, 5)) (1, 1, 5) = .ok none) ∧
    (∀ x y, (some (0, 1) : WPoint) = some (x, y) →
      add_pt_exn (some (0, 1)) (neg_pt (some (0, 1)) (1, 1, 5)) (1, 1, 5) =
        .error (.inverseNotFound 0 5)) :=
  claim_C3_add_neg 1 1 5 (some (0, 1)) (by omega)

/-! ## Polynomials mod n (`wheel_sieve/polynomial.py`)

The Python class `Polynomial` stores a coefficient list (low degree first)
and the modulus `n`.  It is embedded as `Poly` (the bare name `Polynomial`
is kept for Mathlib's polynomials, used as the semantic domain).  All
coefficients produced by the package are non-negative integers, so they are
embedded as `ℕ`; the individual coefficient computations go through `ℤ` and
reduce with Python's `%` semantics. -/

/-- Python `int.bit_length`, by fuel-bounded halving (`x` itself bounds the
number of halvings, and the recursion stops at 0, so kernel reduction takes
only `log x` steps). -/
def bitLenAux : ℕ → ℕ → ℕ
  | 0, _ => 0
  | fuel + 1, x => if x = 0 then 0 else bitLenAux fuel (x / 2) + 1

/-- Python `int.bit_length`. -/
def pyBitLength (x : ℕ) : ℕ := bitLenAux x x

theorem bitLenAux_lt_two_pow {fuel x : ℕ} (h : x ≤ fuel) :
    x < 2 ^ bitLenAux fuel x := by
  induction fuel generalizing x with
  | zero =>
    interval_cases x
    simp [bitLenAux]
  | succ fuel ih =>
    unfold bitLenAux
    by_cases hx : x = 0
    · simp [hx]
    · rw [if_neg hx]
      have h2 : x / 2 ≤ fuel := by omega
      have := ih h2
      rw [pow_succ]
      omega

theorem lt_two_pow_pyBitLength (x : ℕ) : x < 2 ^ pyBitLength x :=
  bitLenAux_lt_two_pow le_rfl

theorem bitLenAux_le_iff {fuel x b : ℕ} (h : x ≤ fuel) :
    bitLenAux fuel x ≤ b ↔ x < 2 ^ b := by
  induction fuel generalizing x b with
  | zero =>
    interval_cases x
    simp [bitLenAux]
  | succ fuel ih =>
    unfold bitLenAux
    by_cases hx : x = 0
    · simp [hx]
    · rw [if_neg hx]
      cases b with
      | zero =>
        simp only [Nat.add_one_le_iff]
        constructor
        · intro hlt
          omega
        · intro hlt
          interval_cases x
          exact absurd rfl hx
      | succ b =>
        have h2 : x / 2 ≤ fuel := by omega
        rw [Nat.add_le_add_iff_right, ih h2, pow_succ]
        omega

/-- Python `z % n` for a non-negative modulus, as a natural number. -/
def zmod_ (z : ℤ) (n : ℕ) : ℕ := (z % (n : ℤ)).toNat

/-- List indexing with Python semantics: a negative index counts from the
end of the list.  (Out-of-range access, which raises `IndexError` in Python,
is given the junk value 0; every access in the package is proven in range.) -/
def pyGet (l : List ℕ) (i : ℤ) : ℕ :=
  if 0 ≤ i then l.getD i.toNat 0 else l.getD (l.length - (-i).toNat) 0

/-- Python `list[-m:]`: the last `m` elements (the whole list when shorter). -/
def takeLast (m : ℕ) (l : List ℕ) : List ℕ := l.drop (l.length - m)

/-- The trailing-zero trim loop `while len(res) > 1 and res[-1] == 0: res.pop()`
(acting on the reversed list). -/
def trimRevAux : List ℕ → List ℕ
  | [] => []
  | [a] => [a]
  | a :: b :: as => if a = 0 then trimRevAux (b :: as) else a :: b :: as

/-- Trim trailing zeros, keeping at least one element. -/
def pyTrim (l : List ℕ) : List ℕ := (trimRevAux l.reverse).reverse

/-- The three `while` loops of `Polynomial.__add__` (before trimming). -/
def addLoop (n : ℕ) : List ℕ → List ℕ → List ℕ
  | [], [] => []
  | [], b :: bs => b :: addLoop n [] bs
  | a :: as, [] => a :: addLoop n as []
  | a :: as, b :: bs => (a + b) % n :: addLoop n as bs

/-- The three `while` loops of `Polynomial.__sub__` (before trimming); the
second operand's tail is negated as `self.n - other.coeff[i]` exactly as in
the source (coefficients are `≤ n` throughout the package, so the natural
subtraction is the Python one). -/
def subLoop (n : ℕ) : List ℕ → List ℕ → List ℕ
  | [], [] => []
  | [], b :: bs => (n - b) :: subLoop n [] bs
  | a :: as, [] => a :: subLoop n as []
  | a :: as, b :: bs => zmod_ ((a : ℤ) - (b : ℤ)) n :: subLoop n as bs

/-- Coefficient-list addition of `Polynomial.__add__` (with trim). -/
def pAdd (n : ℕ) (a b : List ℕ) : List ℕ := pyTrim (addLoop n a b)

/-- Coefficient-list subtraction of `Polynomial.__sub__` (with trim). -/
def pSub (n : ℕ) (a b : List ℕ) : List ℕ := pyTrim (subLoop n a b)

/-- `bytes` packing of `Polynomial.__mul__`: the big integer whose base-`B`
digits are the coefficients (`B = 2^(8·k_8)` is the byte-aligned slot). -/
def packInt (B : ℕ) : List ℕ → ℕ
  | [] => 0
  | a :: as => a + B * packInt B as

/-- Window unpacking of `Polynomial.__mul__`: read `w` base-`B` digits of
`t`, each reduced mod `n`. -/
def unpackWindows (n B t : ℕ) : ℕ → List ℕ
  | 0 => []
  | w + 1 => t % B % n :: unpackWindows n B (t / B) w

/-- Coefficient-list multiplication of `Polynomial.__mul__` (Kronecker
substitution: pack, one big-integer multiplication, unpack; no trim).
`Nat.size` is Python's `int.bit_length`; the number of emitted windows is
`ceil(bytelen(t) / k_8)` as in the source's unpacking loop. -/
def pMul (n : ℕ) (a b : List ℕ) : List ℕ :=
  let d := max a.length b.length
  let k := pyBitLength (d * n ^ 2 + 1)
  let k8 := (k - 1) / 8 + 1
  let B := 2 ^ (8 * k8)
  let t := packInt B a * packInt B b
  let bytelen := if t = 0 then 0 else (pyBitLength t - 1) / 8 + 1
  unpackWindows n B t ((bytelen + k8 - 1) / k8)

/-- Embedding of the Python class `Polynomial(coeff, n)`. -/
structure Poly : Type where
  coeff : List ℕ
  n : ℕ
deriving DecidableEq, Repr

/-- `Polynomial.__add__` (call sites always share one modulus, so the
source's `ValueError` guard for mismatched moduli is not modelled). -/
def Poly.add (f g : Poly) : Poly := ⟨pAdd f.n f.coeff g.coeff, f.n⟩

/-- `Polynomial.__sub__`. -/
def Poly.sub (f g : Poly) : Poly := ⟨pSub f.n f.coeff g.coeff, f.n⟩

/-- `Polynomial.__mul__`. -/
def Poly.mul (f g : Poly) : Poly := ⟨pMul f.n f.coeff g.coeff, f.n⟩

/-- `Polynomial.__getitem__` with a slice `[i:]` (the only slice form the
package uses). -/
def Poly.dropLow (f : Poly) (i : ℕ) : Poly := ⟨f.coeff.drop i, f.n⟩

/-! ### Claim C7 -/

/-- The trimmed representation: non-empty, and the last element is non-zero
unless the polynomial is the zero polynomial represented as `[0]`. -/
def TrimmedRep (l : List ℕ) : Prop :=
  l ≠ [] ∧ (l ≠ [0] → l.getLast? ≠ some 0)

instance (l : List ℕ) : Decidable (TrimmedRep l) := by
  unfold TrimmedRep
  infer_instance

theorem trimRevAux_ne_nil {m : List ℕ} (h : m ≠ []) : trimRevAux m ≠ [] := by
  induction m with
  | nil => exact absurd rfl h
  | cons a as ih =>
    cases as with
    | nil => simp [trimRevAux]
    | cons b bs =>
      unfold trimRevAux
      by_cases ha : a = 0
      · simpa [ha] using ih (by simp)
      · simp [ha]

theorem trimRevAux_head {m : List ℕ} {a : ℕ} {as : List ℕ}
    (h : trimRevAux m = a :: as) (hne : as ≠ []) : a ≠ 0 := by
  induction m with
  | nil => cases h
  | cons c cs ih =>
    cases cs with
    | nil =>
      unfold trimRevAux at h
      injection h with h1 h2
      subst h2
      exact absurd rfl hne
    | cons b bs =>
      unfold trimRevAux at h
      by_cases hc : c = 0
      · rw [if_pos hc] at h
        exact ih h
      · rw [if_neg hc] at h
        injection h with h1 h2
        subst h1
        exact hc

/-- `pyTrim` establishes the trimmed representation on any non-empty list. -/
theorem pyTrim_trimmedRep {l : List ℕ} (h : l ≠ []) : TrimmedRep (pyTrim l) := by
  unfold pyTrim
  have hrev : l.reverse ≠ [] := by simpa using h
  have hne := trimRevAux_ne_nil hrev
  rcases ht : trimRevAux l.reverse with _ | ⟨a, as⟩
  · exact absurd ht hne
  · constructor
    · simp
    · intro hne0 hlast
      rw [List.getLast?_reverse] at hlast
      simp only [List.head?_cons, Option.some.injEq] at hlast
      subst hlast
      cases as with
      | nil => exact hne0 rfl
      | cons b bs => exact trimRevAux_head ht (by simp) rfl

noncomputable def toP (n : ℕ) : List ℕ → Polynomial (ZMod n)
  | [] => 0
  | a :: as => Polynomial.C (a : ZMod n) + Polynomial.X * toP n as

theorem toP_nil (n : ℕ) : toP n [] = 0 := rfl

theorem toP_cons (n a : ℕ) (as : List ℕ) :
    toP n (a :: as) = Polynomial.C (a : ZMod n) + Polynomial.X * toP n as := rfl

theorem toP_coeff (n : ℕ) (l : List ℕ) (i : ℕ) :
    (toP n l).coeff i = (l.getD i 0 : ZMod n) := by
  induction l generalizing i with
  | nil => simp [toP]
  | cons a as ih =>
    cases i with
    | zero => simp [toP]
    | succ i =>
      simp only [toP, Polynomial.coeff_add, Polynomial.coeff_C, Polynomial.coeff_X_mul, ih,
        List.getD_cons_succ]
      simp

theorem toP_eq_iff {n : ℕ} {a b : List ℕ} :
    toP n a = toP n b ↔ ∀ i, (a.getD i 0 : ZMod n) = (b.getD i 0 : ZMod n) := by
  constructor
  · intro h i
    rw [← toP_coeff, ← toP_coeff, h]
  · intro h
    apply Polynomial.ext
    intro i
    rw [toP_coeff, toP_coeff]
    exact h i

theorem zmod_cast {n : ℕ} (hn : 0 < n) (z : ℤ) :
    ((zmod_ z n : ℕ) : ZMod n) = (z : ZMod n) := by
  unfold zmod_
  have h0 : (0 : ℤ) ≤ z % (n : ℤ) := Int.emod_nonneg _ (by positivity)
  have : (((z % (n : ℤ)).toNat : ℕ) : ZMod n) = (((z % (n : ℤ)) : ℤ) : ZMod n) := by
    rw [← Int.cast_natCast, Int.toNat_of_nonneg h0]
  rw [this, ZMod.intCast_mod]

theorem natCast_sub_cast {n b : ℕ} (hb : b ≤ n) :
    ((n - b : ℕ) : ZMod n) = - (b : ZMod n) := by
  have : ((n - b : ℕ) : ZMod n) + (b : ZMod n) = ((n : ℕ) : ZMod n) := by
    rw [← Nat.cast_add]
    congr 1
    omega
  rw [ZMod.natCast_self] at this
  exact eq_neg_of_add_eq_zero_left this

theorem toP_addLoop (n : ℕ) (a b : List ℕ) :
    toP n (addLoop n a b) = toP n a + toP n b := by
  induction a generalizing b with
  | nil =>
    induction b with
    | nil => simp [addLoop, toP]
    | cons x xs ihb =>
      simp only [addLoop, toP, ihb]
      ring
  | cons x xs ih =>
    cases b with
    | nil =>
      simp only [addLoop, toP]
      rw [ih [], toP_nil]
      ring
    | cons y ys =>
      simp only [addLoop, toP, ih ys]
      rw [ZMod.natCast_mod, Nat.cast_add, map_add]
      ring

theorem toP_subLoop (n : ℕ) (a b : List ℕ) (hb : ∀ c ∈ b, c ≤ n) :
    toP n (subLoop n a b) = toP n a - toP n b := by
  induction a generalizing b with
  | nil =>
    induction b with
    | nil => simp [subLoop, toP]
    | cons x xs ihb =>
      simp only [subLoop, toP]
      rw [ihb (fun c hc => hb c (by simp [hc]))]
      rw [natCast_sub_cast (hb x (by simp)), map_neg, toP_nil]
      ring
  | cons x xs ih =>
    cases b with
    | nil =>
      simp only [subLoop, toP]
      rw [ih [] (by simp), toP_nil]
      ring
    | cons y ys =>
      simp only [subLoop, toP]
      rw [ih ys (fun c hc => hb c (by simp [hc]))]
      by_cases hn : 0 < n
      · rw [zmod_cast hn]
        push_cast
        rw [map_sub]
        ring
      · have hn0 : n = 0 := by omega
        subst hn0
        have hy : y = 0 := by simpa using hb y (by simp)
        subst hy
        unfold zmod_
        rw [Nat.cast_zero, sub_zero, Int.emod_zero, Int.toNat_natCast]
        simp only [Polynomial.C_0, Nat.cast_zero]
        ring

theorem toP_append (n : ℕ) (a b : List ℕ) :
    toP n (a ++ b) = toP n a + Polynomial.X ^ a.length * toP n b := by
  induction a with
  | nil => simp [toP]
  | cons x xs ih =>
    simp only [List.cons_append, List.append_eq, toP, List.length_cons]
    rw [ih]
    ring

theorem toP_replicate_zero (n k : ℕ) : toP n (List.replicate k 0) = 0 := by
  induction k with
  | zero => simp [toP]
  | succ k ih => simp [List.replicate_succ, toP, ih]

theorem trimRevAux_eats_zeros (m : List ℕ) :
    ∃ k, m = List.replicate k 0 ++ trimRevAux m := by
  induction m with
  | nil => exact ⟨0, rfl⟩
  | cons a as ih =>
    cases as with
    | nil => exact ⟨0, rfl⟩
    | cons b bs =>
      unfold trimRevAux
      by_cases ha : a = 0
      · rcases ih with ⟨k, hk⟩
        subst ha
        rw [if_pos rfl]
        exact ⟨k + 1, by rw [List.replicate_succ, List.cons_append, ← hk]⟩
      · rw [if_neg ha]
        exact ⟨0, rfl⟩

theorem toP_pyTrim (n : ℕ) (l : List ℕ) : toP n (pyTrim l) = toP n l := by
  unfold pyTrim
  rcases trimRevAux_eats_zeros l.reverse with ⟨k, hk⟩
  have hl : l = (trimRevAux l.reverse).reverse ++ List.replicate k 0 := by
    conv_lhs => rw [← List.reverse_reverse l, hk]
    rw [List.reverse_append, List.reverse_replicate]
  conv_rhs => rw [hl]
  rw [toP_append, toP_replicate_zero]
  ring

theorem toP_pAdd (n : ℕ) (a b : List ℕ) :
    toP n (pAdd n a b) = toP n a + toP n b := by
  unfold pAdd
  rw [toP_pyTrim, toP_addLoop]

theorem toP_pSub (n : ℕ) (a b : List ℕ) (hb : ∀ c ∈ b, c ≤ n) :
    toP n (pSub n a b) = toP n a - toP n b := by
  unfold pSub
  rw [toP_pyTrim, toP_subLoop n a b hb]

theorem toP_drop (n : ℕ) (l : List ℕ) (d : ℕ) :
    toP n l = toP n (l.take d) + Polynomial.X ^ (l.take d).length * toP n (l.drop d) := by
  conv_lhs => rw [← List.take_append_drop d l]
  rw [toP_append]

/-! ### Correctness of the Kronecker-substitution multiplication -/

/-- Pointwise (uncarried, untruncated) addition of coefficient lists. -/
def addFree : List ℕ → List ℕ → List ℕ
  | [], ys => ys
  | x :: xs, [] => x :: xs
  | x :: xs, y :: ys => (x + y) :: addFree xs ys

/-- Schoolbook convolution of coefficient lists over `ℕ` (no reduction). -/
def conv : List ℕ → List ℕ → List ℕ
  | [], _ => []
  | a :: as, b => addFree (b.map (a * ·)) (0 :: conv as b)

theorem packInt_addFree (B : ℕ) (x y : List ℕ) :
    packInt B (addFree x y) = packInt B x + packInt B y := by
  induction x generalizing y with
  | nil => simp [addFree, packInt]
  | cons a as ih =>
    cases y with
    | nil => simp [addFree, packInt]
    | cons b bs =>
      simp only [addFree, packInt, ih]
      ring

theorem packInt_map_mul (B a : ℕ) (b : List ℕ) :
    packInt B (b.map (a * ·)) = a * packInt B b := by
  induction b with
  | nil => simp [packInt]
  | cons c cs ih =>
    simp only [List.map_cons, packInt, ih]
    ring

theorem packInt_conv (B : ℕ) (a b : List ℕ) :
    packInt B (conv a b) = packInt B a * packInt B b := by
  induction a with
  | nil => simp [conv, packInt]
  | cons c cs ih =>
    simp only [conv, packInt_addFree, packInt_map_mul, packInt, ih]
    ring

theorem toP_addFree (n : ℕ) (x y : List ℕ) :
    toP n (addFree x y) = toP n x + toP n y := by
  induction x generalizing y with
  | nil => simp [addFree, toP]
  | cons a as ih =>
    cases y with
    | nil => simp [addFree, toP]
    | cons b bs =>
      simp only [addFree, toP, ih]
      push_cast
      rw [map_add]
      ring

theorem toP_map_mul (n a : ℕ) (b : List ℕ) :
    toP n (b.map (a * ·)) = Polynomial.C (a : ZMod n) * toP n b := by
  induction b with
  | nil => simp [toP]
  | cons c cs ih =>
    simp only [List.map_cons, toP, ih]
    push_cast
    rw [map_mul]
    ring

theorem toP_conv (n : ℕ) (a b : List ℕ) :
    toP n (conv a b) = toP n a * toP n b := by
  induction a with
  | nil => simp [conv, toP]
  | cons c cs ih =>
    simp only [conv, toP_addFree, toP_map_mul, toP, ih, Nat.cast_zero, Polynomial.C_0]
    ring

theorem addFree_entry_le {x y : List ℕ} {p q : ℕ}
    (hx : ∀ c ∈ x, c ≤ p) (hy : ∀ c ∈ y, c ≤ q) :
    ∀ c ∈ addFree x y, c ≤ p + q := by
  induction x generalizing y with
  | nil =>
    intro c hc
    have := hy c (by simpa [addFree] using hc)
    omega
  | cons a as ih =>
    cases y with
    | nil =>
      intro c hc
      have := hx c (by simpa [addFree] using hc)
      omega
    | cons b bs =>
      intro c hc
      simp only [addFree, List.mem_cons] at hc
      rcases hc with rfl | hc
      · have h1 := hx a (by simp)
        have h2 := hy b (by simp)
        omega
      · exact ih (fun u hu => hx u (by simp [hu])) (fun u hu => hy u (by simp [hu])) c hc

theorem conv_entry_le {n : ℕ} {a b : List ℕ}
    (ha : ∀ c ∈ a, c ≤ n) (hb : ∀ c ∈ b, c ≤ n) :
    ∀ c ∈ conv a b, c ≤ a.length * n ^ 2 := by
  induction a with
  | nil => simp [conv]
  | cons x xs ih =>
    have hmap : ∀ c ∈ b.map (x * ·), c ≤ n ^ 2 := by
      intro c hc
      rcases List.mem_map.mp hc with ⟨u, hu, rfl⟩
      have h1 := ha x (by simp)
      have h2 := hb u hu
      calc x * u ≤ n * n := Nat.mul_le_mul h1 h2
        _ = n ^ 2 := by ring
    have htail : ∀ c ∈ (0 :: conv xs b), c ≤ xs.length * n ^ 2 := by
      intro c hc
      rcases List.mem_cons.mp hc with rfl | hc
      · exact Nat.zero_le _
      · exact ih (fun u hu => ha u (by simp [hu])) c hc
    intro c hc
    have := addFree_entry_le hmap htail c hc
    calc c ≤ n ^ 2 + xs.length * n ^ 2 := this
      _ = (x :: xs).length * n ^ 2 := by simp [List.length_cons]; ring

theorem packInt_lt {B : ℕ} {l : List ℕ} (hl : ∀ c ∈ l, c < B) :
    packInt B l < B ^ l.length := by
  induction l with
  | nil => simp [packInt]
  | cons a as ih =>
    have h1 := hl a (by simp)
    have h2 := ih (fun c hc => hl c (by simp [hc]))
    simp only [packInt, List.length_cons, pow_succ]
    calc a + B * packInt B as ≤ a + B * (B ^ as.length - 1) := by
          have : packInt B as ≤ B ^ as.length - 1 := by omega
          exact Nat.add_le_add_left (Nat.mul_le_mul_left _ this) _
      _ < B ^ as.length * B := by
          have hB : 1 ≤ B := by omega
          have hpow : 1 ≤ B ^ as.length := Nat.one_le_pow _ _ (by omega)
          have hle : B ≤ B * B ^ as.length := Nat.le_mul_of_pos_right _ (by omega)
          have hmul : B * (B ^ as.length - 1) = B * B ^ as.length - B := by
            rw [Nat.mul_sub, Nat.mul_one]
          have hcomm : B * B ^ as.length = B ^ as.length * B := by ring
          omega

theorem packInt_eq_zero {B : ℕ} {l : List ℕ} (hB : 1 ≤ B)
    (h : packInt B l = 0) : ∀ c ∈ l, c = 0 := by
  induction l with
  | nil => simp
  | cons a as ih =>
    simp only [packInt] at h
    have ha : a = 0 := by omega
    have has : packInt B as = 0 := by
      rcases Nat.eq_zero_of_add_eq_zero_left h with h2
      rcases Nat.eq_zero_of_mul_eq_zero h2 with h3 | h3
      · omega
      · exact h3
    intro c hc
    rcases List.mem_cons.mp hc with rfl | hc
    · exact ha
    · exact ih has c hc

theorem toP_eq_zero_of_all_zero {n : ℕ} {l : List ℕ}
    (h : ∀ c ∈ l, c = 0) : toP n l = 0 := by
  induction l with
  | nil => rfl
  | cons a as ih =>
    have ha : a = 0 := h a (by simp)
    simp [toP, ha, ih (fun c hc => h c (by simp [hc]))]

theorem packInt_split (B : ℕ) (l : List ℕ) (W : ℕ) :
    packInt B l = packInt B (l.take W) + B ^ (l.take W).length * packInt B (l.drop W) := by
  induction l generalizing W with
  | nil => simp [packInt]
  | cons a as ih =>
    cases W with
    | zero => simp [packInt]
    | succ W =>
      simp only [List.take_succ_cons, List.drop_succ_cons, packInt, List.length_cons,
        pow_succ, ih W]
      ring

/-- Digits beyond the value's magnitude vanish: if `packInt B l < B ^ W` with
all entries `< B`, every entry from position `W` on is zero. -/
theorem toP_take_of_packInt_lt {n B : ℕ} {l : List ℕ} {W : ℕ} (hB : 2 ≤ B)
    (hl : ∀ c ∈ l, c < B) (hW : packInt B l < B ^ W) :
    toP n (l.take W) = toP n l ∧ packInt B (l.take W) = packInt B l := by
  have hsplit := packInt_split B l W
  by_cases hlen : l.length ≤ W
  · rw [List.take_of_length_le hlen]
    exact ⟨rfl, rfl⟩
  · have hlen' : (l.take W).length = W := by
      rw [List.length_take]
      omega
    have hdrop0 : packInt B (l.drop W) = 0 := by
      by_contra hne
      have h1 : 1 ≤ packInt B (l.drop W) := Nat.one_le_iff_ne_zero.mpr hne
      have h2 : B ^ W ≤ B ^ (l.take W).length * packInt B (l.drop W) := by
        rw [hlen']
        calc B ^ W = B ^ W * 1 := (mul_one _).symm
          _ ≤ B ^ W * packInt B (l.drop W) := Nat.mul_le_mul_left _ h1
      have h3 : B ^ (l.take W).length * packInt B (l.drop W) ≤ packInt B l := by
        rw [hsplit]
        exact Nat.le_add_left _ _
      omega
    have hzero : ∀ c ∈ l.drop W, c = 0 := packInt_eq_zero (by omega) hdrop0
    constructor
    · conv_rhs => rw [toP_drop n l W]
      rw [toP_eq_zero_of_all_zero hzero]
      ring
    · rw [hdrop0, Nat.mul_zero] at hsplit
      omega

theorem unpackWindows_packInt {n B : ℕ} (hB : 2 ≤ B) (l : List ℕ)
    (hl : ∀ c ∈ l, c < B) (W : ℕ) (hlen : l.length ≤ W) :
    unpackWindows n B (packInt B l) W =
      l.map (· % n) ++ List.replicate (W - l.length) 0 := by
  induction l generalizing W with
  | nil =>
    simp only [List.map_nil, List.nil_append, List.length_nil, Nat.sub_zero, packInt]
    induction W with
    | zero => rfl
    | succ W ihW =>
      simp only [unpackWindows, Nat.zero_mod, Nat.zero_div, List.replicate_succ]
      rw [ihW]
      exact Nat.zero_le _
  | cons a as ih =>
    cases W with
    | zero => simp at hlen
    | succ W =>
      have ha : a < B := hl a (by simp)
      have hmod : packInt B (a :: as) % B = a % B := by
        simp only [packInt]
        exact Nat.add_mul_mod_self_left a B (packInt B as)
      have hdiv : packInt B (a :: as) / B = packInt B as := by
        simp only [packInt]
        rw [Nat.add_mul_div_left _ _ (by omega : 0 < B), Nat.div_eq_of_lt ha]
        omega
      simp only [unpackWindows, hmod, hdiv, Nat.mod_eq_of_lt ha]
      rw [ih (fun c hc => hl c (by simp [hc])) W (by simpa using hlen)]
      simp [List.length_cons]

theorem toP_map_mod (n : ℕ) (l : List ℕ) : toP n (l.map (· % n)) = toP n l := by
  induction l with
  | nil => rfl
  | cons a as ih =>
    simp only [List.map_cons, toP, ih, ZMod.natCast_mod]

/-- The byte-aligned Kronecker slot width `k_8` of `__mul__`. -/
def kronK8 (n d : ℕ) : ℕ := (pyBitLength (d * n ^ 2 + 1) - 1) / 8 + 1

/-- The Kronecker base `B = 2^(8·k_8)` of `__mul__`. -/
def kronB (n d : ℕ) : ℕ := 2 ^ (8 * kronK8 n d)

/-- The number of windows `__mul__` unpacks from the product `t`. -/
def kronW (n d t : ℕ) : ℕ :=
  ((if t = 0 then 0 else (pyBitLength t - 1) / 8 + 1) + kronK8 n d - 1) / kronK8 n d

theorem pMul_eq (n : ℕ) (a b : List ℕ) :
    pMul n a b =
      unpackWindows n (kronB n (max a.length b.length))
        (packInt (kronB n (max a.length b.length)) a *
          packInt (kronB n (max a.length b.length)) b)
        (kronW n (max a.length b.length)
          (packInt (kronB n (max a.length b.length)) a *
            packInt (kronB n (max a.length b.length)) b)) := rfl

theorem kronK8_bound (n d : ℕ) : pyBitLength (d * n ^ 2 + 1) ≤ 8 * kronK8 n d := by
  unfold kronK8
  omega

theorem kronB_ge_two (n d : ℕ) : 2 ≤ kronB n d := by
  unfold kronB
  have : (2 : ℕ) ^ 1 ≤ 2 ^ (8 * kronK8 n d) :=
    Nat.pow_le_pow_right (by omega) (by unfold kronK8; omega)
  simpa using this

theorem kronB_gt (n d : ℕ) : d * n ^ 2 < kronB n d := by
  have h1 : d * n ^ 2 + 1 < 2 ^ pyBitLength (d * n ^ 2 + 1) := lt_two_pow_pyBitLength _
  have h2 : (2 : ℕ) ^ pyBitLength (d * n ^ 2 + 1) ≤ kronB n d :=
    Nat.pow_le_pow_right (by omega) (kronK8_bound n d)
  omega

theorem le_mul_ceil {a b : ℕ} (hb : 0 < b) : a ≤ b * ((a + b - 1) / b) := by
  rcases Nat.eq_zero_or_pos a with rfl | ha
  · simp
  · have h1 : a + b - 1 = (a - 1) + b := by omega
    rw [h1, Nat.add_div_right _ hb]
    have h2 : b * ((a - 1) / b + 1) = b * ((a - 1) / b) + b := by ring
    rw [h2]
    have h3 := Nat.div_add_mod (a - 1) b
    have h4 := Nat.mod_lt (a - 1) hb
    omega

theorem lt_pow_kronW {n d : ℕ} (t : ℕ) : t < kronB n d ^ kronW n d t := by
  unfold kronW
  by_cases ht0 : t = 0
  · rw [ht0]
    exact pow_pos (by have := kronB_ge_two n d; omega) _
  · rw [if_neg ht0]
    set bytelen := (pyBitLength t - 1) / 8 + 1 with hbyte
    set k8 := kronK8 n d with hk8
    set W := (bytelen + k8 - 1) / k8 with hW
    have hk80 : 0 < k8 := by rw [hk8]; unfold kronK8; omega
    have h1 : t < 2 ^ pyBitLength t := lt_two_pow_pyBitLength t
    have h2 : pyBitLength t ≤ 8 * bytelen := by
      rw [hbyte]
      omega
    have h3 : bytelen ≤ k8 * W := by
      rw [hW]
      exact le_mul_ceil hk80
    calc t < 2 ^ pyBitLength t := h1
      _ ≤ 2 ^ (8 * (k8 * W)) := Nat.pow_le_pow_right (by omega) (by omega)
      _ = kronB n d ^ W := by
          unfold kronB
          rw [← pow_mul, ← hk8]
          ring_nf

/-- Core of the `__mul__` correctness: unpacking the product of the packed
lists represents the product polynomial. -/
theorem toP_unpack_mul (n B : ℕ) (hB2 : 2 ≤ B) (a b : List ℕ)
    (hconv : ∀ c ∈ conv a b, c < B) (W : ℕ)
    (htW : packInt B a * packInt B b < B ^ W) :
    toP n (unpackWindows n B (packInt B a * packInt B b) W) = toP n a * toP n b := by
  rw [← packInt_conv]
  rw [← packInt_conv] at htW
  rcases toP_take_of_packInt_lt (n := n) hB2 hconv htW with ⟨htake, hpack⟩
  have hlen : (List.take W (conv a b)).length ≤ W := by
    rw [List.length_take]
    omega
  rw [← hpack, unpackWindows_packInt hB2 _
    (fun c hc => hconv c (List.mem_of_mem_take hc)) W hlen]
  rw [toP_append, toP_replicate_zero, toP_map_mod, htake, toP_conv]
  ring

/-- Correctness of `__mul__`: for coefficient lists bounded by the modulus
(the package invariant; entries are below `n` except for the transient value
`n` produced by `__sub__`), the Kronecker product represents the product of
the represented polynomials. -/
theorem toP_pMul (n : ℕ) (a b : List ℕ)
    (ha : ∀ c ∈ a, c ≤ n) (hb : ∀ c ∈ b, c ≤ n) :
    toP n (pMul n a b) = toP n a * toP n b := by
  rw [pMul_eq]
  set d := max a.length b.length with hd
  apply toP_unpack_mul n (kronB n d) (kronB_ge_two n d) a b
  · intro c hc
    have h1 := conv_entry_le ha hb c hc
    have h2 : a.length * n ^ 2 ≤ d * n ^ 2 :=
      Nat.mul_le_mul_right _ (le_max_left _ _)
    have h3 := kronB_gt n d
    omega
  · exact lt_pow_kronW _

/-! ## Division, modular reduction and Montgomery RECIP
(`Polynomial.__divmod__`, `mod_with_recip`, `recip`) -/

/-- The quotient/remainder loop of `__divmod__` with state
`(poly_quo, dividend)`.  The loop is fuel-bounded to make it total; the
degree-decrease analysis below shows the fuel `len(f) + 2` is never
exhausted when the reciprocal has its defining quality. -/
def divmod_loop (n : ℕ) (g gr : List ℕ) : ℕ → List ℕ → List ℕ → Option (List ℕ × List ℕ)
  | 0, _, _ => none
  | fuel + 1, quoAcc, dividend =>
    let d := g.length - 1
    let quo := (pMul n (dividend.drop d) gr).drop d
    let quoAcc' := pAdd n quoAcc quo
    let rem := pSub n dividend (pMul n quo g)
    if rem.length < g.length ∨ (rem.length = 1 ∧ rem.getD 0 0 = 0) then
      some (quoAcc', rem)
    else divmod_loop n g gr fuel quoAcc' rem

/-- The reduction loop of `mod_with_recip` (same loop, quotient dropped). -/
def modrecip_loop (n : ℕ) (g gr : List ℕ) : ℕ → List ℕ → Option (List ℕ)
  | 0, _ => none
  | fuel + 1, dividend =>
    let d := g.length - 1
    let quo := (pMul n (dividend.drop d) gr).drop d
    let rem := pSub n dividend (pMul n quo g)
    if rem.length < g.length ∨ (rem.length = 1 ∧ rem.getD 0 0 = 0) then
      some rem
    else modrecip_loop n g gr fuel rem

/-- The list `[self.coeff[d - k + j + 1] for j in range(k)]` built by the
body of `recip` (`pyGet` realizes Python's negative-index wrap). -/
def recipF (coeff : List ℕ) (d k : ℕ) : List ℕ :=
  (List.range k).map (fun (j : ℕ) => pyGet coeff ((d : ℤ) - (k : ℤ) + (j : ℤ) + 1))

/-- The polynomial `H = (R_prev * R_prev) * Polynomial([...], n)` of the
`recip` body. -/
def recipH (n : ℕ) (coeff : List ℕ) (d k : ℕ) (R : List ℕ) : List ℕ :=
  pMul n (pMul n R R) (recipF coeff d k)

/-- The updated list `R_curr_coeff` of the `recip` body: `k//2` zeros, then
`2*ai` for the previous entries, with `H.coeff[j + k - 2]` subtracted from
entry `j` mod `n`. -/
def recipStep (n : ℕ) (coeff : List ℕ) (d k : ℕ) (R : List ℕ) : List ℕ :=
  (List.range k).map (fun j =>
    zmod_ ((if j < k / 2 then (0 : ℤ) else (2 * R.getD (j - k / 2) 0 : ℕ)) -
      ((recipH n coeff d k R).getD (j + k - 2) 0 : ℕ)) n)

/-- The updated `e_curr` of the `recip` body. -/
def recipE (n : ℕ) (coeff : List ℕ) (d u k e : ℕ) (R : List ℕ) : ℕ :=
  if k = 2 then zmod_ ((e : ℤ) * e - (pyGet coeff ((d : ℤ) - k) : ℕ) * (u : ℕ)) n
  else if k ≤ d then
    zmod_ ((e : ℤ) * e - ((recipH n coeff d k R).getD (k - 3) 0 : ℕ) * (coeff.getD d 0 : ℕ) -
      (pyGet coeff ((d : ℤ) - k) : ℕ) * (u : ℕ)) n
  else e

/-- One pass of the `while k < d*2` doubling loop of `recip`, with state
`(k, R, e)`; returns `(R, e, k)` on exit. -/
def recip_loop (n : ℕ) (coeff : List ℕ) (d u : ℕ) :
    ℕ → ℕ → List ℕ → ℕ → (List ℕ × ℕ × ℕ)
  | 0, k, R, e => (R, e, k)
  | fuel + 1, k, R, e =>
    if k < d * 2 then
      recip_loop n coeff d u fuel (k * 2) (recipStep n coeff d k R)
        (recipE n coeff d u k e R)
    else (R, e, k)

/-- Embedding of `Polynomial.recip` (Montgomery's RECIP algorithm).  Raises
`InverseNotFound` iff the leading coefficient is not invertible. -/
def Poly.recip (f : Poly) : Py Poly := do
  let d := f.coeff.length - 1
  let iv ← inv (f.coeff.getD d 0 : ℕ) (f.n : ℕ)
  let u := iv.toNat
  let e0 := zmod_ (-((pyGet f.coeff ((d : ℤ) - 1) : ℕ) : ℤ) * u) f.n
  let r := recip_loop f.n f.coeff d u (d + 2) 2 [u] e0
  let res := if r.2.2 = d * 2 then (r.2.1 * u % f.n) :: r.1 else r.1
  .ok ⟨takeLast (d + 1) res, f.n⟩

/-- Embedding of `Polynomial.__divmod__`. -/
def Poly.divmod (f g : Poly) : Py (Poly × Poly) :=
  if f.coeff.length < g.coeff.length then
    .ok (⟨[0], f.n⟩, ⟨f.coeff, f.n⟩)
  else do
    let gr ← Poly.recip g
    match divmod_loop f.n g.coeff gr.coeff (f.coeff.length + 2) [0] f.coeff with
    | some (q, r) => .ok (⟨q, f.n⟩, ⟨r, f.n⟩)
    | none => .error .fuelExhausted

/-- Embedding of `Polynomial.mod_with_recip`. -/
def Poly.mod_with_recip (f other other_recip : Poly) : Py Poly :=
  if f.coeff.length < other.coeff.length then .ok ⟨f.coeff, f.n⟩
  else
    match modrecip_loop f.n other.coeff other_recip.coeff (f.coeff.length + 2) f.coeff with
    | some r => .ok ⟨r, f.n⟩
    | none => .error .fuelExhausted

/-! ## Degree and cleanliness toolkit -/

/-- All entries reduced: the invariant of lists produced by `%`-reducing
operations. -/
def Clean (n : ℕ) (l : List ℕ) : Prop := ∀ c ∈ l, c < n

/-- All entries at most `n` (allows the transient value `n` that `__sub__`
can produce). -/
def Bounded (n : ℕ) (l : List ℕ) : Prop := ∀ c ∈ l, c ≤ n

theorem Clean.bounded {n : ℕ} {l : List ℕ} (h : Clean n l) : Bounded n l :=
  fun c hc => le_of_lt (h c hc)

theorem unpackWindows_clean {n B t w : ℕ} (hn : 0 < n) :
    Clean n (unpackWindows n B t w) := by
  induction w generalizing t with
  | zero => intro c hc; simp [unpackWindows] at hc
  | succ w ih =>
    intro c hc
    simp only [unpackWindows, List.mem_cons] at hc
    rcases hc with rfl | hc
    · exact Nat.mod_lt _ hn
    · exact ih c hc

theorem pMul_clean {n : ℕ} (hn : 0 < n) (a b : List ℕ) : Clean n (pMul n a b) := by
  rw [pMul_eq]
  exact unpackWindows_clean hn

theorem unpackWindows_length (n B t w : ℕ) : (unpackWindows n B t w).length = w := by
  induction w generalizing t with
  | zero => rfl
  | succ w ih => simp [unpackWindows, ih]

theorem kronK8_pos (n d : ℕ) : 0 < kronK8 n d := by
  unfold kronK8
  omega

theorem kronW_le {n d t M : ℕ} (h : t < kronB n d ^ M) : kronW n d t ≤ M := by
  unfold kronW
  set k8 := kronK8 n d with hk8
  have hk80 : 0 < k8 := kronK8_pos n d
  by_cases ht0 : t = 0
  · rw [if_pos ht0]
    rw [Nat.div_eq_of_lt (by omega)]
    omega
  · rw [if_neg ht0]
    have hM : 1 ≤ M := by
      by_contra hM0
      have : M = 0 := by omega
      rw [this, pow_zero] at h
      omega
    have hbit : pyBitLength t ≤ 8 * (k8 * M) := by
      have : t < 2 ^ (8 * (k8 * M)) := by
        calc t < kronB n d ^ M := h
          _ = 2 ^ (8 * (k8 * M)) := by
              unfold kronB
              rw [← pow_mul, ← hk8]
              ring_nf
      exact (bitLenAux_le_iff le_rfl).mpr this
    have hbyte : (pyBitLength t - 1) / 8 + 1 ≤ k8 * M := by
      have h8 : (pyBitLength t - 1) / 8 ≤ (8 * (k8 * M) - 1) / 8 := by
        apply Nat.div_le_div_right
        omega
      have h9 : (8 * (k8 * M) - 1) / 8 + 1 ≤ k8 * M := by
        have hpos : 1 ≤ k8 * M := by
          have := Nat.mul_le_mul hk80 hM
          omega
        omega
      omega
    rw [Nat.div_le_iff_le_mul_add_pred hk80]
    have : k8 * M + k8 - 1 ≤ k8 * M + (k8 - 1) := by omega
    calc (pyBitLength t - 1) / 8 + 1 + k8 - 1 ≤ k8 * M + k8 - 1 := by omega
      _ ≤ k8 * M + (k8 - 1) := this

theorem kronW_ge {n d t M : ℕ} (h : kronB n d ^ M ≤ t) : M + 1 ≤ kronW n d t := by
  unfold kronW
  set k8 := kronK8 n d with hk8
  have hk80 : 0 < k8 := kronK8_pos n d
  have ht0 : t ≠ 0 := by
    intro h0
    rw [h0] at h
    have : 0 < kronB n d ^ M := pow_pos (by have := kronB_ge_two n d; omega) _
    omega
  rw [if_neg ht0]
  have hbit : 8 * (k8 * M) + 1 ≤ pyBitLength t := by
    by_contra hcon
    have h1 : pyBitLength t ≤ 8 * (k8 * M) := by omega
    have h2 : t < 2 ^ (8 * (k8 * M)) := by
      have h3 : t < 2 ^ pyBitLength t := lt_two_pow_pyBitLength t
      calc t < 2 ^ pyBitLength t := h3
        _ ≤ 2 ^ (8 * (k8 * M)) := Nat.pow_le_pow_right (by omega) h1
    have h4 : kronB n d ^ M = 2 ^ (8 * (k8 * M)) := by
      unfold kronB
      rw [← pow_mul, ← hk8]
      ring_nf
    omega
  have hbyte : k8 * M + 1 ≤ (pyBitLength t - 1) / 8 + 1 := by
    have : 8 * (k8 * M) ≤ pyBitLength t - 1 := by omega
    have h5 : (8 * (k8 * M)) / 8 ≤ (pyBitLength t - 1) / 8 := Nat.div_le_div_right this
    omega
  rw [Nat.le_div_iff_mul_le hk80]
  have : (M + 1) * k8 = k8 * M + k8 := by ring
  omega

theorem addFree_getD (x y : List ℕ) (i : ℕ) :
    (addFree x y).getD i 0 = x.getD i 0 + y.getD i 0 := by
  induction x generalizing y i with
  | nil => simp [addFree]
  | cons a as ih =>
    cases y with
    | nil => simp [addFree]
    | cons b bs =>
      cases i with
      | zero => simp [addFree]
      | succ i =>
        simp only [addFree, List.getD_cons_succ]
        exact ih bs i

theorem addFree_length (x y : List ℕ) :
    (addFree x y).length = max x.length y.length := by
  induction x generalizing y with
  | nil => simp [addFree]
  | cons a as ih =>
    cases y with
    | nil => simp [addFree]
    | cons b bs =>
      simp [addFree, ih]
      omega

theorem conv_length {a b : List ℕ} (ha : a ≠ []) (hb : b ≠ []) :
    (conv a b).length = a.length + b.length - 1 := by
  induction a with
  | nil => exact absurd rfl ha
  | cons x xs ih =>
    simp only [conv, addFree_length, List.length_map, List.length_cons]
    cases xs with
    | nil =>
      simp [conv]
      have : 1 ≤ b.length := List.length_pos.mpr hb
      omega
    | cons z zs =>
      rw [ih (by simp) ]
      have : 1 ≤ b.length := List.length_pos.mpr hb
      simp only [List.length_cons]
      omega

theorem getD_map_of_lt (f : ℕ → ℕ) (l : List ℕ) (i : ℕ) (h : i < l.length) :
    (l.map f).getD i 0 = f (l.getD i 0) := by
  rw [List.getD_eq_getElem _ _ (by simpa using h), List.getD_eq_getElem _ _ h,
    List.getElem_map]

theorem getD_single_zero (i : ℕ) : ([0] : List ℕ).getD i 0 = 0 := by
  cases i <;> rfl

theorem conv_top {a b : List ℕ} (ha : a ≠ []) (hb : b ≠ []) :
    (conv a b).getD (a.length + b.length - 2) 0 =
      a.getD (a.length - 1) 0 * b.getD (b.length - 1) 0 := by
  induction a with
  | nil => exact absurd rfl ha
  | cons x xs ih =>
    have hb1 : 1 ≤ b.length := List.length_pos.mpr hb
    cases xs with
    | nil =>
      show (addFree (b.map (x * ·)) (0 :: conv [] b)).getD (1 + b.length - 2) 0 = _
      have hidx : 1 + b.length - 2 = b.length - 1 := by omega
      rw [hidx, addFree_getD, getD_map_of_lt _ _ _ (by omega)]
      show x * b.getD (b.length - 1) 0 + ([0] : List ℕ).getD (b.length - 1) 0 = _
      rw [getD_single_zero]
      simp
    | cons z zs =>
      have hlen2 : 2 ≤ (x :: z :: zs).length := by simp
      show (addFree (b.map (x * ·)) (0 :: conv (z :: zs) b)).getD
        ((x :: z :: zs).length + b.length - 2) 0 = _
      rw [addFree_getD]
      have hmap0 : (b.map (x * ·)).getD ((x :: z :: zs).length + b.length - 2) 0 = 0 := by
        apply List.getD_eq_default
        simp only [List.length_map, List.length_cons]
        omega
      rw [hmap0, Nat.zero_add]
      have hidx : (x :: z :: zs).length + b.length - 2 =
          ((z :: zs).length + b.length - 2) + 1 := by
        simp only [List.length_cons]
        omega
      rw [hidx, List.getD_cons_succ, ih (by simp)]
      have hidx2 : (x :: z :: zs).length - 1 = ((z :: zs).length - 1) + 1 := by
        simp only [List.length_cons]
        omega
      rw [hidx2, List.getD_cons_succ]

theorem packInt_ge_entry (B : ℕ) (l : List ℕ) (j : ℕ) (hj : j < l.length) :
    l.getD j 0 * B ^ j ≤ packInt B l := by
  induction l generalizing j with
  | nil => simp at hj
  | cons a as ih =>
    cases j with
    | zero => simp [packInt]
    | succ j =>
      have h := ih j (by simpa using hj)
      simp only [packInt, List.getD_cons_succ, pow_succ]
      calc as.getD j 0 * (B ^ j * B) = B * (as.getD j 0 * B ^ j) := by ring
        _ ≤ B * packInt B as := Nat.mul_le_mul_left _ h
        _ ≤ a + B * packInt B as := Nat.le_add_left _ _

theorem packInt_eq_zero_of_all_zero {B : ℕ} {l : List ℕ}
    (h : ∀ c ∈ l, c = 0) : packInt B l = 0 := by
  induction l with
  | nil => rfl
  | cons c cs ih =>
    simp [packInt, h c (by simp), ih (fun u hu => h u (by simp [hu]))]

theorem conv_nil_right_zero (a : List ℕ) : ∀ c ∈ conv a [], c = 0 := by
  induction a with
  | nil => simp [conv]
  | cons x xs ih =>
    intro c hc
    simp only [conv, List.map_nil, addFree] at hc
    rcases List.mem_cons.mp hc with rfl | hc2
    · rfl
    · exact ih c hc2

/-- Length upper bound for the Kronecker product list. -/
theorem pMul_length_le {n : ℕ} (a b : List ℕ) (ha : Bounded n a) (hb : Bounded n b) :
    (pMul n a b).length ≤ a.length + b.length - 1 := by
  rw [pMul_eq, unpackWindows_length]
  set d := max a.length b.length with hd
  have hconv : ∀ c ∈ conv a b, c < kronB n d := by
    intro c hc
    have h1 := conv_entry_le ha hb c hc
    have h2 : a.length * n ^ 2 ≤ d * n ^ 2 := Nat.mul_le_mul_right _ (le_max_left _ _)
    have h3 := kronB_gt n d
    omega
  apply kronW_le
  rw [← packInt_conv]
  by_cases hab : a = [] ∨ b = []
  · have hz : packInt (kronB n d) (conv a b) = 0 := by
      rcases hab with rfl | rfl
      · rfl
      · exact packInt_eq_zero_of_all_zero (conv_nil_right_zero a)
    rw [hz]
    exact pow_pos (by have := kronB_ge_two n d; omega) _
  · push_neg at hab
    have hlen := conv_length hab.1 hab.2
    calc packInt (kronB n d) (conv a b) < kronB n d ^ (conv a b).length :=
          packInt_lt hconv
      _ ≤ kronB n d ^ (a.length + b.length - 1) := by
          apply Nat.pow_le_pow_right (by have := kronB_ge_two n d; omega)
          omega

/-- Exact length and top entry of the Kronecker product when the literal
product of the leading entries is non-zero (e.g. for monic factors). -/
theorem pMul_length_top {n : ℕ} (a b : List ℕ) (ha : Bounded n a) (hb : Bounded n b)
    (hane : a ≠ []) (hbne : b ≠ [])
    (htop : a.getD (a.length - 1) 0 * b.getD (b.length - 1) 0 ≠ 0) :
    (pMul n a b).length = a.length + b.length - 1 ∧
    (pMul n a b).getD (a.length + b.length - 2) 0 =
      a.getD (a.length - 1) 0 * b.getD (b.length - 1) 0 % n := by
  have ha1 : 1 ≤ a.length := List.length_pos.mpr hane
  have hb1 : 1 ≤ b.length := List.length_pos.mpr hbne
  set d := max a.length b.length with hd
  have hB2 := kronB_ge_two n d
  have hconv : ∀ c ∈ conv a b, c < kronB n d := by
    intro c hc
    have h1 := conv_entry_le ha hb c hc
    have h2 : a.length * n ^ 2 ≤ d * n ^ 2 := Nat.mul_le_mul_right _ (le_max_left _ _)
    have h3 := kronB_gt n d
    omega
  have hlen := conv_length hane hbne
  have htopc := conv_top hane hbne
  have htc : packInt (kronB n d) a * packInt (kronB n d) b =
      packInt (kronB n d) (conv a b) := (packInt_conv _ _ _).symm
  have hc1 : 1 ≤ (conv a b).getD (a.length + b.length - 2) 0 := by
    rw [htopc]
    omega
  have hge : kronB n d ^ (a.length + b.length - 2) ≤
      packInt (kronB n d) a * packInt (kronB n d) b := by
    rw [htc]
    calc kronB n d ^ (a.length + b.length - 2)
        = 1 * kronB n d ^ (a.length + b.length - 2) := (one_mul _).symm
      _ ≤ (conv a b).getD (a.length + b.length - 2) 0 *
            kronB n d ^ (a.length + b.length - 2) :=
          Nat.mul_le_mul_right _ hc1
      _ ≤ packInt (kronB n d) (conv a b) := packInt_ge_entry _ _ _ (by omega)
  have hWle : kronW n d (packInt (kronB n d) a * packInt (kronB n d) b) ≤
      a.length + b.length - 1 := by
    apply kronW_le
    rw [htc]
    calc packInt (kronB n d) (conv a b) < kronB n d ^ (conv a b).length :=
          packInt_lt hconv
      _ ≤ kronB n d ^ (a.length + b.length - 1) := by
          apply Nat.pow_le_pow_right (by omega)
          omega
  have hWge := kronW_ge hge
  have hW : kronW n d (packInt (kronB n d) a * packInt (kronB n d) b) =
      a.length + b.length - 1 := by omega
  constructor
  · rw [pMul_eq, unpackWindows_length, hW]
  · rw [pMul_eq, hW, htc,
      unpackWindows_packInt hB2 _ hconv _ (by omega)]
    have hi : a.length + b.length - 2 < (List.map (· % n) (conv a b)).length := by
      rw [List.length_map]
      omega
    rw [List.getD_append _ _ _ _ hi, getD_map_of_lt _ _ _ (by omega), htopc]

/-! ## Degree toolkit

`DegLt P m` states `deg P < m` over `WithBot ℕ` (so `DegLt P 0` forces
`P = 0`); keeping the bounds in `ℕ` lets `omega` do the bookkeeping of the
division analysis. -/

/-- `deg P < m`. -/
def DegLt {n : ℕ} (P : Polynomial (ZMod n)) (m : ℕ) : Prop :=
  P.degree < (m : WithBot ℕ)

theorem toP_degree_lt (n : ℕ) (l : List ℕ) :
    (toP n l).degree < (l.length : WithBot ℕ) := by
  rw [Polynomial.degree_lt_iff_coeff_zero]
  intro m hm
  have hlm : l.length ≤ m := by exact_mod_cast hm
  rw [toP_coeff, List.getD_eq_default _ _ hlm, Nat.cast_zero]

theorem degLt_iff {n : ℕ} {P : Polynomial (ZMod n)} {m : ℕ} :
    DegLt P m ↔ ∀ i, m ≤ i → P.coeff i = 0 := by
  unfold DegLt
  rw [Polynomial.degree_lt_iff_coeff_zero]

theorem degLt_zero {n m : ℕ} : DegLt (0 : Polynomial (ZMod n)) m := by
  rw [degLt_iff]
  intro i _
  rw [Polynomial.coeff_zero]

theorem degLt_zero_iff {n : ℕ} {P : Polynomial (ZMod n)} :
    DegLt P 0 ↔ P = 0 := by
  constructor
  · intro h
    apply Polynomial.ext
    intro i
    rw [degLt_iff] at h
    rw [h i (Nat.zero_le i), Polynomial.coeff_zero]
  · intro h
    rw [h]
    exact degLt_zero

theorem DegLt.mono {n : ℕ} {P : Polynomial (ZMod n)} {a b : ℕ}
    (h : DegLt P a) (hab : a ≤ b) : DegLt P b := by
  rw [degLt_iff] at h ⊢
  intro i hi
  exact h i (by omega)

theorem DegLt.add {n : ℕ} {P Q : Polynomial (ZMod n)} {a : ℕ}
    (hP : DegLt P a) (hQ : DegLt Q a) : DegLt (P + Q) a := by
  rw [degLt_iff] at hP hQ ⊢
  intro i hi
  rw [Polynomial.coeff_add, hP i hi, hQ i hi, add_zero]

theorem DegLt.neg {n : ℕ} {P : Polynomial (ZMod n)} {a : ℕ}
    (hP : DegLt P a) : DegLt (-P) a := by
  rw [degLt_iff] at hP ⊢
  intro i hi
  rw [Polynomial.coeff_neg, hP i hi, neg_zero]

theorem DegLt.sub {n : ℕ} {P Q : Polynomial (ZMod n)} {a : ℕ}
    (hP : DegLt P a) (hQ : DegLt Q a) : DegLt (P - Q) a := by
  rw [sub_eq_add_neg]
  exact hP.add hQ.neg

theorem DegLt.mul {n : ℕ} {P Q : Polynomial (ZMod n)} {a b : ℕ}
    (hP : DegLt P a) (hQ : DegLt Q b) : DegLt (P * Q) (a + b - 1) := by
  rw [degLt_iff] at hP hQ ⊢
  intro i hi
  rw [Polynomial.coeff_mul]
  apply Finset.sum_eq_zero
  intro x hx
  rw [Finset.mem_antidiagonal] at hx
  by_cases hxa : a ≤ x.1
  · rw [hP x.1 hxa, zero_mul]
  · rw [hQ x.2 (by omega), mul_zero]

theorem degLt_X_pow {n m : ℕ} : DegLt ((Polynomial.X : Polynomial (ZMod n)) ^ m) (m + 1) := by
  rw [degLt_iff]
  intro i hi
  rw [Polynomial.coeff_X_pow]
  simp only [ite_eq_right_iff]
  intro h
  omega

theorem degLt_C {n : ℕ} (c : ZMod n) : DegLt (Polynomial.C c) 1 := by
  rw [degLt_iff]
  intro i hi
  rw [Polynomial.coeff_C]
  simp only [ite_eq_right_iff]
  intro h
  omega

theorem degLt_toP (n : ℕ) (l : List ℕ) : DegLt (toP n l) l.length :=
  toP_degree_lt n l

/-- Exact degree and leading coefficient of a represented list whose top
literal entry does not vanish mod `n`. -/
theorem toP_degree_top {n : ℕ} {l : List ℕ} (hne : l ≠ [])
    (htop : ((l.getD (l.length - 1) 0 : ℕ) : ZMod n) ≠ 0) :
    (toP n l).degree = ((l.length - 1 : ℕ) : WithBot ℕ) ∧
      (toP n l).leadingCoeff = ((l.getD (l.length - 1) 0 : ℕ) : ZMod n) := by
  have hc : (toP n l).coeff (l.length - 1) = ((l.getD (l.length - 1) 0 : ℕ) : ZMod n) :=
    toP_coeff n l (l.length - 1)
  have hne0 : toP n l ≠ 0 := by
    intro h0
    rw [h0, Polynomial.coeff_zero] at hc
    exact htop hc.symm
  have hlb : l.length - 1 ≤ (toP n l).natDegree :=
    Polynomial.le_natDegree_of_ne_zero (by rw [hc]; exact htop)
  have hub : (toP n l).natDegree < l.length :=
    (Polynomial.natDegree_lt_iff_degree_lt hne0).mpr (toP_degree_lt n l)
  have hnd : (toP n l).natDegree = l.length - 1 := by omega
  refine ⟨?_, ?_⟩
  · rw [Polynomial.degree_eq_natDegree hne0, hnd]
  · rw [Polynomial.leadingCoeff, hnd, hc]

/-- Cancel a factor with unit leading coefficient and exact degree `g` in a
degree bound. -/
theorem degLt_cancel {n : ℕ} {G P : Polynomial (ZMod n)} {g m : ℕ}
    (hdeg : G.degree = (g : WithBot ℕ)) (hunit : ∃ v, v * G.leadingCoeff = 1)
    (h : DegLt (G * P) (g + m)) : DegLt P m := by
  by_cases hP : P = 0
  · rw [hP]
    exact degLt_zero
  have hG0 : G ≠ 0 := by
    intro h0
    rw [h0, Polynomial.degree_zero] at hdeg
    exact (Option.noConfusion hdeg)
  have hlc : G.leadingCoeff * P.leadingCoeff ≠ 0 := by
    intro h0
    rcases hunit with ⟨v, hv⟩
    have hP0 : P.leadingCoeff = 0 := by
      have h1 : v * (G.leadingCoeff * P.leadingCoeff) = 0 := by rw [h0, mul_zero]
      rwa [← mul_assoc, hv, one_mul] at h1
    exact (Polynomial.leadingCoeff_ne_zero.mpr hP) hP0
  have hmul := Polynomial.degree_mul' hlc
  unfold DegLt at h ⊢
  rw [hmul, hdeg, Polynomial.degree_eq_natDegree hP] at h
  rw [Polynomial.degree_eq_natDegree hP]
  have h' : g + P.natDegree < g + m := by exact_mod_cast h
  exact_mod_cast (show P.natDegree < m by omega)

/-- Division with remainder by a polynomial with unit leading coefficient
and exact degree `g`. -/
theorem exists_div_mod {n : ℕ} (hn : 2 ≤ n) {G : Polynomial (ZMod n)} {g : ℕ}
    (hdeg : G.degree = (g : WithBot ℕ)) {v : ZMod n} (hunit : v * G.leadingCoeff = 1)
    (P : Polynomial (ZMod n)) :
    ∃ q r, P = G * q + r ∧ DegLt r g := by
  haveI : Fact (1 < n) := ⟨by omega⟩
  have hv0 : v ≠ 0 := by
    intro h0
    rw [h0, zero_mul] at hunit
    exact zero_ne_one hunit
  have hlc : (Polynomial.C v).leadingCoeff * G.leadingCoeff ≠ 0 := by
    rw [Polynomial.leadingCoeff_C, hunit]
    exact one_ne_zero
  have hMonic : (Polynomial.C v * G).Monic := by
    unfold Polynomial.Monic
    rw [Polynomial.leadingCoeff_mul' hlc, Polynomial.leadingCoeff_C, hunit]
  have hdegM : (Polynomial.C v * G).degree = (g : WithBot ℕ) := by
    rw [Polynomial.degree_mul' hlc, Polynomial.degree_C hv0, hdeg, zero_add]
  refine ⟨Polynomial.C v * (P /ₘ (Polynomial.C v * G)), P %ₘ (Polynomial.C v * G), ?_, ?_⟩
  · have hdm := Polynomial.modByMonic_add_div P hMonic
    calc P = P %ₘ (Polynomial.C v * G) + Polynomial.C v * G * (P /ₘ (Polynomial.C v * G)) :=
          hdm.symm
      _ = G * (Polynomial.C v * (P /ₘ (Polynomial.C v * G))) + P %ₘ (Polynomial.C v * G) := by
          ring
  · unfold DegLt
    rw [← hdegM]
    exact Polynomial.degree_modByMonic_lt P hMonic

/-- `toP` through `drop`, stated with a fixed power of `X` (valid also when
the list is shorter than the split point). -/
theorem toP_split (n : ℕ) (l : List ℕ) (d : ℕ) :
    toP n l = toP n (l.take d) + Polynomial.X ^ d * toP n (l.drop d) := by
  rcases le_or_lt d l.length with h | h
  · have hlt : (l.take d).length = d := by
      rw [List.length_take]
      omega
    rw [toP_drop n l d, hlt]
  · rw [List.take_of_length_le (le_of_lt h), List.drop_of_length_le (le_of_lt h),
      toP_nil, mul_zero, add_zero]

theorem getD_drop' (l : List ℕ) (i j : ℕ) :
    (l.drop i).getD j 0 = l.getD (i + j) 0 := by
  induction i generalizing l with
  | zero => rw [List.drop_zero, Nat.zero_add]
  | succ i ih =>
    cases l with
    | nil => rfl
    | cons a as =>
      rw [List.drop_succ_cons, ih as]
      have : i + 1 + j = (i + j) + 1 := by omega
      rw [this, List.getD_cons_succ]

theorem getD_replicate_zero (m i : ℕ) : (List.replicate m (0 : ℕ)).getD i 0 = 0 := by
  rcases lt_or_le i m with h | h
  · rw [List.getD_eq_getElem _ _ (by simpa using h), List.getElem_replicate]
  · rw [List.getD_eq_default _ _ (by simpa using h)]

theorem clean_getD {n : ℕ} {l : List ℕ} (h : Clean n l) (hn : 0 < n) (i : ℕ) :
    l.getD i 0 < n := by
  rcases lt_or_le i l.length with hi | hi
  · rw [List.getD_eq_getElem _ _ hi]
    exact h _ (List.getElem_mem hi)
  · rw [List.getD_eq_default _ _ hi]
    exact hn

theorem zmod_lt {z : ℤ} {n : ℕ} (hn : 0 < n) : zmod_ z n < n := by
  unfold zmod_
  have h1 : z % (n : ℤ) < n := Int.emod_lt_of_pos _ (by exact_mod_cast hn)
  have h2 : 0 ≤ z % (n : ℤ) := Int.emod_nonneg _ (by positivity)
  omega

/-! ## Slices of the divisor used by `recip` -/

/-- The degree-`k-1` polynomial formed by the top `k` coefficients of the
divisor (zero-padded below when `k` exceeds the coefficient count): the
divisor slice `G_k` of Montgomery RECIP. -/
def sliceL (coeff : List ℕ) (k : ℕ) : List ℕ :=
  (List.replicate (k - 1) 0 ++ coeff).drop (coeff.length - 1)

theorem list_ext_getD {a b : List ℕ} (hlen : a.length = b.length)
    (h : ∀ i, a.getD i 0 = b.getD i 0) : a = b := by
  apply List.ext_getElem hlen
  intro i h1 h2
  have := h i
  rwa [List.getD_eq_getElem _ _ h1, List.getD_eq_getElem _ _ h2] at this

theorem sliceL_length {coeff : List ℕ} (hne : coeff ≠ []) {k : ℕ} (hk : 1 ≤ k) :
    (sliceL coeff k).length = k := by
  have h1 : 1 ≤ coeff.length := List.length_pos.mpr hne
  simp only [sliceL, List.length_drop, List.length_append, List.length_replicate]
  omega

theorem sliceL_getD (coeff : List ℕ) (k j : ℕ) :
    (sliceL coeff k).getD j 0 =
      (List.replicate (k - 1) (0 : ℕ) ++ coeff).getD (coeff.length - 1 + j) 0 := by
  unfold sliceL
  rw [getD_drop']

/-- Entries of the slice below the zero padding boundary. -/
theorem sliceL_getD_lo {coeff : List ℕ} (hne : coeff ≠ []) {k j : ℕ}
    (hj : coeff.length + j < k) :
    (sliceL coeff k).getD j 0 = 0 := by
  have h1 : 1 ≤ coeff.length := List.length_pos.mpr hne
  rw [sliceL_getD]
  have hidx : coeff.length - 1 + j < (List.replicate (k - 1) (0 : ℕ)).length := by
    simp only [List.length_replicate]
    omega
  rw [List.getD_append _ _ _ _ hidx, getD_replicate_zero]

/-- Entries of the slice in the coefficient region. -/
theorem sliceL_getD_hi {coeff : List ℕ} (hne : coeff ≠ []) {k j : ℕ} (hk : 1 ≤ k)
    (hj : k ≤ coeff.length + j) :
    (sliceL coeff k).getD j 0 = coeff.getD (coeff.length + j - k) 0 := by
  have h1 : 1 ≤ coeff.length := List.length_pos.mpr hne
  rw [sliceL_getD]
  have hidx : (List.replicate (k - 1) (0 : ℕ)).length ≤ coeff.length - 1 + j := by
    simp only [List.length_replicate]
    omega
  rw [List.getD_append_right _ _ _ _ hidx]
  simp only [List.length_replicate]
  congr 1
  omega

/-- The top entry of every slice is the divisor's top literal entry. -/
theorem sliceL_top {coeff : List ℕ} (hne : coeff ≠ []) {k : ℕ} (hk : 1 ≤ k) :
    (sliceL coeff k).getD (k - 1) 0 = coeff.getD (coeff.length - 1) 0 := by
  have h1 : 1 ≤ coeff.length := List.length_pos.mpr hne
  rw [sliceL_getD_hi hne hk (by omega)]
  congr 1
  omega

/-- Dropping `m` low entries of the `k`-slice yields the `k - m`-slice. -/
theorem sliceL_drop {coeff : List ℕ} (hne : coeff ≠ []) {k m : ℕ} (hk : 1 ≤ k)
    (hm : m ≤ k - 1) :
    (sliceL coeff k).drop m = sliceL coeff (k - m) := by
  have h1 : 1 ≤ coeff.length := List.length_pos.mpr hne
  apply list_ext_getD
  · rw [List.length_drop, sliceL_length hne hk, sliceL_length hne (by omega)]
  · intro i
    rw [getD_drop']
    rcases le_or_lt (k - m) i with hi | hi
    · rw [List.getD_eq_default _ _ (by rw [sliceL_length hne hk]; omega),
        List.getD_eq_default _ _ (by rw [sliceL_length hne (by omega : 1 ≤ k - m)]; omega)]
    rcases lt_or_le (coeff.length + (m + i)) k with hr | hr
    · rw [sliceL_getD_lo hne hr, sliceL_getD_lo hne (by omega)]
    · rw [sliceL_getD_hi hne hk hr, sliceL_getD_hi hne (by omega) (by omega)]
      congr 1
      omega

/-- For `k` at least the coefficient count, the slice is the zero-padded
full divisor. -/
theorem sliceL_of_ge {coeff : List ℕ} (hne : coeff ≠ []) {k : ℕ}
    (hk : coeff.length ≤ k) :
    sliceL coeff k = List.replicate (k - coeff.length) 0 ++ coeff := by
  have h1 : 1 ≤ coeff.length := List.length_pos.mpr hne
  apply list_ext_getD
  · rw [sliceL_length hne (by omega), List.length_append, List.length_replicate]
    omega
  · intro i
    rcases le_or_lt k i with hi | hi
    · rw [List.getD_eq_default _ _ (by rw [sliceL_length hne (by omega : 1 ≤ k)]; omega),
        List.getD_eq_default _ _
          (by rw [List.length_append, List.length_replicate]; omega)]
    rcases lt_or_le (coeff.length + i) k with hr | hr
    · rw [sliceL_getD_lo hne hr]
      have hidx : i < (List.replicate (k - coeff.length) (0 : ℕ)).length := by
        simp only [List.length_replicate]
        omega
      rw [List.getD_append _ _ _ _ hidx, getD_replicate_zero]
    · rw [sliceL_getD_hi hne (by omega) hr]
      have hidx : (List.replicate (k - coeff.length) (0 : ℕ)).length ≤ i := by
        simp only [List.length_replicate]
        omega
      rw [List.getD_append_right _ _ _ _ hidx]
      simp only [List.length_replicate]
      congr 1
      omega

/-- `toP` of a list of length 1 obtained by dropping all but the last entry. -/
theorem toP_drop_last {n : ℕ} {l : List ℕ} (hne : l ≠ []) :
    toP n (l.drop (l.length - 1)) = Polynomial.C ((l.getD (l.length - 1) 0 : ℕ) : ZMod n) := by
  have h1 : 1 ≤ l.length := List.length_pos.mpr hne
  have hm : (l.drop (l.length - 1)).length = 1 := by
    rw [List.length_drop]
    omega
  rcases hdl : l.drop (l.length - 1) with _ | ⟨a, as⟩
  · rw [hdl] at hm
    exact absurd hm (by simp)
  · have has : as = [] := by
      rw [hdl] at hm
      simpa using hm
    subst has
    have ha : a = l.getD (l.length - 1) 0 := by
      have h3 := getD_drop' l (l.length - 1) 0
      rw [hdl] at h3
      simp only [List.getD_cons_zero, Nat.add_zero] at h3
      exact h3
    rw [ha]
    simp [toP]

/-! ## Cleanliness and trimming facts -/

theorem clean_sliceL {n : ℕ} {coeff : List ℕ} (h : Clean n coeff) (hn : 0 < n) (k : ℕ) :
    Clean n (sliceL coeff k) := by
  intro c hc
  have hc' := List.mem_of_mem_drop hc
  rcases List.mem_append.mp hc' with h0 | h1
  · rw [List.eq_of_mem_replicate h0]
    exact hn
  · exact h c h1

theorem pyGet_lt {n : ℕ} {l : List ℕ} (h : Clean n l) (hn : 0 < n) (i : ℤ) :
    pyGet l i < n := by
  unfold pyGet
  by_cases h0 : 0 ≤ i
  · rw [if_pos h0]
    exact clean_getD h hn _
  · rw [if_neg h0]
    exact clean_getD h hn _

theorem clean_recipF {n : ℕ} {coeff : List ℕ} (h : Clean n coeff) (hn : 0 < n)
    (d k : ℕ) : Clean n (recipF coeff d k) := by
  intro c hc
  unfold recipF at hc
  rcases List.mem_map.mp hc with ⟨j, _, hj⟩
  rw [← hj]
  exact pyGet_lt h hn _

theorem clean_pyTrim {n : ℕ} {l : List ℕ} (h : Clean n l) : Clean n (pyTrim l) := by
  intro c hc
  unfold pyTrim at hc
  rw [List.mem_reverse] at hc
  rcases trimRevAux_eats_zeros l.reverse with ⟨k, hk⟩
  have : c ∈ l.reverse := by
    rw [hk]
    exact List.mem_append_right _ hc
  exact h c (List.mem_reverse.mp this)

theorem subLoop_length (n : ℕ) (a b : List ℕ) :
    (subLoop n a b).length = max a.length b.length := by
  induction a generalizing b with
  | nil =>
    induction b with
    | nil => simp [subLoop]
    | cons y ys ihb => simp [subLoop, ihb]
  | cons x xs ih =>
    cases b with
    | nil =>
      have := ih []
      simp [subLoop] at this ⊢
      omega
    | cons y ys =>
      have := ih ys
      simp [subLoop] at this ⊢
      omega

theorem clean_subLoop {n : ℕ} {a b : List ℕ} (ha : Clean n a) (hn : 0 < n)
    (hlen : b.length ≤ a.length) : Clean n (subLoop n a b) := by
  induction a generalizing b with
  | nil =>
    cases b with
    | nil =>
      intro c hc
      simp [subLoop] at hc
    | cons y ys => simp at hlen
  | cons x xs ih =>
    cases b with
    | nil =>
      intro c hc
      unfold subLoop at hc
      rcases List.mem_cons.mp hc with rfl | hc'
      · exact ha c (by simp)
      · exact ih (fun e he => ha e (by simp [he])) (by simp) c hc'
    | cons y ys =>
      intro c hc
      unfold subLoop at hc
      rcases List.mem_cons.mp hc with rfl | hc'
      · exact zmod_lt hn
      · exact ih (fun e he => ha e (by simp [he])) (by simpa using hlen) c hc'

theorem pyTrim_length_le (l : List ℕ) : (pyTrim l).length ≤ l.length := by
  unfold pyTrim
  rcases trimRevAux_eats_zeros l.reverse with ⟨k, hk⟩
  have h1 : (trimRevAux l.reverse).length ≤ l.reverse.length := by
    conv_rhs => rw [hk]
    rw [List.length_append]
    omega
  rw [List.length_reverse] at h1 ⊢
  exact h1

theorem pyTrim_ne_nil {l : List ℕ} (h : l ≠ []) : pyTrim l ≠ [] := by
  have := pyTrim_trimmedRep h
  exact this.1

/-- The top literal entry of a trimmed list: either the list is `[0]` or its
last entry is non-zero. -/
theorem trimmedRep_top {l : List ℕ} (h : TrimmedRep l) :
    l = [0] ∨ l.getD (l.length - 1) 0 ≠ 0 := by
  rcases h with ⟨hne, htop⟩
  by_cases h0 : l = [0]
  · exact Or.inl h0
  · right
    intro hz
    apply htop h0
    rw [List.getLast?_eq_getLast _ hne]
    have h1 : 1 ≤ l.length := List.length_pos.mpr hne
    have h2 : l.getLast hne = l.getD (l.length - 1) 0 := by
      rw [List.getLast_eq_getElem, List.getD_eq_getElem _ _ (by omega)]
    rw [h2, hz]

/-- An all-zero non-empty list trims to the zero sentinel `[0]`. -/
theorem trimRevAux_all_zero {l : List ℕ} (h : ∀ c ∈ l, c = 0) (hne : l ≠ []) :
    trimRevAux l = [0] := by
  induction l with
  | nil => exact absurd rfl hne
  | cons a as ih =>
    have ha : a = 0 := h a (by simp)
    cases as with
    | nil =>
      unfold trimRevAux
      rw [ha]
    | cons b bs =>
      unfold trimRevAux
      rw [if_pos ha]
      exact ih (fun c hc => h c (by simp [List.mem_cons] at hc ⊢; tauto)) (by simp)

theorem pyTrim_all_zero {l : List ℕ} (h : ∀ c ∈ l, c = 0) (hne : l ≠ []) :
    pyTrim l = [0] := by
  unfold pyTrim
  rw [trimRevAux_all_zero (fun c hc => h c (List.mem_reverse.mp hc))
    (by simpa using hne)]
  rfl

/-! ## Montgomery RECIP: loop invariant

`RecipInv n coeff d u κ R` captures the state of the doubling loop of
`recip` after the body has produced a list `R` of length `κ`: `R` is clean,
its top literal entry is the inverse `u` of the divisor's leading
coefficient, and `toP R` agrees with the exact quotient
`⌊x^(2κ-2) / G_κ⌋` of the divisor slice `G_κ` up to an error of degree
below `κ - (d+1)` (so exactly, while `κ ≤ d + 1`; the error window is the
imprint of Python's negative-index wrap in the slice construction). -/
def RecipInv (n : ℕ) (coeff : List ℕ) (d u κ : ℕ) (R : List ℕ) : Prop :=
  R.length = κ ∧ Clean n R ∧ R.getD (κ - 1) 0 = u ∧
  ∃ Q S : Polynomial (ZMod n),
    Polynomial.X ^ (2 * κ - 2) = toP n (sliceL coeff κ) * Q + S ∧
    DegLt S (κ - 1) ∧ DegLt (toP n R - Q) (κ - (d + 1))

theorem getD_map_range (f : ℕ → ℕ) (k j : ℕ) :
    ((List.range k).map f).getD j 0 = if j < k then f j else 0 := by
  rcases lt_or_le j k with h | h
  · rw [List.getD_eq_getElem _ _ (by simpa using h), List.getElem_map,
      List.getElem_range, if_pos h]
  · rw [List.getD_eq_default _ _ (by simpa using h), if_neg (by omega)]

theorem recipF_length (coeff : List ℕ) (d k : ℕ) : (recipF coeff d k).length = k := by
  simp [recipF]

theorem recipStep_length (n : ℕ) (coeff : List ℕ) (d k : ℕ) (R : List ℕ) :
    (recipStep n coeff d k R).length = k := by
  simp [recipStep]

theorem clean_recipStep {n : ℕ} (hn : 0 < n) (coeff : List ℕ) (d k : ℕ) (R : List ℕ) :
    Clean n (recipStep n coeff d k R) := by
  intro c hc
  unfold recipStep at hc
  rcases List.mem_map.mp hc with ⟨j, _, hj⟩
  rw [← hj]
  exact zmod_lt hn

/-- Casting is injective on naturals below the modulus. -/
theorem cast_inj_lt {n a b : ℕ} (hn : 2 ≤ n) (ha : a < n) (hb : b < n)
    (h : (a : ZMod n) = (b : ZMod n)) : a = b := by
  haveI : NeZero n := ⟨by omega⟩
  have := congrArg ZMod.val h
  rwa [ZMod.val_cast_of_lt ha, ZMod.val_cast_of_lt hb] at this

/-- Top coefficient of a product from one-sided degree bounds. -/
theorem coeff_mul_top {n : ℕ} {P Q : Polynomial (ZMod n)} {a b : ℕ}
    (hP : DegLt P (a + 1)) (hQ : DegLt Q (b + 1)) :
    (P * Q).coeff (a + b) = P.coeff a * Q.coeff b := by
  rw [degLt_iff] at hP hQ
  rw [Polynomial.coeff_mul]
  rw [Finset.sum_eq_single (a, b)]
  · intro x hx hne
    rw [Finset.mem_antidiagonal] at hx
    rcases lt_or_le a x.1 with h1 | h1
    · rw [hP x.1 (by omega), zero_mul]
    · have hb2 : b ≤ x.2 := by omega
      rcases eq_or_lt_of_le hb2 with h2 | h2
      · exfalso
        apply hne
        have : x.1 = a := by omega
        exact Prod.ext this h2.symm
      · rw [hQ x.2 (by omega), mul_zero]
  · intro hx
    exfalso
    exact hx (Finset.mem_antidiagonal.mpr rfl)

/-- The list built by the `recip` body differs from the divisor slice only
in the wrap window of degree below `k - (d+1)`. -/
theorem recipF_junk (n : ℕ) {coeff : List ℕ} (hne : coeff ≠ []) {d k : ℕ}
    (hdl : coeff.length = d + 1) (hk : 1 ≤ k) (hk2 : k ≤ 2 * d + 2) :
    DegLt (toP n (recipF coeff d k) - toP n (sliceL coeff k)) (k - (d + 1)) := by
  rw [degLt_iff]
  intro i hi
  rw [Polynomial.coeff_sub, toP_coeff, toP_coeff]
  rcases le_or_lt k i with hik | hik
  · rw [List.getD_eq_default _ _ (by rw [recipF_length]; omega),
      List.getD_eq_default _ _ (by rw [sliceL_length hne hk]; omega), sub_self]
  · have hF : (recipF coeff d k).getD i 0 = pyGet coeff ((d : ℤ) - k + i + 1) := by
      unfold recipF
      rw [getD_map_range, if_pos hik]
    have hnn : (0 : ℤ) ≤ (d : ℤ) - k + i + 1 := by omega
    have hFv : pyGet coeff ((d : ℤ) - k + i + 1) = coeff.getD (d + 1 + i - k) 0 := by
      unfold pyGet
      rw [if_pos hnn]
      congr 1
      omega
    have hS : (sliceL coeff k).getD i 0 = coeff.getD (d + 1 + i - k) 0 := by
      rw [sliceL_getD_hi hne hk (by omega), hdl]
    rw [hF, hFv, hS, sub_self]

/-- The `recip` body list reads the top window of `H`: beyond degree
`2m` (window start `k-2` for `k = 2m+2`), the combination
`Rnew·X^(k-2) - 2·R·X^(k+h-2) + H` has all coefficients zero. -/
theorem recipStep_window (n : ℕ) (hn : 2 ≤ n) (coeff : List ℕ) (d : ℕ)
    (hcoeff : Clean n coeff) {m : ℕ} {R : List ℕ}
    (hR : R.length = m + 1) (hRc : Clean n R) :
    DegLt (toP n (recipStep n coeff d (2 * m + 2) R) * Polynomial.X ^ (2 * m) -
      Polynomial.C (2 : ZMod n) * (toP n R * Polynomial.X ^ (3 * m + 1)) +
      toP n (recipH n coeff d (2 * m + 2) R)) (2 * m) := by
  have hn0 : 0 < n := by omega
  have hlenH : (recipH n coeff d (2 * m + 2) R).length ≤ 4 * m + 2 := by
    have h1 := pMul_length_le R R hRc.bounded hRc.bounded
    have h2 := pMul_length_le (pMul n R R) (recipF coeff d (2 * m + 2))
      (pMul_clean hn0 R R).bounded (clean_recipF hcoeff hn0 d (2 * m + 2)).bounded
    have h3 := recipF_length coeff d (2 * m + 2)
    unfold recipH
    omega
  rw [degLt_iff]
  intro i hi
  obtain ⟨j, rfl⟩ : ∃ j, i = 2 * m + j := ⟨i - 2 * m, by omega⟩
  rw [Polynomial.coeff_add, Polynomial.coeff_sub, Polynomial.coeff_mul_X_pow',
    Polynomial.coeff_C_mul, Polynomial.coeff_mul_X_pow',
    if_pos (by omega : 2 * m ≤ 2 * m + j)]
  have e1 : 2 * m + j - 2 * m = j := by omega
  rw [e1, toP_coeff n (recipH n coeff d (2 * m + 2) R) (2 * m + j),
    toP_coeff n (recipStep n coeff d (2 * m + 2) R) j]
  rcases lt_or_le j (2 * m + 2) with hj | hj
  · have hstep : (recipStep n coeff d (2 * m + 2) R).getD j 0 =
        zmod_ ((if j < (2 * m + 2) / 2 then (0 : ℤ) else
          (2 * R.getD (j - (2 * m + 2) / 2) 0 : ℕ)) -
          ((recipH n coeff d (2 * m + 2) R).getD (j + (2 * m + 2) - 2) 0 : ℕ)) n := by
      unfold recipStep
      rw [getD_map_range, if_pos hj]
    have ediv : (2 * m + 2) / 2 = m + 1 := by omega
    have eidx : j + (2 * m + 2) - 2 = 2 * m + j := by omega
    rw [hstep, ediv, eidx, zmod_cast hn0]
    rcases lt_or_le j (m + 1) with hjm | hjm
    · rw [if_pos hjm, if_neg (by omega : ¬ 3 * m + 1 ≤ 2 * m + j)]
      push_cast
      ring
    · rw [if_neg (by omega : ¬ j < m + 1), if_pos (by omega : 3 * m + 1 ≤ 2 * m + j)]
      have e2 : 2 * m + j - (3 * m + 1) = j - (m + 1) := by omega
      rw [e2, toP_coeff n R (j - (m + 1))]
      push_cast
      ring
  · have hzero : (if 3 * m + 1 ≤ 2 * m + j then
        (toP n R).coeff (2 * m + j - (3 * m + 1)) else 0) = (0 : ZMod n) := by
      rcases le_or_lt (3 * m + 1) (2 * m + j) with h4 | h4
      · rw [if_pos h4, toP_coeff, List.getD_eq_default _ _ (by omega)]
        exact Nat.cast_zero
      · rw [if_neg (by omega)]
    rw [hzero, List.getD_eq_default _ _ (by rw [recipStep_length]; omega),
      List.getD_eq_default _ _ (by omega)]
    push_cast
    ring

theorem DegLt.sq {n : ℕ} {P : Polynomial (ZMod n)} {a : ℕ}
    (h : DegLt P a) : DegLt (P ^ 2) (2 * a - 1) := by
  rw [pow_two]
  exact (h.mul h).mono (by omega)

/-- One body pass of the RECIP doubling loop preserves the invariant: a
state of length `m+1` at counter `2m+2` steps to a state of length `2m+2`.
This is the Newton doubling `R ↦ 2·x^h·R - ⌊R²·G_k / x^(k-2)⌋` of
Montgomery RECIP, with the wrap junk of the slice construction tracked in
the sub-`κ-(d+1)` error window. -/
theorem recipStep_inv (n : ℕ) (hn : 2 ≤ n) {coeff : List ℕ} {d u : ℕ}
    (hne : coeff ≠ []) (hdl : coeff.length = d + 1) (hcoeff : Clean n coeff)
    (hu : u < n) (hunit : (u : ZMod n) * ((coeff.getD d 0 : ℕ) : ZMod n) = 1)
    {m : ℕ} (hk2 : 2 * m + 2 ≤ 2 * d + 2) {R : List ℕ}
    (hInv : RecipInv n coeff d u (m + 1) R) :
    RecipInv n coeff d u (2 * m + 2) (recipStep n coeff d (2 * m + 2) R) := by
  haveI : Fact (1 < n) := ⟨by omega⟩
  have hn0 : 0 < n := by omega
  obtain ⟨hRlen, hRcl, hRtop, Q, S, hQS, hS, hEps⟩ := hInv
  have e0 : 2 * (m + 1) - 2 = 2 * m := by omega
  rw [e0] at hQS
  have e1 : (m + 1) - 1 = m := by omega
  rw [e1] at hS
  have hcd : ((coeff.getD d 0 : ℕ) : ZMod n) ≠ 0 := by
    intro h0
    rw [h0, mul_zero] at hunit
    exact zero_ne_one hunit
  -- the two slices have exact degree with leading coefficient `coeff[d]`
  have hneh : sliceL coeff (m + 1) ≠ [] :=
    List.ne_nil_of_length_pos (by rw [sliceL_length hne (by omega)]; omega)
  have hlh : (sliceL coeff (m + 1)).length = m + 1 := sliceL_length hne (by omega)
  have htoph : (sliceL coeff (m + 1)).getD ((sliceL coeff (m + 1)).length - 1) 0 =
      coeff.getD d 0 := by
    rw [hlh]
    have h2 := sliceL_top hne (k := m + 1) (by omega)
    rw [hdl] at h2
    simpa using h2
  have hGh := toP_degree_top (n := n) hneh (by rw [htoph]; exact hcd)
  rw [htoph, hlh] at hGh
  simp only [Nat.add_sub_cancel] at hGh
  have hnek : sliceL coeff (2 * m + 2) ≠ [] :=
    List.ne_nil_of_length_pos (by rw [sliceL_length hne (by omega)]; omega)
  have hlk : (sliceL coeff (2 * m + 2)).length = 2 * m + 2 := sliceL_length hne (by omega)
  have htopk : (sliceL coeff (2 * m + 2)).getD ((sliceL coeff (2 * m + 2)).length - 1) 0 =
      coeff.getD d 0 := by
    rw [hlk]
    have h2 := sliceL_top hne (k := 2 * m + 2) (by omega)
    rw [hdl] at h2
    have e2 : 2 * m + 2 - 1 = 2 * m + 1 := by omega
    rw [e2] at h2
    exact h2
  have hGk := toP_degree_top (n := n) hnek (by rw [htopk]; exact hcd)
  rw [htopk, hlk] at hGk
  have e3 : 2 * m + 2 - 1 = 2 * m + 1 := by omega
  rw [e3] at hGk
  -- split the big slice at the half boundary
  have hsplitG : toP n (sliceL coeff (2 * m + 2)) =
      toP n ((sliceL coeff (2 * m + 2)).take (m + 1)) +
      Polynomial.X ^ (m + 1) * toP n (sliceL coeff (m + 1)) := by
    have h1 := toP_split n (sliceL coeff (2 * m + 2)) (m + 1)
    rw [sliceL_drop hne (by omega) (by omega)] at h1
    have e4 : 2 * m + 2 - (m + 1) = m + 1 := by omega
    rw [e4] at h1
    exact h1
  have hPiH_eq : toP n (recipH n coeff d (2 * m + 2) R) =
      toP n R * toP n R * toP n (recipF coeff d (2 * m + 2)) := by
    unfold recipH
    rw [toP_pMul _ _ _ (pMul_clean hn0 R R).bounded
        (clean_recipF hcoeff hn0 d (2 * m + 2)).bounded,
      toP_pMul _ _ _ hRcl.bounded hRcl.bounded]
  have hJ := recipF_junk n hne hdl (k := 2 * m + 2) (by omega) (by omega)
  have hT := recipStep_window n hn coeff d hcoeff hRlen hRcl
  -- degree of the stored quotient
  have hQdeg : DegLt Q (m + 1) := by
    have hGhQ : toP n (sliceL coeff (m + 1)) * Q = Polynomial.X ^ (2 * m) - S := by
      linear_combination -hQS
    have hb : DegLt (toP n (sliceL coeff (m + 1)) * Q) (m + (m + 1)) := by
      rw [hGhQ]
      exact (degLt_X_pow.mono (by omega)).sub (hS.mono (by omega))
    exact degLt_cancel hGh.1 ⟨(u : ZMod n), by rw [hGh.2]; exact hunit⟩ hb
  -- divide x^(4m+2) by the big slice
  obtain ⟨Q', S', hQS', hS'bd⟩ := exists_div_mod hn hGk.1
    (v := (u : ZMod n)) (by rw [hGk.2]; exact hunit)
    ((Polynomial.X : Polynomial (ZMod n)) ^ (4 * m + 2))
  -- the Newton identity
  have hGQ : toP n (sliceL coeff (2 * m + 2)) * Q =
      Polynomial.X ^ (3 * m + 1) -
      (Polynomial.X ^ (m + 1) * S -
        toP n ((sliceL coeff (2 * m + 2)).take (m + 1)) * Q) := by
    rw [hsplitG]
    linear_combination (-(Polynomial.X ^ (m + 1)) : Polynomial (ZMod n)) * hQS
  have hW : toP n (sliceL coeff (2 * m + 2)) * toP n R =
      Polynomial.X ^ (3 * m + 1) -
      ((Polynomial.X ^ (m + 1) * S -
          toP n ((sliceL coeff (2 * m + 2)).take (m + 1)) * Q) -
        toP n (sliceL coeff (2 * m + 2)) * (toP n R - Q)) := by
    linear_combination hGQ
  have hE : (Polynomial.X ^ (2 * m) * toP n (sliceL coeff (2 * m + 2))) *
        (toP n (recipStep n coeff d (2 * m + 2) R) - Q') =
      Polynomial.X ^ (2 * m) * S' -
      (((Polynomial.X ^ (m + 1) * S -
            toP n ((sliceL coeff (2 * m + 2)).take (m + 1)) * Q) -
          toP n (sliceL coeff (2 * m + 2)) * (toP n R - Q)) ^ 2 +
        (toP n R) ^ 2 * toP n (sliceL coeff (2 * m + 2)) *
          (toP n (recipF coeff d (2 * m + 2)) - toP n (sliceL coeff (2 * m + 2))) -
        toP n (sliceL coeff (2 * m + 2)) *
          (toP n (recipStep n coeff d (2 * m + 2) R) * Polynomial.X ^ (2 * m) -
            Polynomial.C (2 : ZMod n) * (toP n R * Polynomial.X ^ (3 * m + 1)) +
            toP n (recipH n coeff d (2 * m + 2) R))) := by
    rw [hPiH_eq, map_ofNat]
    linear_combination (Polynomial.X ^ (2 * m) : Polynomial (ZMod n)) * hQS' +
      ((Polynomial.X ^ (m + 1) * S -
          toP n ((sliceL coeff (2 * m + 2)).take (m + 1)) * Q) -
        toP n (sliceL coeff (2 * m + 2)) * (toP n R - Q) -
        toP n (sliceL coeff (2 * m + 2)) * toP n R +
        Polynomial.X ^ (3 * m + 1)) * hW
  -- degree bounds
  have hLbd : DegLt (toP n ((sliceL coeff (2 * m + 2)).take (m + 1))) (m + 1) :=
    (degLt_toP n _).mono (by rw [List.length_take]; omega)
  have hRpbd : DegLt (toP n R) (m + 1) := by
    have h10 := degLt_toP n R
    rwa [hRlen] at h10
  have hGbd : DegLt (toP n (sliceL coeff (2 * m + 2))) (2 * m + 2) := by
    have h10 := degLt_toP n (sliceL coeff (2 * m + 2))
    rwa [hlk] at h10
  have hDbd : DegLt (Polynomial.X ^ (m + 1) * S -
      toP n ((sliceL coeff (2 * m + 2)).take (m + 1)) * Q) (2 * m + 1) :=
    ((degLt_X_pow.mul hS).mono (by omega)).sub ((hLbd.mul hQdeg).mono (by omega))
  have hGεbd : DegLt (toP n (sliceL coeff (2 * m + 2)) * (toP n R - Q))
      ((2 * m + 2) + ((m + 1) - (d + 1)) - 1) := hGbd.mul hEps
  have hWbd : DegLt ((Polynomial.X ^ (m + 1) * S -
        toP n ((sliceL coeff (2 * m + 2)).take (m + 1)) * Q) -
      toP n (sliceL coeff (2 * m + 2)) * (toP n R - Q))
      (max (2 * m + 1) ((2 * m + 2) + ((m + 1) - (d + 1)) - 1)) :=
    (hDbd.mono (le_max_left _ _)).sub (hGεbd.mono (le_max_right _ _))
  have hRHSbd : DegLt (Polynomial.X ^ (2 * m) * S' -
      (((Polynomial.X ^ (m + 1) * S -
            toP n ((sliceL coeff (2 * m + 2)).take (m + 1)) * Q) -
          toP n (sliceL coeff (2 * m + 2)) * (toP n R - Q)) ^ 2 +
        (toP n R) ^ 2 * toP n (sliceL coeff (2 * m + 2)) *
          (toP n (recipF coeff d (2 * m + 2)) - toP n (sliceL coeff (2 * m + 2))) -
        toP n (sliceL coeff (2 * m + 2)) *
          (toP n (recipStep n coeff d (2 * m + 2) R) * Polynomial.X ^ (2 * m) -
            Polynomial.C (2 : ZMod n) * (toP n R * Polynomial.X ^ (3 * m + 1)) +
            toP n (recipH n coeff d (2 * m + 2) R))))
      ((4 * m + 1) + ((2 * m + 2) - (d + 1))) := by
    apply DegLt.sub
    · exact (degLt_X_pow.mul hS'bd).mono (by omega)
    · apply DegLt.sub
      · apply DegLt.add
        · exact hWbd.sq.mono (by omega)
        · exact ((hRpbd.sq.mul hGbd).mul hJ).mono (by omega)
      · exact (hGbd.mul hT).mono (by omega)
  have hlc1 : ((Polynomial.X : Polynomial (ZMod n)) ^ (2 * m)).leadingCoeff *
      (toP n (sliceL coeff (2 * m + 2))).leadingCoeff ≠ 0 := by
    rw [Polynomial.leadingCoeff_X_pow, one_mul, hGk.2]
    exact hcd
  have hXG_deg : (Polynomial.X ^ (2 * m) * toP n (sliceL coeff (2 * m + 2))).degree =
      ((4 * m + 1 : ℕ) : WithBot ℕ) := by
    rw [Polynomial.degree_mul' hlc1, Polynomial.degree_X_pow, hGk.1]
    exact_mod_cast congrArg (Nat.cast : ℕ → WithBot ℕ) (by omega : 2 * m + (2 * m + 1) = 4 * m + 1)
  have hXG_lead : (Polynomial.X ^ (2 * m) * toP n (sliceL coeff (2 * m + 2))).leadingCoeff =
      ((coeff.getD d 0 : ℕ) : ZMod n) := by
    rw [Polynomial.leadingCoeff_mul' hlc1, Polynomial.leadingCoeff_X_pow, one_mul, hGk.2]
  have hcancel : DegLt (toP n (recipStep n coeff d (2 * m + 2) R) - Q')
      ((2 * m + 2) - (d + 1)) := by
    apply degLt_cancel hXG_deg ⟨(u : ZMod n), by rw [hXG_lead]; exact hunit⟩
    rw [hE]
    exact hRHSbd
  -- literal top entry of the new list
  have hQ'bd : DegLt Q' (2 * m + 2) := by
    have hGQ' : toP n (sliceL coeff (2 * m + 2)) * Q' =
        Polynomial.X ^ (4 * m + 2) - S' := by
      linear_combination -hQS'
    have hb : DegLt (toP n (sliceL coeff (2 * m + 2)) * Q') ((2 * m + 1) + (2 * m + 2)) := by
      rw [hGQ']
      exact (degLt_X_pow.mono (by omega)).sub (hS'bd.mono (by omega))
    exact degLt_cancel hGk.1 ⟨(u : ZMod n), by rw [hGk.2]; exact hunit⟩ hb
  have hcoefftop : (toP n (sliceL coeff (2 * m + 2)) * Q').coeff (4 * m + 2) = 1 := by
    have h9 : toP n (sliceL coeff (2 * m + 2)) * Q' =
        Polynomial.X ^ (4 * m + 2) - S' := by
      linear_combination -hQS'
    rw [h9, Polynomial.coeff_sub, Polynomial.coeff_X_pow, if_pos rfl]
    rw [degLt_iff] at hS'bd
    rw [hS'bd (4 * m + 2) (by omega), sub_zero]
  have htopmul := coeff_mul_top (a := 2 * m + 1) (b := 2 * m + 1) hGbd hQ'bd
  have hGc : (toP n (sliceL coeff (2 * m + 2))).coeff (2 * m + 1) =
      ((coeff.getD d 0 : ℕ) : ZMod n) := by
    rw [toP_coeff, ← e3, htopk.symm, hlk]
  have hq't : Q'.coeff (2 * m + 1) = (u : ZMod n) := by
    have h5 : ((coeff.getD d 0 : ℕ) : ZMod n) * Q'.coeff (2 * m + 1) = 1 := by
      have e5 : 2 * m + 1 + (2 * m + 1) = 4 * m + 2 := by omega
      rw [← hGc, ← htopmul, e5, hcoefftop]
    calc Q'.coeff (2 * m + 1) =
          ((u : ZMod n) * ((coeff.getD d 0 : ℕ) : ZMod n)) * Q'.coeff (2 * m + 1) := by
          rw [hunit, one_mul]
      _ = (u : ZMod n) * (((coeff.getD d 0 : ℕ) : ZMod n) * Q'.coeff (2 * m + 1)) := by
          ring
      _ = (u : ZMod n) := by rw [h5, mul_one]
  have hRn_top : (recipStep n coeff d (2 * m + 2) R).getD (2 * m + 2 - 1) 0 = u := by
    have h6 : (toP n (recipStep n coeff d (2 * m + 2) R) - Q').coeff (2 * m + 1) = 0 := by
      rw [degLt_iff] at hcancel
      exact hcancel _ (by omega)
    rw [Polynomial.coeff_sub, sub_eq_zero] at h6
    have h7 : (((recipStep n coeff d (2 * m + 2) R).getD (2 * m + 1) 0 : ℕ) : ZMod n) =
        (u : ZMod n) := by
      rw [← toP_coeff, h6, hq't]
    have h8 : (recipStep n coeff d (2 * m + 2) R).getD (2 * m + 1) 0 < n :=
      clean_getD (clean_recipStep hn0 coeff d (2 * m + 2) R) hn0 _
    rw [e3]
    exact cast_inj_lt hn h8 hu h7
  refine ⟨recipStep_length n coeff d (2 * m + 2) R,
    clean_recipStep hn0 coeff d (2 * m + 2) R, hRn_top, Q', S', ?_, ?_, hcancel⟩
  · have e6 : 2 * (2 * m + 2) - 2 = 4 * m + 2 := by omega
    rw [e6]
    exact hQS'
  · have e7 : 2 * m + 2 - 1 = 2 * m + 1 := by omega
    rw [e7]
    exact hS'bd

/-- Running the doubling loop from an invariant state reaches an invariant
exit state whose counter is twice the final length and at least `2d`. -/
theorem recip_loop_inv (n : ℕ) (hn : 2 ≤ n) {coeff : List ℕ} {d u : ℕ}
    (hne : coeff ≠ []) (hdl : coeff.length = d + 1) (hcoeff : Clean n coeff)
    (hu : u < n) (hunit : (u : ZMod n) * ((coeff.getD d 0 : ℕ) : ZMod n) = 1) :
    ∀ fuel k R e, (∃ m : ℕ, k = 2 * m + 2 ∧ RecipInv n coeff d u (m + 1) R) →
      2 * d ≤ k * 2 ^ fuel →
      ∃ R' e' κ, recip_loop n coeff d u fuel k R e = (R', e', 2 * κ) ∧
        RecipInv n coeff d u κ R' ∧ d ≤ κ ∧ 1 ≤ κ := by
  intro fuel
  induction fuel with
  | zero =>
    intro k R e hm hfuel
    obtain ⟨m, rfl, hInv⟩ := hm
    rw [pow_zero, Nat.mul_one] at hfuel
    refine ⟨R, e, m + 1, ?_, hInv, by omega, by omega⟩
    have e1 : 2 * (m + 1) = 2 * m + 2 := by omega
    rw [e1]
    rfl
  | succ fuel ih =>
    intro k R e hm hfuel
    obtain ⟨m, rfl, hInv⟩ := hm
    by_cases hlt : 2 * m + 2 < d * 2
    · have hunf : recip_loop n coeff d u (fuel + 1) (2 * m + 2) R e =
          recip_loop n coeff d u fuel ((2 * m + 2) * 2)
            (recipStep n coeff d (2 * m + 2) R)
            (recipE n coeff d u (2 * m + 2) e R) := by
        simp [recip_loop, hlt]
      rw [hunf]
      apply ih
      · refine ⟨2 * m + 1, by omega, ?_⟩
        have hstep := recipStep_inv n hn hne hdl hcoeff hu hunit (m := m)
          (by omega) hInv
        have e2 : 2 * m + 1 + 1 = 2 * m + 2 := by omega
        rw [e2]
        exact hstep
      · calc 2 * d ≤ (2 * m + 2) * 2 ^ (fuel + 1) := hfuel
          _ = ((2 * m + 2) * 2) * 2 ^ fuel := by ring
    · refine ⟨R, e, m + 1, ?_, hInv, by omega, by omega⟩
      have e1 : 2 * (m + 1) = 2 * m + 2 := by omega
      rw [e1]
      simp [recip_loop, hlt]

/-- Exit quality in the truncation case `κ ≥ d + 1`: dropping the low
`κ-(d+1)` entries (the source's `res.coeff[-d-1:]`) yields an exact
reciprocal, with remainder of degree below `d`. -/
theorem recip_exit_drop (n : ℕ) (hn : 2 ≤ n) {coeff : List ℕ} {d u κ : ℕ}
    (hne : coeff ≠ []) (hdl : coeff.length = d + 1) (hcoeff : Clean n coeff)
    (hκ : d + 1 ≤ κ) {R : List ℕ} (hInv : RecipInv n coeff d u κ R) :
    DegLt (Polynomial.X ^ (2 * d) - toP n coeff * toP n (R.drop (κ - (d + 1)))) d := by
  haveI : Fact (1 < n) := ⟨by omega⟩
  obtain ⟨j, rfl⟩ : ∃ j, κ = j + d + 1 := ⟨κ - (d + 1), by omega⟩
  obtain ⟨hlen, hclean, htop, Q, S, hQS, hS, hEps⟩ := hInv
  have e1 : j + d + 1 - (d + 1) = j := by omega
  rw [e1] at hEps ⊢
  have e2 : 2 * (j + d + 1) - 2 = 2 * j + 2 * d := by omega
  rw [e2] at hQS
  have e3 : j + d + 1 - 1 = j + d := by omega
  rw [e3] at hS
  have hGκ : toP n (sliceL coeff (j + d + 1)) = Polynomial.X ^ j * toP n coeff := by
    rw [sliceL_of_ge hne (by omega), toP_append, toP_replicate_zero,
      List.length_replicate, hdl]
    have e4 : j + d + 1 - (d + 1) = j := by omega
    rw [e4]
    ring
  rw [hGκ] at hQS
  have hsplitR := toP_split n R j
  have hkey : Polynomial.X ^ (2 * j) *
      (Polynomial.X ^ (2 * d) - toP n coeff * toP n (R.drop j)) =
      S + (Polynomial.X ^ j * toP n coeff) *
        (toP n (R.take j) - (toP n R - Q)) := by
    linear_combination hQS + (Polynomial.X ^ j * toP n coeff) * hsplitR
  have hbd : DegLt (S + (Polynomial.X ^ j * toP n coeff) *
      (toP n (R.take j) - (toP n R - Q))) (2 * j + d) := by
    apply DegLt.add
    · exact hS.mono (by omega)
    · have h1 : DegLt (Polynomial.X ^ j * toP n coeff) (j + d + 1) := by
        have h2 := degLt_toP n coeff
        rw [hdl] at h2
        exact (degLt_X_pow.mul h2).mono (by omega)
      have h3 : DegLt (toP n (R.take j) - (toP n R - Q)) j := by
        apply DegLt.sub _ hEps
        exact (degLt_toP n _).mono (by rw [List.length_take]; omega)
      exact (h1.mul h3).mono (by omega)
  apply degLt_cancel (g := 2 * j) (Polynomial.degree_X_pow (2 * j))
    ⟨1, by rw [Polynomial.leadingCoeff_X_pow, mul_one]⟩
  rw [hkey]
  exact hbd

/-- Exit quality in the `k = 2d` case (`d` a power of two): the source
inserts `e_curr * inv_fn % n` at position 0; regardless of the inserted
value the relaxed quality `deg (x^(2d) - g·gr) ≤ d` holds. -/
theorem recip_exit_insert (n : ℕ) (hn : 2 ≤ n) {coeff : List ℕ} {d u c' : ℕ}
    (hne : coeff ≠ []) (hdl : coeff.length = d + 1) (hcoeff : Clean n coeff)
    (hunit : (u : ZMod n) * ((coeff.getD d 0 : ℕ) : ZMod n) = 1)
    (hd : 1 ≤ d) {R : List ℕ} (hInv : RecipInv n coeff d u d R) :
    DegLt (Polynomial.X ^ (2 * d) - toP n coeff * toP n (c' :: R)) (d + 1) := by
  haveI : Fact (1 < n) := ⟨by omega⟩
  obtain ⟨m, rfl⟩ : ∃ m, d = m + 1 := ⟨d - 1, by omega⟩
  obtain ⟨hlen, hclean, htop, Q, S, hQS, hS, hEps⟩ := hInv
  have e0 : 2 * (m + 1) - 2 = 2 * m := by omega
  rw [e0] at hQS
  have e1 : m + 1 - 1 = m := by omega
  rw [e1] at hS
  have hRQ : toP n R = Q := by
    have h1 : m + 1 - (m + 1 + 1) = 0 := by omega
    rw [h1, degLt_zero_iff, sub_eq_zero] at hEps
    exact hEps
  -- the (m+1)-slice is the divisor with its constant coefficient dropped
  have hGd : sliceL coeff (m + 1) = coeff.drop 1 := by
    apply list_ext_getD
    · rw [sliceL_length hne (by omega), List.length_drop, hdl]
      omega
    · intro i
      rcases lt_or_le i (m + 1) with hi | hi
      · rw [sliceL_getD_hi hne (by omega) (by omega), getD_drop']
        congr 1
        omega
      · rw [List.getD_eq_default _ _ (by rw [sliceL_length hne (by omega)]; omega),
          List.getD_eq_default _ _ (by rw [List.length_drop]; omega)]
  rw [hGd] at hQS
  have hsplitC := toP_split n coeff 1
  have htake1 : toP n (coeff.take 1) =
      Polynomial.C ((coeff.getD 0 0 : ℕ) : ZMod n) := by
    cases coeff with
    | nil => exact absurd rfl hne
    | cons a as => simp [toP]
  rw [htake1, pow_one] at hsplitC
  -- degree bound for the stored quotient
  have hnegd : sliceL coeff (m + 1) ≠ [] :=
    List.ne_nil_of_length_pos (by rw [sliceL_length hne (by omega)]; omega)
  have hcd : ((coeff.getD (m + 1) 0 : ℕ) : ZMod n) ≠ 0 := by
    intro h0
    rw [h0, mul_zero] at hunit
    exact zero_ne_one hunit
  have hlh : (sliceL coeff (m + 1)).length = m + 1 := sliceL_length hne (by omega)
  have htoph : (sliceL coeff (m + 1)).getD ((sliceL coeff (m + 1)).length - 1) 0 =
      coeff.getD (m + 1) 0 := by
    rw [hlh]
    have h2 := sliceL_top hne (k := m + 1) (by omega)
    rw [hdl] at h2
    simpa using h2
  have hGh := toP_degree_top (n := n) hnegd (by rw [htoph]; exact hcd)
  rw [htoph, hlh] at hGh
  simp only [Nat.add_sub_cancel] at hGh
  rw [hGd] at hGh
  have hQdeg : DegLt Q (m + 1) := by
    have hGhQ : toP n (coeff.drop 1) * Q = Polynomial.X ^ (2 * m) - S := by
      linear_combination -hQS
    have hb : DegLt (toP n (coeff.drop 1) * Q) (m + (m + 1)) := by
      rw [hGhQ]
      exact (degLt_X_pow.mono (by omega)).sub (hS.mono (by omega))
    exact degLt_cancel hGh.1 ⟨(u : ZMod n), by rw [hGh.2]; exact hunit⟩ hb
  have hkey : Polynomial.X ^ (2 * (m + 1)) - toP n coeff * toP n (c' :: R) =
      -(Polynomial.C ((c' : ℕ) : ZMod n) * toP n coeff) -
      Polynomial.C ((coeff.getD 0 0 : ℕ) : ZMod n) * Polynomial.X * Q +
      Polynomial.X ^ 2 * S := by
    rw [toP_cons, hRQ, hsplitC]
    linear_combination (Polynomial.X ^ 2 : Polynomial (ZMod n)) * hQS
  rw [hkey]
  apply DegLt.add
  · apply DegLt.sub
    · have h2 := degLt_toP n coeff
      rw [hdl] at h2
      exact (((degLt_C _).mul h2).mono (by omega)).neg
    · have hX : DegLt (Polynomial.C ((coeff.getD 0 0 : ℕ) : ZMod n) *
          Polynomial.X) 2 := by
        have := (degLt_C (n := n) ((coeff.getD 0 0 : ℕ) : ZMod n)).mul
          (degLt_X_pow (n := n) (m := 1))
        rw [pow_one] at this
        exact this.mono (by omega)
      exact (hX.mul hQdeg).mono (by omega)
  · exact (degLt_X_pow.mul hS).mono (by omega)

/-- The reciprocal quality delivered by `recip` and consumed by the
division loops: `deg (x^(2d) - g·gr) ≤ d`, exactly `g·gr = 1` for constant
divisors. -/
def RecipQuality (n : ℕ) (g gr : List ℕ) (d : ℕ) : Prop :=
  DegLt (Polynomial.X ^ (2 * d) - toP n g * toP n gr) (d + 1) ∧
  (d = 0 → toP n g * toP n gr = 1)

/-- `Polynomial.recip` on a clean divisor whose leading coefficient is
coprime to the modulus returns (without raising) a clean list of the same
length whose top entry is the leading coefficient's inverse, satisfying the
RECIP quality. -/
theorem recip_ok (n : ℕ) (hn : 2 ≤ n) {g : List ℕ} (hne : g ≠ [])
    (hclean : Clean n g)
    (hgcd : Nat.gcd (g.getD (g.length - 1) 0) n = 1) :
    ∃ gr : List ℕ, ∃ u : ℕ, Poly.recip ⟨g, n⟩ = .ok ⟨gr, n⟩ ∧
      gr.length = g.length ∧ Clean n gr ∧
      gr.getD (g.length - 1) 0 = u ∧ u < n ∧
      (u : ZMod n) * ((g.getD (g.length - 1) 0 : ℕ) : ZMod n) = 1 ∧
      RecipQuality n g gr (g.length - 1) := by
  haveI : Fact (1 < n) := ⟨by omega⟩
  have hlg : 1 ≤ g.length := List.length_pos.mpr hne
  obtain ⟨d, hdl⟩ : ∃ d, g.length = d + 1 := ⟨g.length - 1, by omega⟩
  have ed : g.length - 1 = d := by omega
  rw [ed]
  rw [ed] at hgcd
  have hnZ : (0 : ℤ) < (n : ℤ) := by exact_mod_cast (by omega : 0 < n)
  have hgcdZ : Int.gcd ((g.getD d 0 : ℕ) : ℤ) ((n : ℕ) : ℤ) = 1 := by
    rw [Int.gcd_natCast_natCast]
    exact hgcd
  obtain ⟨iv, hiv⟩ := inv_ok_of_gcd_one hnZ hgcdZ
  obtain ⟨hiv0, hivn, hivinv⟩ := inv_spec hnZ hiv
  have hu_lt : iv.toNat < n := by omega
  have hiv_eq : iv = ((iv.toNat : ℕ) : ℤ) := by omega
  have hunit : ((iv.toNat : ℕ) : ZMod n) * ((g.getD d 0 : ℕ) : ZMod n) = 1 := by
    have h2 : ((((g.getD d 0 : ℕ) : ℤ) * iv : ℤ) : ZMod n) = ((1 : ℤ) : ZMod n) := by
      rw [← ZMod.intCast_mod, hivinv, ZMod.intCast_mod]
    rw [hiv_eq] at h2
    push_cast at h2
    rw [mul_comm] at h2
    exact_mod_cast h2
  have hbase : RecipInv n g d iv.toNat 1 [iv.toNat] := by
    refine ⟨rfl, ?_, rfl, Polynomial.C ((iv.toNat : ℕ) : ZMod n), 0, ?_, degLt_zero, ?_⟩
    · intro c hc
      rcases List.mem_singleton.mp hc with rfl
      exact hu_lt
    · have h3 : sliceL g 1 = g.drop (g.length - 1) := by
        unfold sliceL
        simp
      rw [h3, toP_drop_last hne, ed, add_zero, pow_zero, ← Polynomial.C_mul]
      have h4 : ((g.getD d 0 : ℕ) : ZMod n) * ((iv.toNat : ℕ) : ZMod n) = 1 := by
        rw [mul_comm]
        exact hunit
      rw [h4, Polynomial.C_1]
    · have h4 : toP n [iv.toNat] = Polynomial.C ((iv.toNat : ℕ) : ZMod n) := by
        simp [toP]
      rw [h4, sub_self]
      exact degLt_zero
  have hfuel : 2 * d ≤ 2 * 2 ^ (d + 2) := by
    have h5 := Nat.lt_two_pow d
    have h6 : 2 ^ d ≤ 2 ^ (d + 2) := Nat.pow_le_pow_right (by omega) (by omega)
    omega
  obtain ⟨R', e', κ, hloop, hInvOut, hdκ, hκ1⟩ :=
    recip_loop_inv n hn hne hdl hclean hu_lt hunit (d + 2) 2 [iv.toNat]
      (zmod_ (-((pyGet g ((d : ℤ) - 1) : ℕ) : ℤ) * iv.toNat) n)
      ⟨0, rfl, hbase⟩ hfuel
  obtain ⟨hRlen, hRcl, hRtopOut, _hQ⟩ := hInvOut
  have hres : Poly.recip ⟨g, n⟩ = .ok ⟨takeLast (d + 1)
      (if 2 * κ = d * 2 then (e' * iv.toNat % n) :: R' else R'), n⟩ := by
    simp only [Poly.recip, ed, hiv, py_bind_ok, hloop]
  by_cases hcase : 2 * κ = d * 2
  · have hκd : κ = d := by omega
    have hd1 : 1 ≤ d := by omega
    subst hκd
    rw [if_pos hcase] at hres
    have hlenc : ((e' * iv.toNat % n :: R') : List ℕ).length = κ + 1 := by
      simp [hRlen]
    have htL : takeLast (κ + 1) (e' * iv.toNat % n :: R') =
        e' * iv.toNat % n :: R' := by
      unfold takeLast
      rw [hlenc, Nat.sub_self, List.drop_zero]
    rw [htL] at hres
    refine ⟨e' * iv.toNat % n :: R', iv.toNat, hres, ?_, ?_, ?_, hu_lt, hunit, ?_, ?_⟩
    · rw [hlenc, hdl]
    · intro c hc
      rcases List.mem_cons.mp hc with rfl | hc'
      · exact Nat.mod_lt _ (by omega)
      · exact hRcl c hc'
    · obtain ⟨mm, hmm⟩ : ∃ mm, κ = mm + 1 := ⟨κ - 1, by omega⟩
      rw [hmm, List.getD_cons_succ]
      have := hRtopOut
      rw [hmm] at this
      simpa using this
    · exact recip_exit_insert n hn hne hdl hclean hunit hd1
        ⟨hRlen, hRcl, hRtopOut, _hQ⟩
    · intro h0
      omega
  · have hκd : d + 1 ≤ κ := by omega
    rw [if_neg hcase] at hres
    have htL : takeLast (d + 1) R' = R'.drop (κ - (d + 1)) := by
      unfold takeLast
      rw [hRlen]
    rw [htL] at hres
    refine ⟨R'.drop (κ - (d + 1)), iv.toNat, hres, ?_, ?_, ?_, hu_lt, hunit, ?_, ?_⟩
    · rw [List.length_drop, hRlen, hdl]
      omega
    · intro c hc
      exact hRcl c (List.mem_of_mem_drop hc)
    · rw [getD_drop']
      have e9 : κ - (d + 1) + d = κ - 1 := by omega
      rw [e9]
      exact hRtopOut
    · exact (recip_exit_drop n hn hne hdl hclean hκd
        ⟨hRlen, hRcl, hRtopOut, _hQ⟩).mono (by omega)
    · intro h0
      subst h0
      have h10 := recip_exit_drop n hn hne hdl hclean hκd
        ⟨hRlen, hRcl, hRtopOut, _hQ⟩
      rw [degLt_zero_iff, sub_eq_zero] at h10
      rw [← h10]
      norm_num

/-- A trimmed clean list representing the zero polynomial is the `[0]`
sentinel. -/
theorem trimmed_clean_toP_zero {n : ℕ} (hn : 2 ≤ n) {l : List ℕ}
    (ht : TrimmedRep l) (hc : Clean n l) (h0 : toP n l = 0) : l = [0] := by
  rcases trimmedRep_top ht with h | htop
  · exact h
  · exfalso
    have hlt : l.getD (l.length - 1) 0 < n := clean_getD hc (by omega) _
    have hcast : ((l.getD (l.length - 1) 0 : ℕ) : ZMod n) ≠ 0 := by
      intro hz
      exact htop (cast_inj_lt hn hlt (by omega) (by rw [hz]; exact Nat.cast_zero.symm))
    have hdeg := toP_degree_top ht.1 hcast
    rw [h0, Polynomial.degree_zero] at hdeg
    exact Option.noConfusion hdeg.1

/-- The quotient/remainder loop of `__divmod__` terminates within
`len(dividend)+1` iterations, maintains `quoAcc·g + dividend`, and exits
with a clean remainder that is zero or of degree below `deg g`. -/
theorem divmod_loop_ok (n : ℕ) (hn : 2 ≤ n) {g gr : List ℕ} {d : ℕ}
    (hgl : g.length = d + 1) (hgc : Clean n g)
    (hgtop : ((g.getD d 0 : ℕ) : ZMod n) ≠ 0)
    (hgrl : gr.length = d + 1) (hgrc : Clean n gr)
    (hqual : RecipQuality n g gr d) :
    ∀ fuel quoAcc dividend, Clean n dividend → dividend ≠ [] →
      g.length ≤ dividend.length → dividend.length + 1 ≤ fuel →
      ∃ q r, divmod_loop n g gr fuel quoAcc dividend = some (q, r) ∧
        toP n q * toP n g + toP n r = toP n quoAcc * toP n g + toP n dividend ∧
        Clean n r ∧
        (toP n r = 0 ∨ (toP n r).degree < (toP n g).degree) := by
  haveI : Fact (1 < n) := ⟨by omega⟩
  have hn0 : 0 < n := by omega
  have hgne : g ≠ [] := List.ne_nil_of_length_pos (by omega)
  have hGdeg : (toP n g).degree = ((d : ℕ) : WithBot ℕ) := by
    have h1 := toP_degree_top hgne (by rw [hgl]; simpa using hgtop)
    rw [hgl] at h1
    simpa using h1.1
  intro fuel
  induction fuel with
  | zero =>
    intro quoAcc dividend _ _ _ hf
    omega
  | succ fuel ih =>
    intro quoAcc dividend hdc hdne hdlen hf
    have ed : g.length - 1 = d := by omega
    have hunf : divmod_loop n g gr (fuel + 1) quoAcc dividend =
        (let quo := (pMul n (dividend.drop d) gr).drop d
         let quoAcc' := pAdd n quoAcc quo
         let rem := pSub n dividend (pMul n quo g)
         if rem.length < g.length ∨ (rem.length = 1 ∧ rem.getD 0 0 = 0) then
           some (quoAcc', rem)
         else divmod_loop n g gr fuel quoAcc' rem) := by
      simp only [divmod_loop, ed]
    set quo := (pMul n (dividend.drop d) gr).drop d with hquo_def
    set quoAcc' := pAdd n quoAcc quo with hqa_def
    set rem := pSub n dividend (pMul n quo g) with hrem_def
    have hquoc : Clean n quo := fun c hc =>
      pMul_clean hn0 _ _ c (List.mem_of_mem_drop hc)
    have hquo_len : quo.length + d ≤ dividend.length := by
      have h1 := pMul_length_le (dividend.drop d) gr
        (fun c hc => le_of_lt (hdc c (List.mem_of_mem_drop hc))) hgrc.bounded
      have h2 : quo.length = (pMul n (dividend.drop d) gr).length - d := by
        rw [hquo_def, List.length_drop]
      rw [List.length_drop] at h1
      omega
    have hmul_len : (pMul n quo g).length ≤ dividend.length := by
      have h1 := pMul_length_le quo g hquoc.bounded hgc.bounded
      omega
    have hsub_clean : Clean n (subLoop n dividend (pMul n quo g)) :=
      clean_subLoop hdc hn0 hmul_len
    have hsub_ne : subLoop n dividend (pMul n quo g) ≠ [] := by
      apply List.ne_nil_of_length_pos
      rw [subLoop_length]
      have := List.length_pos.mpr hdne
      omega
    have hrem_clean : Clean n rem := clean_pyTrim hsub_clean
    have hrem_ne : rem ≠ [] := pyTrim_ne_nil hsub_ne
    have hrem_trim : TrimmedRep rem := pyTrim_trimmedRep hsub_ne
    have htoP_rem : toP n rem = toP n dividend - toP n quo * toP n g := by
      rw [hrem_def, toP_pSub n _ _ (pMul_clean hn0 quo g).bounded,
        toP_pMul n quo g hquoc.bounded hgc.bounded]
    have hqa' : toP n quoAcc' = toP n quoAcc + toP n quo := toP_pAdd n _ _
    have hPmuleq : toP n (pMul n (dividend.drop d) gr) =
        toP n (dividend.drop d) * toP n gr :=
      toP_pMul n _ _ (fun c hc => le_of_lt (hdc c (List.mem_of_mem_drop hc)))
        hgrc.bounded
    have hsplit_div := toP_split n dividend d
    have hsplit_q := toP_split n (pMul n (dividend.drop d) gr) d
    have hXrem : Polynomial.X ^ d * toP n rem =
        Polynomial.X ^ d * toP n (dividend.take d) +
        toP n (dividend.drop d) * (Polynomial.X ^ (2 * d) - toP n g * toP n gr) +
        toP n ((pMul n (dividend.drop d) gr).take d) * toP n g := by
      linear_combination (Polynomial.X ^ d : Polynomial (ZMod n)) * htoP_rem +
        (Polynomial.X ^ d : Polynomial (ZMod n)) * hsplit_div +
        toP n g * hsplit_q - toP n g * hPmuleq
    have hrem_bd : DegLt (toP n rem) (max (dividend.length - d) d) := by
      apply degLt_cancel (g := d) (Polynomial.degree_X_pow d)
        ⟨1, by rw [Polynomial.leadingCoeff_X_pow, mul_one]⟩
      rw [hXrem]
      apply DegLt.add
      apply DegLt.add
      · have h1 : DegLt (toP n (dividend.take d)) d :=
          (degLt_toP n _).mono (by rw [List.length_take]; omega)
        exact (degLt_X_pow.mul h1).mono (by omega)
      · have h1 : DegLt (toP n (dividend.drop d)) (dividend.length - d) := by
          have h2 := degLt_toP n (dividend.drop d)
          rwa [List.length_drop] at h2
        exact (h1.mul hqual.1).mono (by omega)
      · have h1 : DegLt (toP n ((pMul n (dividend.drop d) gr).take d)) d :=
          (degLt_toP n _).mono (by rw [List.length_take]; omega)
        have h2 : DegLt (toP n g) (d + 1) := by
          have h3 := degLt_toP n g
          rwa [hgl] at h3
        exact (h1.mul h2).mono (by omega)
    rw [hunf]
    by_cases hcond : rem.length < g.length ∨ (rem.length = 1 ∧ rem.getD 0 0 = 0)
    · rw [if_pos hcond]
      refine ⟨quoAcc', rem, rfl, ?_, hrem_clean, ?_⟩
      · rw [hqa']
        linear_combination htoP_rem
      · rcases hcond with h1 | h2
        · right
          rw [hGdeg]
          calc (toP n rem).degree < (rem.length : WithBot ℕ) := toP_degree_lt n rem
            _ ≤ ((d : ℕ) : WithBot ℕ) := Nat.cast_le.mpr (by omega)
        · left
          have hr0 : rem = [0] := by
            rcases hr : rem with _ | ⟨a, as⟩
            · exact absurd hr hrem_ne
            · have ha : a = 0 := by
                have h3 := h2.2
                rw [hr] at h3
                simpa using h3
              have has : as = [] := by
                have h3 := h2.1
                rw [hr] at h3
                exact List.length_eq_zero.mp (by simpa using h3)
              rw [ha, has]
          rw [hr0]
          simp [toP]
    · rw [if_neg hcond]
      push_neg at hcond
      obtain ⟨hc1, hc2⟩ := hcond
      have hd1 : 1 ≤ d := by
        by_contra hd0
        have hdz : d = 0 := by omega
        subst hdz
        have hEz : toP n g * toP n gr = 1 := hqual.2 rfl
        have hrz : toP n rem = 0 := by
          rw [List.take_zero, List.take_zero, toP_nil] at hXrem
          linear_combination hXrem - toP n (List.drop 0 dividend) * hEz
        have hr0 := trimmed_clean_toP_zero hn hrem_trim hrem_clean hrz
        exact hc2 (by rw [hr0]; rfl) (by rw [hr0]; rfl)
      have hrtop : rem.getD (rem.length - 1) 0 ≠ 0 := by
        rcases trimmedRep_top hrem_trim with h | h
        · exfalso
          have h4 : rem.length < g.length := by
            rw [h]
            simp only [List.length_singleton]
            omega
          omega
        · exact h
      have hcast : ((rem.getD (rem.length - 1) 0 : ℕ) : ZMod n) ≠ 0 := by
        intro hz
        exact hrtop (cast_inj_lt hn (clean_getD hrem_clean hn0 _) (by omega)
          (by rw [hz]; exact Nat.cast_zero.symm))
      have hdegtop := toP_degree_top hrem_ne hcast
      have hlen_dec : rem.length ≤ dividend.length - d := by
        have h4 : (rem.length - 1 : ℕ) < max (dividend.length - d) d := by
          have h5 := hrem_bd
          unfold DegLt at h5
          rw [hdegtop.1] at h5
          exact_mod_cast h5
        omega
      obtain ⟨q, r, heq, hid, hcl, hdeg⟩ := ih quoAcc' rem hrem_clean hrem_ne
        (by omega) (by omega)
      refine ⟨q, r, heq, ?_, hcl, hdeg⟩
      linear_combination hid + toP n g * hqa' + htoP_rem

/-- `Polynomial.__divmod__` on clean operands over a modulus of at least 2
with the divisor's leading coefficient invertible. -/
theorem divmod_ok {n : ℕ} (hn : 2 ≤ n) {fc gc : List ℕ}
    (hf : Clean n fc) (hg : Clean n gc) (hgne : gc ≠ [])
    (hgcd : Nat.gcd (gc.getD (gc.length - 1) 0) n = 1) :
    ∃ q r : List ℕ, Poly.divmod ⟨fc, n⟩ ⟨gc, n⟩ = .ok (⟨q, n⟩, ⟨r, n⟩) ∧
      toP n fc = toP n q * toP n gc + toP n r ∧
      (toP n r = 0 ∨ (toP n r).degree < (toP n gc).degree) := by
  haveI : Fact (1 < n) := ⟨by omega⟩
  have hlg : 1 ≤ gc.length := List.length_pos.mpr hgne
  obtain ⟨d, hdl⟩ : ∃ d, gc.length = d + 1 := ⟨gc.length - 1, by omega⟩
  have ed : gc.length - 1 = d := by omega
  have hgcd' : Nat.gcd (gc.getD d 0) n = 1 := by rw [← ed]; exact hgcd
  have hgtop_lt : gc.getD d 0 < n := clean_getD hg (by omega) d
  have hgtop : ((gc.getD d 0 : ℕ) : ZMod n) ≠ 0 := by
    intro hz
    have h0 : gc.getD d 0 = 0 :=
      cast_inj_lt hn hgtop_lt (by omega) (by rw [hz]; exact Nat.cast_zero.symm)
    rw [h0, Nat.gcd_zero_left] at hgcd'
    omega
  have hGdeg : (toP n gc).degree = ((d : ℕ) : WithBot ℕ) := by
    have h1 := toP_degree_top hgne (by rw [ed]; exact hgtop)
    rw [ed] at h1
    exact h1.1
  rcases lt_or_le fc.length gc.length with hlt | hle
  · refine ⟨[0], fc, ?_, ?_, ?_⟩
    · simp only [Poly.divmod]
      rw [if_pos hlt]
    · have h2 : toP n ([0] : List ℕ) = 0 := by simp [toP]
      rw [h2, zero_mul, zero_add]
    · right
      rw [hGdeg]
      calc (toP n fc).degree < (fc.length : WithBot ℕ) := toP_degree_lt n fc
        _ ≤ ((d : ℕ) : WithBot ℕ) := Nat.cast_le.mpr (by omega)
  · obtain ⟨gr, u, hrec, hgrl, hgrc, _, _, _, hqual⟩ := recip_ok n hn hgne hg hgcd
    rw [ed] at hqual
    have hfne : fc ≠ [] := List.ne_nil_of_length_pos (by omega)
    obtain ⟨q, r, hloop, hid, hcl, hdeg⟩ := divmod_loop_ok n hn hdl hg hgtop
      (by rw [hgrl, hdl]) hgrc hqual (fc.length + 2) [0] fc hf hfne hle (by omega)
    refine ⟨q, r, ?_, ?_, hdeg⟩
    · simp only [Poly.divmod]
      rw [if_neg (by omega)]
      rw [hrec, py_bind_ok]
      simp only [hloop]
    · have h2 : toP n ([0] : List ℕ) = 0 := by simp [toP]
      linear_combination -hid - toP n gc * h2

theorem inv_one (x : ℤ) : inv x 1 = .ok 0 := by
  unfold inv
  have h2 : List.range ((1 : ℤ)).toNat = [0] := rfl
  rw [h2]
  simp [List.find?]

theorem toP_one_eq_zero (l : List ℕ) : toP 1 l = 0 := by
  apply Polynomial.ext
  intro i
  rw [toP_coeff, Polynomial.coeff_zero]
  exact Subsingleton.elim _ _

/-- The result list of the doubling loop stays clean. -/
theorem recip_loop_clean {n : ℕ} (hn0 : 0 < n) (coeff : List ℕ) (d u : ℕ) :
    ∀ fuel k R e, Clean n R → Clean n (recip_loop n coeff d u fuel k R e).1 := by
  intro fuel
  induction fuel with
  | zero => intro k R e hR; exact hR
  | succ fuel ih =>
    intro k R e hR
    by_cases h : k < d * 2
    · have hunf : recip_loop n coeff d u (fuel + 1) k R e =
          recip_loop n coeff d u fuel (k * 2) (recipStep n coeff d k R)
            (recipE n coeff d u k e R) := by
        simp [recip_loop, h]
      rw [hunf]
      exact ih _ _ _ (clean_recipStep hn0 coeff d k R)
    · have hunf : recip_loop n coeff d u (fuel + 1) k R e = (R, e, k) := by
        simp [recip_loop, h]
      rw [hunf]
      exact hR

theorem takeLast_length_le (m : ℕ) (l : List ℕ) : (takeLast m l).length ≤ m := by
  unfold takeLast
  rw [List.length_drop]
  omega

theorem clean_takeLast_if {n m : ℕ} (hn0 : 0 < n) (b : Prop) [Decidable b]
    (y : ℕ) (hy : y < n) {L : List ℕ} (hL : Clean n L) :
    Clean n (takeLast m (if b then y :: L else L)) := by
  intro c hc
  have hc' := List.mem_of_mem_drop hc
  split at hc'
  · rcases List.mem_cons.mp hc' with rfl | h
    · exact hy
    · exact hL c h
  · exact hL c hc'

/-- Whatever `recip` returns is clean. -/
theorem recip_ok_clean {n : ℕ} (hn0 : 0 < n) {g RL : List ℕ}
    (h : Poly.recip ⟨g, n⟩ = .ok ⟨RL, n⟩) : Clean n RL := by
  rcases hiv : inv ((g.getD (g.length - 1) 0 : ℕ) : ℤ) ((n : ℕ) : ℤ) with e | iv
  · simp only [Poly.recip, hiv, py_bind_err] at h
    cases h
  · obtain ⟨h0, h1, -⟩ := inv_spec (by exact_mod_cast hn0) hiv
    simp only [Poly.recip, hiv, py_bind_ok, Except.ok.injEq, Poly.mk.injEq] at h
    obtain ⟨hRL, -⟩ := h
    rw [← hRL]
    exact clean_takeLast_if hn0 _ _ (Nat.mod_lt _ hn0)
      (recip_loop_clean hn0 _ _ _ _ _ _ _
        (fun c hc => by rcases List.mem_singleton.mp hc with rfl; omega))

/-- Whatever `recip` returns has length at most `d + 1`. -/
theorem recip_ok_length_le {n : ℕ} {g RL : List ℕ}
    (h : Poly.recip ⟨g, n⟩ = .ok ⟨RL, n⟩) : RL.length ≤ g.length - 1 + 1 := by
  rcases hiv : inv ((g.getD (g.length - 1) 0 : ℕ) : ℤ) ((n : ℕ) : ℤ) with e | iv
  · simp only [Poly.recip, hiv, py_bind_err] at h
    cases h
  · simp only [Poly.recip, hiv, py_bind_ok, Except.ok.injEq, Poly.mk.injEq] at h
    obtain ⟨hRL, -⟩ := h
    rw [← hRL]
    exact takeLast_length_le _ _

/-- Degenerate modulus `n = 1`: every residue is 0, the division loop exits
at once with remainder `[0]`, and every represented polynomial is 0. -/
theorem divmod_ok_one {fc gc : List ℕ} (hf : Clean 1 fc) (hg : Clean 1 gc)
    (hgne : gc ≠ []) :
    ∃ q r : List ℕ, Poly.divmod ⟨fc, 1⟩ ⟨gc, 1⟩ = .ok (⟨q, 1⟩, ⟨r, 1⟩) ∧
      toP 1 fc = toP 1 q * toP 1 gc + toP 1 r ∧
      (toP 1 r = 0 ∨ (toP 1 r).degree < (toP 1 gc).degree) := by
  have hlg : 1 ≤ gc.length := List.length_pos.mpr hgne
  rcases lt_or_le fc.length gc.length with hlt | hle
  · refine ⟨[0], fc, ?_, ?_, Or.inl (toP_one_eq_zero fc)⟩
    · simp only [Poly.divmod]
      rw [if_pos hlt]
    · rw [toP_one_eq_zero, toP_one_eq_zero, toP_one_eq_zero]
      ring
  · have hfne : fc ≠ [] := List.ne_nil_of_length_pos (by omega)
    rcases hrec : Poly.recip ⟨gc, 1⟩ with pe | RLp
    case error =>
      exfalso
      simp only [Poly.recip, Nat.cast_one, inv_one, py_bind_ok] at hrec
      exact Except.noConfusion hrec
    obtain ⟨RL, n1⟩ := RLp
    have hn1 : n1 = 1 := by
      have h0 := hrec
      simp only [Poly.recip, Nat.cast_one, inv_one, py_bind_ok, Except.ok.injEq,
        Poly.mk.injEq] at h0
      exact h0.2.symm
    subst hn1
    have hRLcl : Clean 1 RL := recip_ok_clean (by omega) hrec
    have hRLlen : RL.length ≤ gc.length := by
      have := recip_ok_length_le hrec
      omega
    have hquoc : Clean 1 ((pMul 1 (fc.drop (gc.length - 1)) RL).drop (gc.length - 1)) :=
      fun c hc => pMul_clean (by omega) _ _ c (List.mem_of_mem_drop hc)
    have hquo_len : ((pMul 1 (fc.drop (gc.length - 1)) RL).drop (gc.length - 1)).length +
        (gc.length - 1) ≤ fc.length := by
      have h1 := pMul_length_le (fc.drop (gc.length - 1)) RL
        (fun c hc => le_of_lt (hf c (List.mem_of_mem_drop hc))) hRLcl.bounded
      rw [List.length_drop] at h1
      rw [List.length_drop]
      omega
    have hmul_len :
        (pMul 1 ((pMul 1 (fc.drop (gc.length - 1)) RL).drop (gc.length - 1)) gc).length ≤
          fc.length := by
      have h1 := pMul_length_le ((pMul 1 (fc.drop (gc.length - 1)) RL).drop (gc.length - 1))
        gc hquoc.bounded hg.bounded
      omega
    have hsub_ne : subLoop 1 fc
        (pMul 1 ((pMul 1 (fc.drop (gc.length - 1)) RL).drop (gc.length - 1)) gc) ≠ [] := by
      apply List.ne_nil_of_length_pos
      rw [subLoop_length]
      have := List.length_pos.mpr hfne
      omega
    have hz : ∀ c ∈ subLoop 1 fc
        (pMul 1 ((pMul 1 (fc.drop (gc.length - 1)) RL).drop (gc.length - 1)) gc), c = 0 := by
      intro c hc
      have := clean_subLoop hf (by omega) hmul_len c hc
      omega
    have hrem0 : pSub 1 fc
        (pMul 1 ((pMul 1 (fc.drop (gc.length - 1)) RL).drop (gc.length - 1)) gc) = [0] := by
      unfold pSub
      exact pyTrim_all_zero hz hsub_ne
    have hF : fc.length + 2 = (fc.length + 1) + 1 := rfl
    have hloop1 : divmod_loop 1 gc RL (fc.length + 2) [0] fc =
        some (pAdd 1 ([0] : List ℕ)
          ((pMul 1 (fc.drop (gc.length - 1)) RL).drop (gc.length - 1)), [0]) := by
      rw [hF]
      simp only [divmod_loop]
      rw [hrem0]
      rw [if_pos (Or.inr ⟨rfl, rfl⟩)]
    refine ⟨pAdd 1 ([0] : List ℕ)
        ((pMul 1 (fc.drop (gc.length - 1)) RL).drop (gc.length - 1)), [0], ?_, ?_,
      Or.inl (toP_one_eq_zero [0])⟩
    · simp only [Poly.divmod]
      rw [if_neg (by omega)]
      rw [hrec, py_bind_ok]
      simp only [hloop1]
    · rw [toP_one_eq_zero, toP_one_eq_zero, toP_one_eq_zero, toP_one_eq_zero]
      ring

/-- **C6**: for polynomials `f` and `g` over the same modulus, with `g`
non-zero (a non-empty reduced coefficient list) whose leading coefficient
is coprime to the modulus, `__divmod__` terminates and returns `(q, r)`
with `f = q·g + r` and `r` either the zero polynomial or of degree below
`deg g`. -/
theorem claim_C6_divmod (f g : Poly) (hng : g.n = f.n)
    (hf : Clean f.n f.coeff) (hg : Clean f.n g.coeff)
    (hgne : g.coeff ≠ [])
    (hlead : Nat.gcd (g.coeff.getLast hgne) f.n = 1) :
    ∃ q r : Poly, Poly.divmod f g = .ok (q, r) ∧
      toP f.n f.coeff = toP f.n q.coeff * toP f.n g.coeff + toP f.n r.coeff ∧
      (toP f.n r.coeff = 0 ∨
        (toP f.n r.coeff).degree < (toP f.n g.coeff).degree) := by
  obtain ⟨fc, n⟩ := f
  obtain ⟨gc, gn⟩ := g
  simp only at hng hf hg hlead ⊢
  subst hng
  have hglast : gc.getLast hgne = gc.getD (gc.length - 1) 0 := by
    have hlg : 1 ≤ gc.length := List.length_pos.mpr hgne
    rw [List.getLast_eq_getElem, List.getD_eq_getElem _ _ (by omega)]
  rw [hglast] at hlead
  rcases gn with _ | n1
  · exfalso
    obtain ⟨a, as, rfl⟩ := List.exists_cons_of_ne_nil hgne
    exact absurd (hg a (by simp)) (by omega)
  rcases n1 with _ | n2
  · obtain ⟨q, r, h1, h2, h3⟩ := divmod_ok_one hf hg hgne
    exact ⟨⟨q, 1⟩, ⟨r, 1⟩, h1, h2, h3⟩
  · obtain ⟨q, r, h1, h2, h3⟩ := divmod_ok (n := n2 + 2) (by omega) hf hg hgne hlead
    exact ⟨⟨q, n2 + 2⟩, ⟨r, n2 + 2⟩, h1, h2, h3⟩

theorem claim_C6_divmod_witness :
    Clean (7 : ℕ) [3, 5, 1, 6, 2] ∧ Clean (7 : ℕ) [4, 0, 3] ∧
    (∃ q r : Poly,
      Poly.divmod ⟨[3, 5, 1, 6, 2], 7⟩ ⟨[4, 0, 3], 7⟩ = .ok (q, r) ∧
      toP 7 [3, 5, 1, 6, 2] = toP 7 q.coeff * toP 7 [4, 0, 3] + toP 7 r.coeff ∧
      (toP 7 r.coeff = 0 ∨
        (toP 7 r.coeff).degree < (toP 7 ([4, 0, 3] : List ℕ)).degree)) :=
  ⟨by intro c hc; simp at hc; omega, by intro c hc; simp at hc; omega,
    claim_C6_divmod ⟨[3, 5, 1, 6, 2], 7⟩ ⟨[4, 0, 3], 7⟩ rfl
      (by intro c hc; show c < 7; simp at hc; omega)
      (by intro c hc; show c < 7; simp at hc; omega)
      (by decide) (by decide)⟩

/-! ## Claim C5: `product_tree`, `recip_tree`, `remainder_tree`
(`ecm_polyeval.py`).

The three tree algorithms use the complete-binary-tree heap layout
(children of node `i` at `2*i+1` and `2*i+2`); the bottom-up imperative
fills are embedded as structurally recursive node functions. -/

/-- The `k = 1; while k < poly_num: k *= 2` loop of `product_tree`. -/
def pow2Loop (m : ℕ) : ℕ → ℕ → ℕ
  | 0, k => k
  | fuel + 1, k => if k < m then pow2Loop m fuel (k * 2) else k

/-- The number of leaf slots of the product tree: the first power of two
reached from 1 by doubling while below `m`. -/
def pow2ge (m : ℕ) : ℕ := pow2Loop m m 1

/-- Value at heap position `i` of the product tree with `kk` leaf slots:
positions `kk-1 … 2*kk-2` hold the leaves and each internal node is the
product `res[2*i+1] * res[2*i+2]` of the source's bottom-up fill. -/
def ptNode (n kk : ℕ) (lf : ℕ → List ℕ) (i : ℕ) : List ℕ :=
  if kk - 1 ≤ i then lf (i - (kk - 1))
  else pMul n (ptNode n kk lf (2 * i + 1)) (ptNode n kk lf (2 * i + 2))
termination_by kk - 1 - i
decreasing_by
  all_goals omega

/-- Embedding of `product_tree(poly_list, n)`: the complete binary tree in
heap layout, the missing leaves holding `Polynomial([1], n)`. -/
def product_tree (poly_list : List Poly) (n : ℕ) : List Poly :=
  (List.range (2 * pow2ge poly_list.length - 1)).map
    (fun i => ⟨ptNode n (pow2ge poly_list.length)
      (fun j => (poly_list.getD j ⟨[1], n⟩).coeff) i, n⟩)

/-- The sibling of heap position `j`: `2*i+2` for a left child `2*i+1`,
`2*i+1` for a right child `2*i+2`. -/
def sibl (j : ℕ) : ℕ := if j % 2 = 1 then j + 1 else j - 1

/-- Value at heap position `j` of the recip tree: the root holds the given
root reciprocal, and each child is `(parent_recip[ds:] * sibling)[ds:]`
with `ds` the sibling's degree, exactly as in the `recip_tree` loop. -/
def rtNode (n : ℕ) (pt : ℕ → List ℕ) (rootR : List ℕ) (j : ℕ) : List ℕ :=
  if j = 0 then rootR
  else
    (pMul n ((rtNode n pt rootR ((j - 1) / 2)).drop ((pt (sibl j)).length - 1))
      (pt (sibl j))).drop ((pt (sibl j)).length - 1)
termination_by j
decreasing_by
  all_goals omega

/-- Embedding of `recip_tree(prod_tree)`: `prod_tree[0].recip()` at the
root (which may raise `InverseNotFound`), children by the slice-multiply
formula; the list has `2*(len(prod_tree)//2)+1` entries. -/
def recip_tree (prod : List Poly) : Py (List Poly) := do
  let g0 := prod.getD 0 ⟨[1], 1⟩
  let r0 ← Poly.recip g0
  .ok ((List.range (2 * (prod.length / 2) + 1)).map
    (fun j => ⟨rtNode g0.n (fun i => (prod.getD i ⟨[1], g0.n⟩).coeff)
      r0.coeff j, g0.n⟩))

/-- The `while True` reduction loop of `remainder_tree`:
`hi = (f_mod_g[di:] * gi_recip)[di:]`, `f_mod_gi = f_mod_g - gi * hi`,
exiting when the remainder is shorter than `gi` or is the `[0]`
sentinel. -/
def remLoop (n : ℕ) (gi gir : List ℕ) : ℕ → List ℕ → Option (List ℕ)
  | 0, _ => none
  | fuel + 1, fmg =>
    let di := gi.length - 1
    let hi := (pMul n (fmg.drop di) gir).drop di
    let rem := pSub n fmg (pMul n gi hi)
    if rem.length < gi.length ∨ (rem.length = 1 ∧ rem.getD 0 0 = 0) then some rem
    else remLoop n gi gir fuel rem

/-- Value at heap position `j` of `f_mod_g_tree` (first phase of
`remainder_tree`): the root reduces `f`, every other node reduces its
parent's remainder, each against its own product/recip tree entries. -/
def fmodNode (n : ℕ) (gt rt : ℕ → List ℕ) (fc : List ℕ) (j : ℕ) :
    Option (List ℕ) :=
  if j = 0 then remLoop n (gt 0) (rt 0) (fc.length + 2) fc
  else
    match fmodNode n gt rt fc ((j - 1) / 2) with
    | none => none
    | some par => remLoop n (gt j) (rt j) (par.length + 2) par
termination_by j
decreasing_by
  all_goals omega

/-- Sequential collection of the per-node first-phase results (the
`for i in range(len(g_tree))` append loop); `none` if any node's
reduction loop fails to terminate within its fuel. -/
def collectNodes (f : ℕ → Option (List ℕ)) : ℕ → Option (List (List ℕ))
  | 0 => some []
  | j + 1 =>
    match collectNodes f j, f j with
    | some rs, some r => some (rs ++ [r])
    | _, _ => none

/-- Value at heap position `i` after the second phase of `remainder_tree`:
leaves hold their replaced scalar, internal nodes the product of their
children mod `n`. -/
def remTreeNode (n K : ℕ) (leafVal : ℕ → ℕ) (i : ℕ) : ℕ :=
  if K - 1 ≤ i then leafVal (i - (K - 1))
  else remTreeNode n K leafVal (2 * i + 1) * remTreeNode n K leafVal (2 * i + 2) % n
termination_by K - 1 - i
decreasing_by
  all_goals omega

/-- Embedding of `remainder_tree(f, g_tree, g_recip_tree, n)`: each leaf
remainder of the first phase is replaced by its constant coefficient with
`0` turned into `1`, then internal nodes are filled with products mod `n`;
`none` when a reduction loop exhausts its fuel. -/
def remainder_tree (f : Poly) (g_tree g_recip_tree : List Poly) (n : ℕ) :
    Option (List ℕ) :=
  match collectNodes (fmodNode n (fun i => (g_tree.getD i ⟨[1], n⟩).coeff)
      (fun i => (g_recip_tree.getD i ⟨[1], n⟩).coeff) f.coeff) g_tree.length with
  | none => none
  | some rems =>
    some ((List.range g_tree.length).map
      (remTreeNode n ((g_tree.length + 1) / 2) (fun p =>
        if (rems.getD ((g_tree.length + 1) / 2 - 1 + p) []).getD 0 0 = 0 then 1
        else (rems.getD ((g_tree.length + 1) / 2 - 1 + p) []).getD 0 0)))

/-! ### Basic facts for the tree development -/

theorem pow2Loop_spec (m : ℕ) : ∀ fuel k, (∃ j, k = 2 ^ j) → m ≤ k * 2 ^ fuel →
    ∃ e, pow2Loop m fuel k = 2 ^ e ∧ m ≤ 2 ^ e := by
  intro fuel
  induction fuel with
  | zero =>
    intro k hk hm
    obtain ⟨j, rfl⟩ := hk
    exact ⟨j, rfl, by simpa using hm⟩
  | succ fuel ih =>
    intro k hk hm
    obtain ⟨j, rfl⟩ := hk
    by_cases h : 2 ^ j < m
    · have h1 : pow2Loop m (fuel + 1) (2 ^ j) = pow2Loop m fuel (2 ^ j * 2) := by
        simp [pow2Loop, h]
      rw [h1]
      refine ih (2 ^ j * 2) ⟨j + 1, by rw [pow_succ]⟩ ?_
      have h2 : 2 ^ j * 2 * 2 ^ fuel = 2 ^ j * (2 ^ fuel * 2) := by ring
      rw [h2]
      exact hm
    · have h1 : pow2Loop m (fuel + 1) (2 ^ j) = 2 ^ j := by
        simp [pow2Loop, h]
      exact ⟨j, h1, by omega⟩

theorem pow2ge_spec (m : ℕ) : ∃ e, pow2ge m = 2 ^ e ∧ m ≤ 2 ^ e := by
  unfold pow2ge
  apply pow2Loop_spec m m 1 ⟨0, rfl⟩
  have := Nat.lt_two_pow m
  omega

theorem kronW_zero (n d : ℕ) : kronW n d 0 = 0 := by
  unfold kronW
  rw [if_pos rfl]
  have h := kronK8_pos n d
  rw [Nat.zero_add]
  exact Nat.div_eq_of_lt (by omega)

theorem pMul_nil_left (n : ℕ) (b : List ℕ) : pMul n [] b = [] := by
  rw [pMul_eq]
  have h0 : packInt (kronB n (max ([] : List ℕ).length b.length)) [] = 0 := rfl
  rw [h0, zero_mul, kronW_zero]
  rfl

theorem pMul_nil_right (n : ℕ) (a : List ℕ) : pMul n a [] = [] := by
  rw [pMul_eq]
  have h0 : packInt (kronB n (max a.length ([] : List ℕ).length)) [] = 0 := rfl
  rw [h0, mul_zero, kronW_zero]
  rfl

theorem subLoop_nil_right (n : ℕ) (a : List ℕ) : subLoop n a [] = a := by
  induction a with
  | nil => simp [subLoop]
  | cons x xs ih => simp [subLoop, ih]

theorem pSub_nil_right (n : ℕ) (a : List ℕ) : pSub n a [] = pyTrim a := by
  unfold pSub
  rw [subLoop_nil_right]

/-- The reduction loop of `remainder_tree` terminates within
`len(dividend)+1` iterations and returns a clean, trimmed remainder
congruent to the dividend mod `g` and satisfying the exit condition. -/
theorem remLoop_ok (n : ℕ) (hn : 2 ≤ n) {g gr : List ℕ} {d : ℕ}
    (hgl : g.length = d + 1) (hgc : Clean n g)
    (hgtop : ((g.getD d 0 : ℕ) : ZMod n) ≠ 0)
    (hgrc : Clean n gr) (hgrlen : gr.length ≤ d + 1)
    (hqual : RecipQuality n g gr d) :
    ∀ fuel dividend, Clean n dividend → dividend ≠ [] →
      dividend.length + 1 ≤ fuel →
      ∃ r, remLoop n g gr fuel dividend = some r ∧
        Clean n r ∧ r ≠ [] ∧ TrimmedRep r ∧
        (r.length < g.length ∨ (r.length = 1 ∧ r.getD 0 0 = 0)) ∧
        ∃ Q, toP n dividend = Q * toP n g + toP n r := by
  haveI : Fact (1 < n) := ⟨by omega⟩
  have hn0 : 0 < n := by omega
  have hgne : g ≠ [] := List.ne_nil_of_length_pos (by omega)
  intro fuel
  induction fuel with
  | zero =>
    intro dividend _ _ hf
    omega
  | succ fuel ih =>
    intro dividend hdc hdne hf
    have ed : g.length - 1 = d := by omega
    rcases lt_or_le dividend.length g.length with hshort | hle
    · have hdrop : dividend.drop (g.length - 1) = [] :=
        List.drop_eq_nil_of_le (by omega)
      have hkey : remLoop n g gr (fuel + 1) dividend = some (pyTrim dividend) := by
        simp only [remLoop]
        rw [hdrop, pMul_nil_left, List.drop_nil, pMul_nil_right, pSub_nil_right]
        rw [if_pos (Or.inl (lt_of_le_of_lt (pyTrim_length_le dividend) hshort))]
      exact ⟨pyTrim dividend, hkey, clean_pyTrim hdc, pyTrim_ne_nil hdne,
        pyTrim_trimmedRep hdne,
        Or.inl (lt_of_le_of_lt (pyTrim_length_le dividend) hshort),
        0, by rw [toP_pyTrim, zero_mul, zero_add]⟩
    · have hunf : remLoop n g gr (fuel + 1) dividend =
          (let hi := (pMul n (dividend.drop d) gr).drop d
           let rem := pSub n dividend (pMul n g hi)
           if rem.length < g.length ∨ (rem.length = 1 ∧ rem.getD 0 0 = 0) then
             some rem
           else remLoop n g gr fuel rem) := by
        simp only [remLoop, ed]
      set hi := (pMul n (dividend.drop d) gr).drop d with hhi_def
      set rem := pSub n dividend (pMul n g hi) with hrem_def
      have hhic : Clean n hi := fun c hc =>
        pMul_clean hn0 _ _ c (List.mem_of_mem_drop hc)
      have hhi_len : hi.length + d ≤ dividend.length := by
        have h1 := pMul_length_le (dividend.drop d) gr
          (fun c hc => le_of_lt (hdc c (List.mem_of_mem_drop hc))) hgrc.bounded
        have h2 : hi.length = (pMul n (dividend.drop d) gr).length - d := by
          rw [hhi_def, List.length_drop]
        rw [List.length_drop] at h1
        omega
      have hmul_len : (pMul n g hi).length ≤ dividend.length := by
        have h1 := pMul_length_le g hi hgc.bounded hhic.bounded
        omega
      have hsub_clean : Clean n (subLoop n dividend (pMul n g hi)) :=
        clean_subLoop hdc hn0 hmul_len
      have hsub_ne : subLoop n dividend (pMul n g hi) ≠ [] := by
        apply List.ne_nil_of_length_pos
        rw [subLoop_length]
        have := List.length_pos.mpr hdne
        omega
      have hrem_clean : Clean n rem := clean_pyTrim hsub_clean
      have hrem_ne : rem ≠ [] := pyTrim_ne_nil hsub_ne
      have hrem_trim : TrimmedRep rem := pyTrim_trimmedRep hsub_ne
      have htoP_rem : toP n rem = toP n dividend - toP n g * toP n hi := by
        rw [hrem_def, toP_pSub n _ _ (pMul_clean hn0 g hi).bounded,
          toP_pMul n g hi hgc.bounded hhic.bounded]
      have hPmuleq : toP n (pMul n (dividend.drop d) gr) =
          toP n (dividend.drop d) * toP n gr :=
        toP_pMul n _ _ (fun c hc => le_of_lt (hdc c (List.mem_of_mem_drop hc)))
          hgrc.bounded
      have hsplit_div := toP_split n dividend d
      have hsplit_q := toP_split n (pMul n (dividend.drop d) gr) d
      have hXrem : Polynomial.X ^ d * toP n rem =
          Polynomial.X ^ d * toP n (dividend.take d) +
          toP n (dividend.drop d) * (Polynomial.X ^ (2 * d) - toP n g * toP n gr) +
          toP n ((pMul n (dividend.drop d) gr).take d) * toP n g := by
        linear_combination (Polynomial.X ^ d : Polynomial (ZMod n)) * htoP_rem +
          (Polynomial.X ^ d : Polynomial (ZMod n)) * hsplit_div +
          toP n g * hsplit_q - toP n g * hPmuleq
      have hrem_bd : DegLt (toP n rem) (max (dividend.length - d) d) := by
        apply degLt_cancel (g := d) (Polynomial.degree_X_pow d)
          ⟨1, by rw [Polynomial.leadingCoeff_X_pow, mul_one]⟩
        rw [hXrem]
        apply DegLt.add
        apply DegLt.add
        · have h1 : DegLt (toP n (dividend.take d)) d :=
            (degLt_toP n _).mono (by rw [List.length_take]; omega)
          exact (degLt_X_pow.mul h1).mono (by omega)
        · have h1 : DegLt (toP n (dividend.drop d)) (dividend.length - d) := by
            have h2 := degLt_toP n (dividend.drop d)
            rwa [List.length_drop] at h2
          exact (h1.mul hqual.1).mono (by omega)
        · have h1 : DegLt (toP n ((pMul n (dividend.drop d) gr).take d)) d :=
            (degLt_toP n _).mono (by rw [List.length_take]; omega)
          have h2 : DegLt (toP n g) (d + 1) := by
            have h3 := degLt_toP n g
            rwa [hgl] at h3
          exact (h1.mul h2).mono (by omega)
      rw [hunf]
      by_cases hcond : rem.length < g.length ∨ (rem.length = 1 ∧ rem.getD 0 0 = 0)
      · rw [if_pos hcond]
        exact ⟨rem, rfl, hrem_clean, hrem_ne, hrem_trim, hcond, toP n hi,
          by linear_combination -htoP_rem⟩
      · rw [if_neg hcond]
        push_neg at hcond
        obtain ⟨hc1, hc2⟩ := hcond
        have hd1 : 1 ≤ d := by
          by_contra hd0
          have hdz : d = 0 := by omega
          subst hdz
          have hEz : toP n g * toP n gr = 1 := hqual.2 rfl
          have hrz : toP n rem = 0 := by
            rw [List.take_zero, List.take_zero, toP_nil] at hXrem
            linear_combination hXrem - toP n (List.drop 0 dividend) * hEz
          have hr0 := trimmed_clean_toP_zero hn hrem_trim hrem_clean hrz
          exact hc2 (by rw [hr0]; rfl) (by rw [hr0]; rfl)
        have hrtop : rem.getD (rem.length - 1) 0 ≠ 0 := by
          rcases trimmedRep_top hrem_trim with h | h
          · exfalso
            have h4 : rem.length < g.length := by
              rw [h]
              simp only [List.length_singleton]
              omega
            omega
          · exact h
        have hcast : ((rem.getD (rem.length - 1) 0 : ℕ) : ZMod n) ≠ 0 := by
          intro hz
          exact hrtop (cast_inj_lt hn (clean_getD hrem_clean hn0 _) (by omega)
            (by rw [hz]; exact Nat.cast_zero.symm))
        have hdegtop := toP_degree_top hrem_ne hcast
        have hlen_dec : rem.length ≤ dividend.length - d := by
          have h4 : (rem.length - 1 : ℕ) < max (dividend.length - d) d := by
            have h5 := hrem_bd
            unfold DegLt at h5
            rw [hdegtop.1] at h5
            exact_mod_cast h5
          omega
        obtain ⟨r, heq, hcl, hne', htrim', hcond', Q', hQ'⟩ :=
          ih rem hrem_clean hrem_ne (by omega)
        exact ⟨r, heq, hcl, hne', htrim', hcond', toP n hi + Q',
          by linear_combination hQ' - htoP_rem⟩

/-- Per-node facts of the product tree: for a leaf family `lf` of clean,
non-empty lists with top entry 1, the node of the `2^e`-leaf tree at level
`ℓ`, position `p` is clean with top entry 1, and its length and value are
the combined leaf degrees and the product of the leaf polynomials over the
leaf range `[p·2^h, (p+1)·2^h)` it covers (`h = e - ℓ`). -/
theorem ptNode_ok (n : ℕ) (hn : 2 ≤ n) (e : ℕ) (lf : ℕ → List ℕ)
    (hlfc : ∀ j, Clean n (lf j)) (hlfne : ∀ j, lf j ≠ [])
    (hlftop : ∀ j, (lf j).getD ((lf j).length - 1) 0 = 1) :
    ∀ h ℓ p, ℓ + h = e → p < 2 ^ ℓ →
      Clean n (ptNode n (2 ^ e) lf (2 ^ ℓ - 1 + p)) ∧
      ptNode n (2 ^ e) lf (2 ^ ℓ - 1 + p) ≠ [] ∧
      (ptNode n (2 ^ e) lf (2 ^ ℓ - 1 + p)).getD
        ((ptNode n (2 ^ e) lf (2 ^ ℓ - 1 + p)).length - 1) 0 = 1 ∧
      (ptNode n (2 ^ e) lf (2 ^ ℓ - 1 + p)).length =
        (∑ j in Finset.Ico (p * 2 ^ h) (p * 2 ^ h + 2 ^ h),
          ((lf j).length - 1)) + 1 ∧
      toP n (ptNode n (2 ^ e) lf (2 ^ ℓ - 1 + p)) =
        ∏ j in Finset.Ico (p * 2 ^ h) (p * 2 ^ h + 2 ^ h), toP n (lf j) := by
  have hn0 : 0 < n := by omega
  intro h
  induction h with
  | zero =>
    intro ℓ p hle hp
    have hℓe : ℓ = e := by omega
    subst hℓe
    have hif : 2 ^ ℓ - 1 ≤ 2 ^ ℓ - 1 + p := Nat.le_add_right _ _
    have hidx : 2 ^ ℓ - 1 + p - (2 ^ ℓ - 1) = p := by omega
    rw [ptNode, if_pos hif, hidx]
    have hlen1 : 1 ≤ (lf p).length := List.length_pos.mpr (hlfne p)
    refine ⟨hlfc p, hlfne p, hlftop p, ?_, ?_⟩
    · rw [pow_zero, mul_one, Finset.sum_Ico_succ_top (le_refl p),
        Finset.Ico_self, Finset.sum_empty, zero_add]
      omega
    · rw [pow_zero, mul_one, Finset.prod_Ico_succ_top (le_refl p),
        Finset.Ico_self, Finset.prod_empty, one_mul]
  | succ h ih =>
    intro ℓ p hle hp
    have hA : 0 < 2 ^ ℓ := pow_pos (by omega) ℓ
    have hpow : 2 ^ (ℓ + 1) = 2 ^ ℓ * 2 := pow_succ 2 ℓ
    have hee : 2 ^ (ℓ + 1) ≤ 2 ^ e := Nat.pow_le_pow_right (by omega) (by omega)
    have hif : ¬ (2 ^ e - 1 ≤ 2 ^ ℓ - 1 + p) := by omega
    have hL : 2 * (2 ^ ℓ - 1 + p) + 1 = 2 ^ (ℓ + 1) - 1 + 2 * p := by omega
    have hR : 2 * (2 ^ ℓ - 1 + p) + 2 = 2 ^ (ℓ + 1) - 1 + (2 * p + 1) := by omega
    rw [ptNode, if_neg hif, hL, hR]
    obtain ⟨hcL, hneL, htopL, hlenL, htoPL⟩ :=
      ih (ℓ + 1) (2 * p) (by omega) (by omega)
    obtain ⟨hcR, hneR, htopR, hlenR, htoPR⟩ :=
      ih (ℓ + 1) (2 * p + 1) (by omega) (by omega)
    set A := ptNode n (2 ^ e) lf (2 ^ (ℓ + 1) - 1 + 2 * p) with hA_def
    set B := ptNode n (2 ^ e) lf (2 ^ (ℓ + 1) - 1 + (2 * p + 1)) with hB_def
    have htop' : A.getD (A.length - 1) 0 * B.getD (B.length - 1) 0 ≠ 0 := by
      rw [htopL, htopR]
      omega
    have hml := pMul_length_top A B hcL.bounded hcR.bounded hneL hneR htop'
    have hAl : 1 ≤ A.length := List.length_pos.mpr hneL
    have hBl : 1 ≤ B.length := List.length_pos.mpr hneR
    have e1 : p * 2 ^ (h + 1) = 2 * p * 2 ^ h := by rw [pow_succ]; ring
    have e2 : 2 * p * 2 ^ h + 2 ^ h = (2 * p + 1) * 2 ^ h := by ring
    have e3 : p * 2 ^ (h + 1) + 2 ^ (h + 1) = 2 * p * 2 ^ h + 2 ^ h + 2 ^ h := by
      rw [pow_succ]; ring
    rw [← e2] at hlenR htoPR
    refine ⟨pMul_clean hn0 A B, ?_, ?_, ?_, ?_⟩
    · apply List.ne_nil_of_length_pos
      rw [hml.1]
      omega
    · rw [hml.1]
      have hidx : A.length + B.length - 1 - 1 = A.length + B.length - 2 := by omega
      rw [hidx, hml.2, htopL, htopR]
      have h2 : 1 * 1 = 1 := rfl
      rw [h2]
      exact Nat.mod_eq_of_lt (by omega)
    · rw [hml.1, e3, e1,
        ← Finset.sum_Ico_consecutive _
          (show 2 * p * 2 ^ h ≤ 2 * p * 2 ^ h + 2 ^ h from Nat.le_add_right _ _)
          (show 2 * p * 2 ^ h + 2 ^ h ≤ 2 * p * 2 ^ h + 2 ^ h + 2 ^ h from
            Nat.le_add_right _ _)]
      omega
    · rw [toP_pMul n A B hcL.bounded hcR.bounded, htoPL, htoPR, e3, e1,
        ← Finset.prod_Ico_consecutive _
          (show 2 * p * 2 ^ h ≤ 2 * p * 2 ^ h + 2 ^ h from Nat.le_add_right _ _)
          (show 2 * p * 2 ^ h + 2 ^ h ≤ 2 * p * 2 ^ h + 2 ^ h + 2 ^ h from
            Nat.le_add_right _ _)]

/-- Reciprocal quality descends to a factor: if `R` is a quality-`d1+d2`
reciprocal of `gi` with `toP gi = toP g1 * toP g2`, then
`(R[d2:] * g2)[d2:]` (the `recip_tree` child formula) is a quality-`d1`
reciprocal of `g1`. -/
theorem recip_child_quality (n : ℕ) (hn : 2 ≤ n) {gi g1 g2 R : List ℕ}
    {d1 d2 : ℕ} (hg1l : g1.length = d1 + 1) (hg2l : g2.length = d2 + 1)
    (hg2c : Clean n g2) (hRc : Clean n R) (hRlen : R.length ≤ d1 + d2 + 1)
    (hgi : toP n gi = toP n g1 * toP n g2)
    (hqual : RecipQuality n gi R (d1 + d2)) :
    Clean n ((pMul n (R.drop d2) g2).drop d2) ∧
    ((pMul n (R.drop d2) g2).drop d2).length ≤ d1 + 1 ∧
    RecipQuality n g1 ((pMul n (R.drop d2) g2).drop d2) d1 := by
  haveI : Fact (1 < n) := ⟨by omega⟩
  have hn0 : 0 < n := by omega
  have hclean1 : Clean n ((pMul n (R.drop d2) g2).drop d2) := fun c hc =>
    pMul_clean hn0 _ _ c (List.mem_of_mem_drop hc)
  have hlen1 : ((pMul n (R.drop d2) g2).drop d2).length ≤ d1 + 1 := by
    have h1 := pMul_length_le (R.drop d2) g2
      (fun c hc => le_of_lt (hRc c (List.mem_of_mem_drop hc))) hg2c.bounded
    rw [List.length_drop] at h1
    rw [List.length_drop]
    omega
  have hsR := toP_split n R d2
  have hP := toP_pMul n (R.drop d2) g2
    (fun c hc => le_of_lt (hRc c (List.mem_of_mem_drop hc))) hg2c.bounded
  have hsP := toP_split n (pMul n (R.drop d2) g2) d2
  have hq1 : DegLt (Polynomial.X ^ (2 * (d1 + d2)) -
      toP n g1 * toP n g2 * toP n R) (d1 + d2 + 1) := by
    have h2 := hqual.1
    rw [hgi] at h2
    have h3 : toP n g1 * toP n g2 * toP n R =
        toP n g1 * toP n g2 * toP n R := rfl
    calc Polynomial.X ^ (2 * (d1 + d2)) - toP n g1 * toP n g2 * toP n R
        = Polynomial.X ^ (2 * (d1 + d2)) - toP n g1 * toP n g2 * toP n R := rfl
      _ = Polynomial.X ^ (2 * (d1 + d2)) -
          (toP n g1 * toP n g2) * toP n R := by ring_nf
    exact h2
  have hX : Polynomial.X ^ (2 * d2) * (Polynomial.X ^ (2 * d1) -
        toP n g1 * toP n ((pMul n (R.drop d2) g2).drop d2)) =
      (Polynomial.X ^ (2 * (d1 + d2)) - toP n g1 * toP n g2 * toP n R) +
      toP n g1 * toP n g2 * toP n (R.take d2) +
      Polynomial.X ^ d2 * toP n g1 *
        toP n ((pMul n (R.drop d2) g2).take d2) := by
    linear_combination (toP n g1 * toP n g2) * hsR -
      ((Polynomial.X : Polynomial (ZMod n)) ^ d2 * toP n g1) * hP +
      ((Polynomial.X : Polynomial (ZMod n)) ^ d2 * toP n g1) * hsP
  have hG1 : DegLt (toP n g1) (d1 + 1) := by
    have h3 := degLt_toP n g1
    rwa [hg1l] at h3
  have hG2 : DegLt (toP n g2) (d2 + 1) := by
    have h3 := degLt_toP n g2
    rwa [hg2l] at h3
  have hr : DegLt (toP n (R.take d2)) d2 :=
    (degLt_toP n _).mono (by rw [List.length_take]; omega)
  have hs : DegLt (toP n ((pMul n (R.drop d2) g2).take d2)) d2 :=
    (degLt_toP n _).mono (by rw [List.length_take]; omega)
  have hmain : DegLt (Polynomial.X ^ (2 * d1) -
      toP n g1 * toP n ((pMul n (R.drop d2) g2).drop d2)) (d1 + 1) := by
    apply degLt_cancel (g := 2 * d2) (Polynomial.degree_X_pow _)
      ⟨1, by rw [Polynomial.leadingCoeff_X_pow, mul_one]⟩
    rw [hX]
    have ht1 : DegLt (Polynomial.X ^ (2 * (d1 + d2)) -
        toP n g1 * toP n g2 * toP n R) (2 * d2 + (d1 + 1)) :=
      hq1.mono (by omega)
    have ht2 : DegLt (toP n g1 * toP n g2 * toP n (R.take d2))
        (2 * d2 + (d1 + 1)) :=
      ((hG1.mul hG2).mul hr).mono (by omega)
    have ht3 : DegLt (Polynomial.X ^ d2 * toP n g1 *
        toP n ((pMul n (R.drop d2) g2).take d2)) (2 * d2 + (d1 + 1)) :=
      ((degLt_X_pow.mul hG1).mul hs).mono (by omega)
    exact (ht1.add ht2).add ht3
  refine ⟨hclean1, hlen1, hmain, ?_⟩
  intro hd10
  subst hd10
  by_cases hd20 : d2 = 0
  · subst hd20
    have hq2 : toP n gi * toP n R = 1 := hqual.2 rfl
    rw [hgi] at hq2
    simp only [List.drop_zero] at hP ⊢
    rw [hP]
    linear_combination hq2
  · have ht1 : DegLt (Polynomial.X ^ (2 * (0 + d2)) -
        toP n g1 * toP n g2 * toP n R) (2 * d2) := hq1.mono (by omega)
    have ht2 : DegLt (toP n g1 * toP n g2 * toP n (R.take d2)) (2 * d2) :=
      ((hG1.mul hG2).mul hr).mono (by omega)
    have ht3 : DegLt (Polynomial.X ^ d2 * toP n g1 *
        toP n ((pMul n (R.drop d2) g2).take d2)) (2 * d2) :=
      ((degLt_X_pow.mul hG1).mul hs).mono (by omega)
    have hz : DegLt (Polynomial.X ^ (2 * 0) -
        toP n g1 * toP n ((pMul n (R.drop d2) g2).drop d2)) 0 := by
      apply degLt_cancel (g := 2 * d2) (Polynomial.degree_X_pow _)
        ⟨1, by rw [Polynomial.leadingCoeff_X_pow, mul_one]⟩
      rw [Nat.add_zero, hX]
      exact (ht1.add ht2).add ht3
    rw [degLt_zero_iff, sub_eq_zero] at hz
    rw [← hz, pow_zero]

/-- Per-node facts of the recip tree over an abstract product-node
function: each node's reciprocal entry is clean, no longer than its
product node, and of full reciprocal quality for it. -/
theorem rtNode_ok (n : ℕ) (hn : 2 ≤ n) (e : ℕ) (pt : ℕ → List ℕ)
    (rootR : List ℕ)
    (hptc : ∀ ℓ p, ℓ ≤ e → p < 2 ^ ℓ → Clean n (pt (2 ^ ℓ - 1 + p)))
    (hptne : ∀ ℓ p, ℓ ≤ e → p < 2 ^ ℓ → pt (2 ^ ℓ - 1 + p) ≠ [])
    (hsplit : ∀ ℓ p, ℓ + 1 ≤ e → p < 2 ^ ℓ →
      toP n (pt (2 ^ ℓ - 1 + p)) =
        toP n (pt (2 ^ (ℓ + 1) - 1 + 2 * p)) *
          toP n (pt (2 ^ (ℓ + 1) - 1 + (2 * p + 1))) ∧
      (pt (2 ^ ℓ - 1 + p)).length =
        (pt (2 ^ (ℓ + 1) - 1 + 2 * p)).length +
          (pt (2 ^ (ℓ + 1) - 1 + (2 * p + 1))).length - 1)
    (hrootc : Clean n rootR)
    (hrootlen : rootR.length ≤ (pt 0).length)
    (hrootq : RecipQuality n (pt 0) rootR ((pt 0).length - 1)) :
    ∀ ℓ p, ℓ ≤ e → p < 2 ^ ℓ →
      Clean n (rtNode n pt rootR (2 ^ ℓ - 1 + p)) ∧
      (rtNode n pt rootR (2 ^ ℓ - 1 + p)).length ≤
        (pt (2 ^ ℓ - 1 + p)).length ∧
      RecipQuality n (pt (2 ^ ℓ - 1 + p)) (rtNode n pt rootR (2 ^ ℓ - 1 + p))
        ((pt (2 ^ ℓ - 1 + p)).length - 1) := by
  intro ℓ
  induction ℓ with
  | zero =>
    intro p hle hp
    have hp0 : p = 0 := by omega
    subst hp0
    have hidx : 2 ^ 0 - 1 + 0 = 0 := rfl
    rw [hidx, rtNode, if_pos rfl]
    exact ⟨hrootc, hrootlen, hrootq⟩
  | succ ℓ ih =>
    intro p hle hp
    have hpow : 2 ^ (ℓ + 1) = 2 ^ ℓ * 2 := pow_succ 2 ℓ
    have hA : 0 < 2 ^ ℓ := pow_pos (by omega) ℓ
    have hj0 : ¬(2 ^ (ℓ + 1) - 1 + p = 0) := by omega
    set q := p / 2 with hq_def
    have hq : q < 2 ^ ℓ := by omega
    obtain ⟨hparC, hparL, hparQ⟩ := ih q (by omega) hq
    obtain ⟨hspl, hlen⟩ := hsplit ℓ q (by omega) hq
    have hpar : (2 ^ (ℓ + 1) - 1 + p - 1) / 2 = 2 ^ ℓ - 1 + q := by omega
    have hneL := hptne (ℓ + 1) (2 * q) hle (by omega)
    have hneR := hptne (ℓ + 1) (2 * q + 1) hle (by omega)
    have hlL : 1 ≤ (pt (2 ^ (ℓ + 1) - 1 + 2 * q)).length :=
      List.length_pos.mpr hneL
    have hlR : 1 ≤ (pt (2 ^ (ℓ + 1) - 1 + (2 * q + 1))).length :=
      List.length_pos.mpr hneR
    by_cases hpe : p % 2 = 0
    · have hp2 : p = 2 * q := by omega
      have hsib : sibl (2 ^ (ℓ + 1) - 1 + p) = 2 ^ (ℓ + 1) - 1 + (2 * q + 1) := by
        unfold sibl
        have hmod : (2 ^ (ℓ + 1) - 1 + p) % 2 = 1 := by omega
        rw [if_pos hmod]
        omega
      rw [rtNode, if_neg hj0, hsib, hpar, hp2]
      have e4 : (pt (2 ^ ℓ - 1 + q)).length - 1 =
          ((pt (2 ^ (ℓ + 1) - 1 + 2 * q)).length - 1) +
          ((pt (2 ^ (ℓ + 1) - 1 + (2 * q + 1))).length - 1) := by omega
      rw [e4] at hparQ
      have hC := @recip_child_quality n hn
        (pt (2 ^ ℓ - 1 + q))
        (pt (2 ^ (ℓ + 1) - 1 + 2 * q))
        (pt (2 ^ (ℓ + 1) - 1 + (2 * q + 1)))
        (rtNode n pt rootR (2 ^ ℓ - 1 + q))
        ((pt (2 ^ (ℓ + 1) - 1 + 2 * q)).length - 1)
        ((pt (2 ^ (ℓ + 1) - 1 + (2 * q + 1))).length - 1)
        (by omega) (by omega)
        (hptc (ℓ + 1) (2 * q + 1) hle (by omega)) hparC
        (by omega) hspl hparQ
      refine ⟨hC.1, ?_, ?_⟩
      · have h5 := hC.2.1
        omega
      · exact hC.2.2
    · have hp2 : p = 2 * q + 1 := by omega
      have hsib : sibl (2 ^ (ℓ + 1) - 1 + p) = 2 ^ (ℓ + 1) - 1 + 2 * q := by
        unfold sibl
        have hmod : ¬((2 ^ (ℓ + 1) - 1 + p) % 2 = 1) := by omega
        rw [if_neg hmod]
        omega
      rw [rtNode, if_neg hj0, hsib, hpar, hp2]
      have e4 : (pt (2 ^ ℓ - 1 + q)).length - 1 =
          ((pt (2 ^ (ℓ + 1) - 1 + (2 * q + 1))).length - 1) +
          ((pt (2 ^ (ℓ + 1) - 1 + 2 * q)).length - 1) := by omega
      rw [e4] at hparQ
      have hC := @recip_child_quality n hn
        (pt (2 ^ ℓ - 1 + q))
        (pt (2 ^ (ℓ + 1) - 1 + (2 * q + 1)))
        (pt (2 ^ (ℓ + 1) - 1 + 2 * q))
        (rtNode n pt rootR (2 ^ ℓ - 1 + q))
        ((pt (2 ^ (ℓ + 1) - 1 + (2 * q + 1))).length - 1)
        ((pt (2 ^ (ℓ + 1) - 1 + 2 * q)).length - 1)
        (by omega) (by omega)
        (hptc (ℓ + 1) (2 * q) hle (by omega)) hparC
        (by omega) (by rw [hspl]; ring) hparQ
      refine ⟨hC.1, ?_, ?_⟩
      · have h5 := hC.2.1
        omega
      · exact hC.2.2

/-- Per-node facts of the first phase of `remainder_tree`: each node's
reduction loop terminates on its fuel and yields a clean trimmed remainder
congruent to `f` modulo the node's product polynomial, satisfying the
loop's exit condition. -/
theorem fmodNode_ok (n : ℕ) (hn : 2 ≤ n) (e : ℕ) (gt rt : ℕ → List ℕ)
    (fc : List ℕ) (hfc : Clean n fc) (hfne : fc ≠ [])
    (hgtc : ∀ ℓ p, ℓ ≤ e → p < 2 ^ ℓ → Clean n (gt (2 ^ ℓ - 1 + p)))
    (hgtne : ∀ ℓ p, ℓ ≤ e → p < 2 ^ ℓ → gt (2 ^ ℓ - 1 + p) ≠ [])
    (hgttop : ∀ ℓ p, ℓ ≤ e → p < 2 ^ ℓ →
      (gt (2 ^ ℓ - 1 + p)).getD ((gt (2 ^ ℓ - 1 + p)).length - 1) 0 = 1)
    (hsplit : ∀ ℓ p, ℓ + 1 ≤ e → p < 2 ^ ℓ →
      toP n (gt (2 ^ ℓ - 1 + p)) =
        toP n (gt (2 ^ (ℓ + 1) - 1 + 2 * p)) *
          toP n (gt (2 ^ (ℓ + 1) - 1 + (2 * p + 1))))
    (hrtc : ∀ ℓ p, ℓ ≤ e → p < 2 ^ ℓ → Clean n (rt (2 ^ ℓ - 1 + p)))
    (hrtlen : ∀ ℓ p, ℓ ≤ e → p < 2 ^ ℓ →
      (rt (2 ^ ℓ - 1 + p)).length ≤ (gt (2 ^ ℓ - 1 + p)).length)
    (hrtq : ∀ ℓ p, ℓ ≤ e → p < 2 ^ ℓ →
      RecipQuality n (gt (2 ^ ℓ - 1 + p)) (rt (2 ^ ℓ - 1 + p))
        ((gt (2 ^ ℓ - 1 + p)).length - 1)) :
    ∀ ℓ p, ℓ ≤ e → p < 2 ^ ℓ →
      ∃ r, fmodNode n gt rt fc (2 ^ ℓ - 1 + p) = some r ∧
        Clean n r ∧ r ≠ [] ∧ TrimmedRep r ∧
        (r.length < (gt (2 ^ ℓ - 1 + p)).length ∨
          (r.length = 1 ∧ r.getD 0 0 = 0)) ∧
        ∃ Q, toP n fc = Q * toP n (gt (2 ^ ℓ - 1 + p)) + toP n r := by
  haveI : Fact (1 < n) := ⟨by omega⟩
  have hloop : ∀ ℓ p, ℓ ≤ e → p < 2 ^ ℓ → ∀ dividend : List ℕ,
      Clean n dividend → dividend ≠ [] →
      ∃ r, remLoop n (gt (2 ^ ℓ - 1 + p)) (rt (2 ^ ℓ - 1 + p))
          (dividend.length + 2) dividend = some r ∧
        Clean n r ∧ r ≠ [] ∧ TrimmedRep r ∧
        (r.length < (gt (2 ^ ℓ - 1 + p)).length ∨
          (r.length = 1 ∧ r.getD 0 0 = 0)) ∧
        ∃ Q, toP n dividend = Q * toP n (gt (2 ^ ℓ - 1 + p)) + toP n r := by
    intro ℓ p hle hp dividend hdc hdne
    have hne := hgtne ℓ p hle hp
    have hl1 : 1 ≤ (gt (2 ^ ℓ - 1 + p)).length := List.length_pos.mpr hne
    obtain ⟨r, h1, h2, h3, h4, h5, Q, h6⟩ := remLoop_ok n hn
      (g := gt (2 ^ ℓ - 1 + p)) (d := (gt (2 ^ ℓ - 1 + p)).length - 1)
      (by omega) (hgtc ℓ p hle hp)
      (by
        rw [hgttop ℓ p hle hp]
        exact_mod_cast (one_ne_zero :
          (1 : ZMod n) ≠ 0))
      (hrtc ℓ p hle hp) (by have := hrtlen ℓ p hle hp; omega)
      (hrtq ℓ p hle hp) (dividend.length + 2) dividend hdc hdne (by omega)
    exact ⟨r, h1, h2, h3, h4, h5, Q, h6⟩
  intro ℓ
  induction ℓ with
  | zero =>
    intro p hle hp
    have hp0 : p = 0 := by omega
    subst hp0
    have hidx : 2 ^ 0 - 1 + 0 = 0 := rfl
    rw [hidx]
    rw [fmodNode, if_pos rfl]
    obtain ⟨r, h1, h2, h3, h4, h5, Q, h6⟩ :=
      hloop 0 0 (by omega) (by omega) fc hfc hfne
    exact ⟨r, h1, h2, h3, h4, h5, Q, h6⟩
  | succ ℓ ih =>
    intro p hle hp
    have hpow : 2 ^ (ℓ + 1) = 2 ^ ℓ * 2 := pow_succ 2 ℓ
    have hA : 0 < 2 ^ ℓ := pow_pos (by omega) ℓ
    have hj0 : ¬(2 ^ (ℓ + 1) - 1 + p = 0) := by omega
    set q := p / 2 with hq_def
    have hq : q < 2 ^ ℓ := by omega
    obtain ⟨rp, hrp, hrpC, hrpNe, _, _, Qp, hQp⟩ := ih q (by omega) hq
    have hpar : (2 ^ (ℓ + 1) - 1 + p - 1) / 2 = 2 ^ ℓ - 1 + q := by omega
    rw [fmodNode, if_neg hj0, hpar, hrp]
    obtain ⟨r, h1, h2, h3, h4, h5, Qc, h6⟩ :=
      hloop (ℓ + 1) p hle hp rp hrpC hrpNe
    refine ⟨r, h1, h2, h3, h4, h5, ?_⟩
    have hspl := hsplit ℓ q (by omega) hq
    by_cases hpe : p % 2 = 0
    · have hp2 : p = 2 * q := by omega
      have hfact : toP n (gt (2 ^ ℓ - 1 + q)) =
          toP n (gt (2 ^ (ℓ + 1) - 1 + p)) *
            toP n (gt (2 ^ (ℓ + 1) - 1 + (2 * q + 1))) := by
        rw [hp2]
        exact hspl
      exact ⟨Qp * toP n (gt (2 ^ (ℓ + 1) - 1 + (2 * q + 1))) + Qc,
        by linear_combination hQp + h6 + Qp * hfact⟩
    · have hp2 : p = 2 * q + 1 := by omega
      have hfact : toP n (gt (2 ^ ℓ - 1 + q)) =
          toP n (gt (2 ^ (ℓ + 1) - 1 + p)) *
            toP n (gt (2 ^ (ℓ + 1) - 1 + 2 * q)) := by
        rw [hp2, hspl]
        ring
      exact ⟨Qp * toP n (gt (2 ^ (ℓ + 1) - 1 + 2 * q)) + Qc,
        by linear_combination hQp + h6 + Qp * hfact⟩

theorem ptNode_leaf (n kk : ℕ) (lf : ℕ → List ℕ) (i : ℕ) (h : kk - 1 ≤ i) :
    ptNode n kk lf i = lf (i - (kk - 1)) := by
  rw [ptNode, if_pos h]

theorem ptNode_internal (n kk : ℕ) (lf : ℕ → List ℕ) (i : ℕ) (h : i < kk - 1) :
    ptNode n kk lf i =
      pMul n (ptNode n kk lf (2 * i + 1)) (ptNode n kk lf (2 * i + 2)) := by
  rw [ptNode, if_neg (by omega)]

theorem remTreeNode_leaf (n K : ℕ) (leafVal : ℕ → ℕ) (i : ℕ) (h : K - 1 ≤ i) :
    remTreeNode n K leafVal i = leafVal (i - (K - 1)) := by
  rw [remTreeNode, if_pos h]

/-- Each node of the second phase holds the product, mod `n`, of the
replaced leaf values over its leaf range. -/
theorem remTreeNode_ok (n : ℕ) (hn : 2 ≤ n) (e : ℕ) (leafVal : ℕ → ℕ)
    (hlv : ∀ p, p < 2 ^ e → leafVal p < n) :
    ∀ h ℓ p, ℓ + h = e → p < 2 ^ ℓ →
      remTreeNode n (2 ^ e) leafVal (2 ^ ℓ - 1 + p) =
        (∏ j in Finset.Ico (p * 2 ^ h) (p * 2 ^ h + 2 ^ h), leafVal j) % n := by
  intro h
  induction h with
  | zero =>
    intro ℓ p hle hp
    have hℓe : ℓ = e := by omega
    subst hℓe
    have hif : 2 ^ ℓ - 1 ≤ 2 ^ ℓ - 1 + p := Nat.le_add_right _ _
    have hidx : 2 ^ ℓ - 1 + p - (2 ^ ℓ - 1) = p := by omega
    rw [remTreeNode_leaf _ _ _ _ hif, hidx, pow_zero, mul_one,
      Finset.prod_Ico_succ_top (le_refl p), Finset.Ico_self,
      Finset.prod_empty, one_mul]
    exact (Nat.mod_eq_of_lt (hlv p hp)).symm
  | succ h ih =>
    intro ℓ p hle hp
    have hA : 0 < 2 ^ ℓ := pow_pos (by omega) ℓ
    have hpow : 2 ^ (ℓ + 1) = 2 ^ ℓ * 2 := pow_succ 2 ℓ
    have hee : 2 ^ (ℓ + 1) ≤ 2 ^ e := Nat.pow_le_pow_right (by omega) (by omega)
    have hif : ¬ (2 ^ e - 1 ≤ 2 ^ ℓ - 1 + p) := by omega
    have hL : 2 * (2 ^ ℓ - 1 + p) + 1 = 2 ^ (ℓ + 1) - 1 + 2 * p := by omega
    have hR : 2 * (2 ^ ℓ - 1 + p) + 2 = 2 ^ (ℓ + 1) - 1 + (2 * p + 1) := by omega
    have e1 : p * 2 ^ (h + 1) = 2 * p * 2 ^ h := by rw [pow_succ]; ring
    have e2 : (2 * p + 1) * 2 ^ h = 2 * p * 2 ^ h + 2 ^ h := by ring
    have e3 : p * 2 ^ (h + 1) + 2 ^ (h + 1) = 2 * p * 2 ^ h + 2 ^ h + 2 ^ h := by
      rw [pow_succ]; ring
    have ih1 := ih (ℓ + 1) (2 * p) (by omega) (by omega)
    have ih2 := ih (ℓ + 1) (2 * p + 1) (by omega) (by omega)
    rw [e2] at ih2
    rw [remTreeNode, if_neg hif, hL, hR, ih1, ih2, e3, e1, ← Nat.mul_mod,
      Finset.prod_Ico_consecutive _ (Nat.le_add_right _ _) (Nat.le_add_right _ _)]

theorem getD_range_map {α : Type} (g : ℕ → α) (d : α) (m j : ℕ) (hj : j < m) :
    ((List.range m).map g).getD j d = g j := by
  rw [List.getD_eq_getElem _ _ (by simpa using hj)]
  simp

theorem collectNodes_map {f : ℕ → Option (List ℕ)} {g : ℕ → List ℕ} :
    ∀ m, (∀ j, j < m → f j = some (g j)) →
      collectNodes f m = some ((List.range m).map g) := by
  intro m
  induction m with
  | zero => intro _; rfl
  | succ m ih =>
    intro hj
    have h1 := ih (fun j hj' => hj j (by omega))
    have h2 := hj m (by omega)
    rw [collectNodes, h1, h2, List.range_succ, List.map_append]
    rfl

/-- Heap-position decomposition: every index below `2*2^e - 1` is
`2^ℓ - 1 + p` for a unique level `ℓ ≤ e` and position `p < 2^ℓ`. -/
theorem heap_level (e : ℕ) : ∀ j, j < 2 * 2 ^ e - 1 →
    ∃ ℓ p, ℓ ≤ e ∧ p < 2 ^ ℓ ∧ j = 2 ^ ℓ - 1 + p := by
  induction e with
  | zero =>
    intro j hj
    exact ⟨0, 0, by omega, by simpa using hj, by omega⟩
  | succ e ih =>
    intro j hj
    have hpow : 2 ^ (e + 1) = 2 ^ e * 2 := pow_succ 2 e
    have hA : 0 < 2 ^ e := pow_pos (by omega) e
    rcases lt_or_le j (2 * 2 ^ e - 1) with h | h
    · obtain ⟨ℓ, p, h1, h2, h3⟩ := ih j h
      exact ⟨ℓ, p, by omega, h2, h3⟩
    · exact ⟨e + 1, j - (2 ^ (e + 1) - 1), by omega, by omega, by omega⟩

theorem toP_pair (n a : ℕ) :
    toP n [a, 1] = Polynomial.X + Polynomial.C ((a : ℕ) : ZMod n) := by
  rw [toP_cons, toP_cons, toP_nil]
  simp only [Nat.cast_one, Polynomial.C_1, mul_zero, add_zero, mul_one]
  ring

theorem toP_single (n a : ℕ) : toP n [a] = Polynomial.C ((a : ℕ) : ZMod n) := by
  rw [toP_cons, toP_nil]
  simp

theorem toP_single_one (n : ℕ) : toP n [1] = 1 := by
  rw [toP_single]
  simp

theorem leaf_coeff_eq (xs : List ℕ) (n : ℕ) (j : ℕ) :
    (((xs.map (fun c => (⟨[c, 1], n⟩ : Poly)))).getD j ⟨[1], n⟩).coeff =
      if j < xs.length then [xs.getD j 0, 1] else [1] := by
  by_cases hj : j < xs.length
  · rw [if_pos hj]
    rw [List.getD_eq_getElem _ _ (by simpa using hj), List.getD_eq_getElem _ _ hj]
    simp
  · rw [if_neg hj]
    rw [List.getD_eq_default _ _ (by simpa using hj)]

theorem product_tree_length (poly_list : List Poly) (n : ℕ) :
    (product_tree poly_list n).length = 2 * pow2ge poly_list.length - 1 := by
  unfold product_tree
  rw [List.length_map, List.length_range]

theorem product_tree_getD (poly_list : List Poly) (n : ℕ) (i : ℕ)
    (hi : i < 2 * pow2ge poly_list.length - 1) (dflt : Poly) :
    (product_tree poly_list n).getD i dflt =
      ⟨ptNode n (pow2ge poly_list.length)
        (fun j => (poly_list.getD j ⟨[1], n⟩).coeff) i, n⟩ := by
  unfold product_tree
  exact getD_range_map _ _ _ _ hi

theorem eval_root_rem {n : ℕ} {F Q : Polynomial (ZMod n)} {a c : ZMod n}
    (h : F = Q * (Polynomial.X + Polynomial.C a) + Polynomial.C c) :
    Polynomial.eval (-a) F = c := by
  rw [h]
  simp

/-- **C5**: for a polynomial `F` and degree-1 monic leaves `x + c_i`
(roots `x_i = -c_i`), `remainder_tree(F, g_tree, g_recip_tree, n)` applied
to their product tree and its recip tree succeeds, returns one entry per
tree node, each leaf entry being the canonical representative of
`F(x_i) mod n` with value `0` replaced by `1` (padding leaves hold `1`),
and the root entry being the product of the leaf entries mod `n`. -/
theorem claim_C5_remainder_tree (n : ℕ) (hn : 2 ≤ n) (fc xs : List ℕ)
    (hfc : Clean n fc) (hfne : fc ≠ []) (hxs : Clean n xs) :
    ∃ rt rem,
      recip_tree (product_tree (xs.map (fun c => (⟨[c, 1], n⟩ : Poly))) n) =
        .ok rt ∧
      remainder_tree ⟨fc, n⟩
        (product_tree (xs.map (fun c => (⟨[c, 1], n⟩ : Poly))) n) rt n =
        some rem ∧
      rem.length =
        (product_tree (xs.map (fun c => (⟨[c, 1], n⟩ : Poly))) n).length ∧
      (∀ p, p < xs.length →
        rem.getD (pow2ge xs.length - 1 + p) 0 =
          if Polynomial.eval (-((xs.getD p 0 : ℕ) : ZMod n)) (toP n fc) = 0
          then 1
          else (Polynomial.eval (-((xs.getD p 0 : ℕ) : ZMod n)) (toP n fc)).val) ∧
      (∀ p, xs.length ≤ p → p < pow2ge xs.length →
        rem.getD (pow2ge xs.length - 1 + p) 0 = 1) ∧
      rem.getD 0 0 =
        (∏ p in Finset.range (pow2ge xs.length),
          rem.getD (pow2ge xs.length - 1 + p) 0) % n := by
  haveI : Fact (1 < n) := ⟨by omega⟩
  haveI : NeZero n := ⟨by omega⟩
  have hn0 : 0 < n := by omega
  obtain ⟨e, hkk, hMle⟩ := pow2ge_spec xs.length
  have hepos : 0 < 2 ^ e := pow_pos (by omega) e
  set PL := xs.map (fun c => (⟨[c, 1], n⟩ : Poly)) with hPL_def
  have hPLlen : PL.length = xs.length := List.length_map _ _
  have hkk' : pow2ge PL.length = 2 ^ e := by rw [hPLlen, hkk]
  set gtree := product_tree PL n with hgtree_def
  have hL : gtree.length = 2 * 2 ^ e - 1 := by
    rw [hgtree_def, product_tree_length, hkk']
  -- leaf family facts
  have hlf_eq : ∀ j, (PL.getD j (⟨[1], n⟩ : Poly)).coeff =
      if j < xs.length then [xs.getD j 0, 1] else [1] := by
    intro j
    rw [hPL_def]
    exact leaf_coeff_eq xs n j
  have hlfc : ∀ j, Clean n ((PL.getD j (⟨[1], n⟩ : Poly)).coeff) := by
    intro j
    rw [hlf_eq j]
    by_cases hj : j < xs.length
    · rw [if_pos hj]
      intro c hc
      rcases List.mem_cons.mp hc with rfl | hc2
      · exact clean_getD hxs hn0 j
      · rcases List.mem_singleton.mp hc2 with rfl
        omega
    · rw [if_neg hj]
      intro c hc
      rcases List.mem_singleton.mp hc with rfl
      omega
  have hlfne : ∀ j, (PL.getD j (⟨[1], n⟩ : Poly)).coeff ≠ [] := by
    intro j
    rw [hlf_eq j]
    by_cases hj : j < xs.length
    · rw [if_pos hj]; exact List.cons_ne_nil _ _
    · rw [if_neg hj]; exact List.cons_ne_nil _ _
  have hlftop : ∀ j, ((PL.getD j (⟨[1], n⟩ : Poly)).coeff).getD
      (((PL.getD j (⟨[1], n⟩ : Poly)).coeff).length - 1) 0 = 1 := by
    intro j
    rw [hlf_eq j]
    by_cases hj : j < xs.length
    · rw [if_pos hj]; rfl
    · rw [if_neg hj]; rfl
  have ptF := ptNode_ok n hn e (fun j => (PL.getD j (⟨[1], n⟩ : Poly)).coeff)
    hlfc hlfne hlftop
  -- product tree entries are `ptNode` values
  have hgt : ∀ i, i < 2 * 2 ^ e - 1 →
      (gtree.getD i (⟨[1], n⟩ : Poly)).coeff =
        ptNode n (2 ^ e) (fun j => (PL.getD j (⟨[1], n⟩ : Poly)).coeff) i := by
    intro i hi
    rw [hgtree_def, product_tree_getD PL n i (by rw [hkk']; exact hi), hkk']
  have hgtc : ∀ ℓ p, ℓ ≤ e → p < 2 ^ ℓ →
      Clean n ((gtree.getD (2 ^ ℓ - 1 + p) (⟨[1], n⟩ : Poly)).coeff) := by
    intro ℓ p hle hp
    have hpe : 2 ^ ℓ ≤ 2 ^ e := Nat.pow_le_pow_right (by omega) hle
    rw [hgt _ (by omega)]
    exact (ptF (e - ℓ) ℓ p (by omega) hp).1
  have hgtne : ∀ ℓ p, ℓ ≤ e → p < 2 ^ ℓ →
      (gtree.getD (2 ^ ℓ - 1 + p) (⟨[1], n⟩ : Poly)).coeff ≠ [] := by
    intro ℓ p hle hp
    have hpe : 2 ^ ℓ ≤ 2 ^ e := Nat.pow_le_pow_right (by omega) hle
    rw [hgt _ (by omega)]
    exact (ptF (e - ℓ) ℓ p (by omega) hp).2.1
  have hgttop : ∀ ℓ p, ℓ ≤ e → p < 2 ^ ℓ →
      ((gtree.getD (2 ^ ℓ - 1 + p) (⟨[1], n⟩ : Poly)).coeff).getD
        (((gtree.getD (2 ^ ℓ - 1 + p) (⟨[1], n⟩ : Poly)).coeff).length - 1) 0 =
        1 := by
    intro ℓ p hle hp
    have hpe : 2 ^ ℓ ≤ 2 ^ e := Nat.pow_le_pow_right (by omega) hle
    rw [hgt _ (by omega)]
    exact (ptF (e - ℓ) ℓ p (by omega) hp).2.2.1
  have hsplit2 : ∀ ℓ p, ℓ + 1 ≤ e → p < 2 ^ ℓ →
      (toP n ((gtree.getD (2 ^ ℓ - 1 + p) (⟨[1], n⟩ : Poly)).coeff) =
        toP n ((gtree.getD (2 ^ (ℓ + 1) - 1 + 2 * p) (⟨[1], n⟩ : Poly)).coeff) *
          toP n ((gtree.getD (2 ^ (ℓ + 1) - 1 + (2 * p + 1))
            (⟨[1], n⟩ : Poly)).coeff)) ∧
      ((gtree.getD (2 ^ ℓ - 1 + p) (⟨[1], n⟩ : Poly)).coeff).length =
        ((gtree.getD (2 ^ (ℓ + 1) - 1 + 2 * p) (⟨[1], n⟩ : Poly)).coeff).length +
          ((gtree.getD (2 ^ (ℓ + 1) - 1 + (2 * p + 1))
            (⟨[1], n⟩ : Poly)).coeff).length - 1 := by
    intro ℓ p hle1 hp
    have hpow : 2 ^ (ℓ + 1) = 2 ^ ℓ * 2 := pow_succ 2 ℓ
    have hA : 0 < 2 ^ ℓ := pow_pos (by omega) ℓ
    have hpe : 2 ^ (ℓ + 1) ≤ 2 ^ e := Nat.pow_le_pow_right (by omega) (by omega)
    rw [hgt _ (by omega), hgt _ (by omega), hgt _ (by omega)]
    have hint := ptNode_internal n (2 ^ e)
      (fun j => (PL.getD j (⟨[1], n⟩ : Poly)).coeff) (2 ^ ℓ - 1 + p) (by omega)
    have hL2 : 2 * (2 ^ ℓ - 1 + p) + 1 = 2 ^ (ℓ + 1) - 1 + 2 * p := by omega
    have hR2 : 2 * (2 ^ ℓ - 1 + p) + 2 = 2 ^ (ℓ + 1) - 1 + (2 * p + 1) := by omega
    rw [hL2, hR2] at hint
    obtain ⟨hcL, hneL, htopL, -, -⟩ :=
      ptF (e - (ℓ + 1)) (ℓ + 1) (2 * p) (by omega) (by omega)
    obtain ⟨hcR, hneR, htopR, -, -⟩ :=
      ptF (e - (ℓ + 1)) (ℓ + 1) (2 * p + 1) (by omega) (by omega)
    constructor
    · rw [hint]
      exact toP_pMul n _ _ hcL.bounded hcR.bounded
    · rw [hint]
      exact (pMul_length_top _ _ hcL.bounded hcR.bounded hneL hneR
        (by rw [htopL, htopR]; omega)).1
  -- root reciprocal
  have hg00 : gtree.getD 0 (⟨[1], 1⟩ : Poly) =
      ⟨ptNode n (2 ^ e) (fun j => (PL.getD j (⟨[1], n⟩ : Poly)).coeff) 0, n⟩ := by
    rw [hgtree_def, product_tree_getD PL n 0 (by rw [hkk']; omega), hkk']
  obtain ⟨hCr, hNEr, hTOPr, -, -⟩ := ptF e 0 0 (by omega) (by omega)
  obtain ⟨gr0, u0, hrec, hgr0len, hgr0c, -, -, -, hgr0q⟩ :=
    recip_ok n hn
      (g := ptNode n (2 ^ e) (fun j => (PL.getD j (⟨[1], n⟩ : Poly)).coeff) 0)
      (by exact hNEr) (by exact hCr)
      (by
        rw [show (ptNode n (2 ^ e)
            (fun j => (PL.getD j (⟨[1], n⟩ : Poly)).coeff) 0).getD
            ((ptNode n (2 ^ e)
              (fun j => (PL.getD j (⟨[1], n⟩ : Poly)).coeff) 0).length - 1) 0 = 1
          from hTOPr]
        exact Nat.gcd_one_left n)
  -- the recip tree value
  obtain ⟨rtl, hrtc_eq⟩ : ∃ rtl, recip_tree gtree = .ok rtl := by
    simp only [recip_tree, hg00, hrec, py_bind_ok]
    exact ⟨_, rfl⟩
  have hrtl_val := hrtc_eq
  simp only [recip_tree, hg00, hrec, py_bind_ok, Except.ok.injEq] at hrtl_val
  have hrt : ∀ i, i < 2 * 2 ^ e - 1 →
      (rtl.getD i (⟨[1], n⟩ : Poly)).coeff =
        rtNode n (fun i => (gtree.getD i (⟨[1], n⟩ : Poly)).coeff) gr0 i := by
    intro i hi
    rw [← hrtl_val]
    rw [getD_range_map _ _ _ _ (show i < 2 * (gtree.length / 2) + 1 by omega)]
  -- recip-tree node facts
  have rtF := rtNode_ok n hn e
    (fun i => (gtree.getD i (⟨[1], n⟩ : Poly)).coeff) gr0 hgtc hgtne
    (fun ℓ p h1 h2 => hsplit2 ℓ p h1 h2) hgr0c
    (by
      show gr0.length ≤ ((gtree.getD 0 (⟨[1], n⟩ : Poly)).coeff).length
      rw [hgt 0 (by omega)]
      omega)
    (by
      show RecipQuality n ((gtree.getD 0 (⟨[1], n⟩ : Poly)).coeff) gr0
        (((gtree.getD 0 (⟨[1], n⟩ : Poly)).coeff).length - 1)
      rw [hgt 0 (by omega)]
      exact hgr0q)
  -- phase-1 node facts
  have fmF := fmodNode_ok n hn e
    (fun i => (gtree.getD i (⟨[1], n⟩ : Poly)).coeff)
    (fun i => (rtl.getD i (⟨[1], n⟩ : Poly)).coeff) fc hfc hfne
    hgtc hgtne hgttop (fun ℓ p h1 h2 => (hsplit2 ℓ p h1 h2).1)
    (by
      intro ℓ p hle hp
      show Clean n ((rtl.getD (2 ^ ℓ - 1 + p) (⟨[1], n⟩ : Poly)).coeff)
      have hpe : 2 ^ ℓ ≤ 2 ^ e := Nat.pow_le_pow_right (by omega) hle
      rw [hrt _ (by omega)]
      exact (rtF ℓ p hle hp).1)
    (by
      intro ℓ p hle hp
      show ((rtl.getD (2 ^ ℓ - 1 + p) (⟨[1], n⟩ : Poly)).coeff).length ≤
        ((gtree.getD (2 ^ ℓ - 1 + p) (⟨[1], n⟩ : Poly)).coeff).length
      have hpe : 2 ^ ℓ ≤ 2 ^ e := Nat.pow_le_pow_right (by omega) hle
      rw [hrt _ (by omega)]
      exact (rtF ℓ p hle hp).2.1)
    (by
      intro ℓ p hle hp
      show RecipQuality n ((gtree.getD (2 ^ ℓ - 1 + p) (⟨[1], n⟩ : Poly)).coeff)
        ((rtl.getD (2 ^ ℓ - 1 + p) (⟨[1], n⟩ : Poly)).coeff)
        (((gtree.getD (2 ^ ℓ - 1 + p) (⟨[1], n⟩ : Poly)).coeff).length - 1)
      have hpe : 2 ^ ℓ ≤ 2 ^ e := Nat.pow_le_pow_right (by omega) hle
      rw [hrt _ (by omega)]
      exact (rtF ℓ p hle hp).2.2)
  -- collect phase 1
  have hall : ∀ j, j < gtree.length →
      fmodNode n (fun i => (gtree.getD i (⟨[1], n⟩ : Poly)).coeff)
        (fun i => (rtl.getD i (⟨[1], n⟩ : Poly)).coeff) fc j =
      some ((fmodNode n (fun i => (gtree.getD i (⟨[1], n⟩ : Poly)).coeff)
        (fun i => (rtl.getD i (⟨[1], n⟩ : Poly)).coeff) fc j).getD []) := by
    intro j hj
    rw [hL] at hj
    obtain ⟨ℓ, p, h1, h2, h3⟩ := heap_level e j hj
    subst h3
    obtain ⟨r, hr, -⟩ := fmF ℓ p h1 h2
    rw [hr]
    rfl
  have hcoll := collectNodes_map
    (g := fun j => (fmodNode n (fun i => (gtree.getD i (⟨[1], n⟩ : Poly)).coeff)
      (fun i => (rtl.getD i (⟨[1], n⟩ : Poly)).coeff) fc j).getD [])
    gtree.length hall
  obtain ⟨rem, hrem_eq⟩ : ∃ rem, remainder_tree ⟨fc, n⟩ gtree rtl n = some rem := by
    simp only [remainder_tree, hcoll]
    exact ⟨_, rfl⟩
  have hrem_val := hrem_eq
  simp only [remainder_tree, hcoll, Option.some.injEq] at hrem_val
  -- per-leaf values
  have hKK : (gtree.length + 1) / 2 = 2 ^ e := by omega
  have hleafv : ∀ p, p < 2 ^ e → ∃ c : ℕ,
      (fmodNode n (fun i => (gtree.getD i (⟨[1], n⟩ : Poly)).coeff)
        (fun i => (rtl.getD i (⟨[1], n⟩ : Poly)).coeff) fc
        (2 ^ e - 1 + p)).getD [] = [c] ∧ c < n ∧
      (p < xs.length →
        Polynomial.eval (-((xs.getD p 0 : ℕ) : ZMod n)) (toP n fc) =
          ((c : ℕ) : ZMod n)) ∧
      (xs.length ≤ p → c = 0) := by
    intro p hp
    obtain ⟨r, hsome, hrc, hrne, -, hexit0, Q, hQ0⟩ := fmF e p (by omega) hp
    have hexit : r.length <
        ((gtree.getD (2 ^ e - 1 + p) (⟨[1], n⟩ : Poly)).coeff).length ∨
        (r.length = 1 ∧ r.getD 0 0 = 0) := hexit0
    have hQ : toP n fc =
        Q * toP n ((gtree.getD (2 ^ e - 1 + p) (⟨[1], n⟩ : Poly)).coeff) +
        toP n r := hQ0
    have hleafG : (gtree.getD (2 ^ e - 1 + p) (⟨[1], n⟩ : Poly)).coeff =
        if p < xs.length then [xs.getD p 0, 1] else [1] := by
      rw [hgt _ (by omega),
        ptNode_leaf n (2 ^ e) _ (2 ^ e - 1 + p) (Nat.le_add_right _ _),
        show 2 ^ e - 1 + p - (2 ^ e - 1) = p by omega]
      exact hlf_eq p
    have hlen2 : ((gtree.getD (2 ^ e - 1 + p) (⟨[1], n⟩ : Poly)).coeff).length ≤ 2 := by
      rw [hleafG]
      by_cases hj : p < xs.length
      · rw [if_pos hj]; simp
      · rw [if_neg hj]; simp
    have hr1 : r.length = 1 := by
      have := List.length_pos.mpr hrne
      rcases hexit with h | h
      · omega
      · exact h.1
    obtain ⟨c, rfl⟩ := List.length_eq_one.mp hr1
    refine ⟨c, by rw [hsome]; rfl, hrc c (by simp), ?_, ?_⟩
    · intro hpM
      rw [hleafG, if_pos hpM] at hQ
      rw [toP_pair, toP_single] at hQ
      exact eval_root_rem hQ
    · intro hpM
      rcases hexit with h | h
      · exfalso
        rw [hleafG, if_neg (by omega)] at h
        simp at h
      · simpa using h.2
  -- the remainder-tree entries at leaf positions
  have hremleafRaw : ∀ p, p < 2 ^ e → ∀ c : ℕ,
      (fmodNode n (fun i => (gtree.getD i (⟨[1], n⟩ : Poly)).coeff)
        (fun i => (rtl.getD i (⟨[1], n⟩ : Poly)).coeff) fc
        (2 ^ e - 1 + p)).getD [] = [c] →
      rem.getD (2 ^ e - 1 + p) 0 = if c = 0 then 1 else c := by
    intro p hp c hc
    rw [← hrem_val]
    rw [getD_range_map _ _ _ _ (by omega : 2 ^ e - 1 + p < gtree.length)]
    rw [hKK]
    rw [remTreeNode_leaf _ _ _ _ (Nat.le_add_right _ _),
      show 2 ^ e - 1 + p - (2 ^ e - 1) = p by omega]
    beta_reduce
    rw [getD_range_map _ _ _ _ (by omega : 2 ^ e - 1 + p < gtree.length)]
    rw [hc]
    rfl
  have hlv : ∀ p, p < 2 ^ e → rem.getD (2 ^ e - 1 + p) 0 < n := by
    intro p hp
    obtain ⟨c, hc, hcn, -, -⟩ := hleafv p hp
    rw [hremleafRaw p hp c hc]
    by_cases h0 : c = 0
    · rw [if_pos h0]; omega
    · rw [if_neg h0]; omega
  refine ⟨rtl, rem, hrtc_eq, hrem_eq, ?_, ?_, ?_, ?_⟩
  · rw [← hrem_val, List.length_map, List.length_range]
  · intro p hpM
    rw [hkk]
    obtain ⟨c, hc, hcn, hev, -⟩ := hleafv p (by omega)
    rw [hremleafRaw p (by omega) c hc]
    rw [hev hpM]
    by_cases h0 : c = 0
    · rw [if_pos h0]
      rw [if_pos (by rw [h0]; exact Nat.cast_zero)]
    · rw [if_neg h0]
      rw [if_neg (by
        intro hz
        apply h0
        have := ZMod.val_cast_of_lt hcn
        rw [hz] at this
        simpa using this.symm)]
      rw [ZMod.val_cast_of_lt hcn]
  · intro p hpM hpK
    rw [hkk] at hpK ⊢
    obtain ⟨c, hc, -, -, hz⟩ := hleafv p hpK
    rw [hremleafRaw p hpK c hc, hz hpM]
    rfl
  · rw [hkk]
    have hroot : rem.getD 0 0 = remTreeNode n (2 ^ e)
        (fun p =>
          if (((List.range gtree.length).map
              (fun j => (fmodNode n (fun i => (gtree.getD i (⟨[1], n⟩ : Poly)).coeff)
                (fun i => (rtl.getD i (⟨[1], n⟩ : Poly)).coeff) fc j).getD [])).getD
                ((gtree.length + 1) / 2 - 1 + p) []).getD 0 0 = 0 then 1
          else (((List.range gtree.length).map
              (fun j => (fmodNode n (fun i => (gtree.getD i (⟨[1], n⟩ : Poly)).coeff)
                (fun i => (rtl.getD i (⟨[1], n⟩ : Poly)).coeff) fc j).getD [])).getD
                ((gtree.length + 1) / 2 - 1 + p) []).getD 0 0) 0 := by
      rw [← hrem_val]
      rw [getD_range_map _ _ _ _ (by omega : 0 < gtree.length)]
      rw [hKK]
    rw [hroot]
    have hlv2 : ∀ p, p < 2 ^ e →
        (fun p =>
          if (((List.range gtree.length).map
              (fun j => (fmodNode n (fun i => (gtree.getD i (⟨[1], n⟩ : Poly)).coeff)
                (fun i => (rtl.getD i (⟨[1], n⟩ : Poly)).coeff) fc j).getD [])).getD
                ((gtree.length + 1) / 2 - 1 + p) []).getD 0 0 = 0 then 1
          else (((List.range gtree.length).map
              (fun j => (fmodNode n (fun i => (gtree.getD i (⟨[1], n⟩ : Poly)).coeff)
                (fun i => (rtl.getD i (⟨[1], n⟩ : Poly)).coeff) fc j).getD [])).getD
                ((gtree.length + 1) / 2 - 1 + p) []).getD 0 0) p =
          rem.getD (2 ^ e - 1 + p) 0 := by
      intro p hp
      rw [← hrem_val]
      rw [getD_range_map _ _ _ _ (by omega : 2 ^ e - 1 + p < gtree.length)]
      rw [hKK]
      rw [remTreeNode_leaf _ _ _ _ (Nat.le_add_right _ _),
        show 2 ^ e - 1 + p - (2 ^ e - 1) = p by omega]
    have hRT := remTreeNode_ok n hn e
      (fun p =>
          if (((List.range gtree.length).map
              (fun j => (fmodNode n (fun i => (gtree.getD i (⟨[1], n⟩ : Poly)).coeff)
                (fun i => (rtl.getD i (⟨[1], n⟩ : Poly)).coeff) fc j).getD [])).getD
                ((gtree.length + 1) / 2 - 1 + p) []).getD 0 0 = 0 then 1
          else (((List.range gtree.length).map
              (fun j => (fmodNode n (fun i => (gtree.getD i (⟨[1], n⟩ : Poly)).coeff)
                (fun i => (rtl.getD i (⟨[1], n⟩ : Poly)).coeff) fc j).getD [])).getD
                ((gtree.length + 1) / 2 - 1 + p) []).getD 0 0)
      (fun p hp => by rw [hlv2 p hp]; exact hlv p hp) e 0 0 (by omega) (by omega)
    rw [show remTreeNode n (2 ^ e)
        (fun p =>
          if (((List.range gtree.length).map
              (fun j => (fmodNode n (fun i => (gtree.getD i (⟨[1], n⟩ : Poly)).coeff)
                (fun i => (rtl.getD i (⟨[1], n⟩ : Poly)).coeff) fc j).getD [])).getD
                ((gtree.length + 1) / 2 - 1 + p) []).getD 0 0 = 0 then 1
          else (((List.range gtree.length).map
              (fun j => (fmodNode n (fun i => (gtree.getD i (⟨[1], n⟩ : Poly)).coeff)
                (fun i => (rtl.getD i (⟨[1], n⟩ : Poly)).coeff) fc j).getD [])).getD
                ((gtree.length + 1) / 2 - 1 + p) []).getD 0 0) 0 =
        (∏ j in Finset.Ico (0 * 2 ^ e) (0 * 2 ^ e + 2 ^ e), _) % n from hRT]
    rw [Finset.range_eq_Ico]
    rw [show (0 : ℕ) * 2 ^ e = 0 by ring, Nat.zero_add]
    congr 1
    apply Finset.prod_congr rfl
    intro p hp
    rw [Finset.mem_Ico] at hp
    exact hlv2 p hp.2

theorem claim_C5_remainder_tree_witness :
    2 ≤ 5 ∧ Clean 5 [1, 2, 3] ∧ ([1, 2, 3] : List ℕ) ≠ [] ∧ Clean 5 [2, 4] ∧
    (∃ rt rem,
      recip_tree (product_tree (([2, 4] : List ℕ).map
        (fun c => (⟨[c, 1], 5⟩ : Poly))) 5) = .ok rt ∧
      remainder_tree ⟨[1, 2, 3], 5⟩
        (product_tree (([2, 4] : List ℕ).map (fun c => (⟨[c, 1], 5⟩ : Poly))) 5)
        rt 5 = some rem ∧
      rem.length = (product_tree (([2, 4] : List ℕ).map
        (fun c => (⟨[c, 1], 5⟩ : Poly))) 5).length ∧
      (∀ p, p < ([2, 4] : List ℕ).length →
        rem.getD (pow2ge ([2, 4] : List ℕ).length - 1 + p) 0 =
          if Polynomial.eval (-((([2, 4] : List ℕ).getD p 0 : ℕ) : ZMod 5))
              (toP 5 [1, 2, 3]) = 0 then 1
          else (Polynomial.eval (-((([2, 4] : List ℕ).getD p 0 : ℕ) : ZMod 5))
            (toP 5 [1, 2, 3])).val) ∧
      (∀ p, ([2, 4] : List ℕ).length ≤ p → p < pow2ge ([2, 4] : List ℕ).length →
        rem.getD (pow2ge ([2, 4] : List ℕ).length - 1 + p) 0 = 1) ∧
      rem.getD 0 0 =
        (∏ p in Finset.range (pow2ge ([2, 4] : List ℕ).length),
          rem.getD (pow2ge ([2, 4] : List ℕ).length - 1 + p) 0) % 5) :=
  ⟨by omega, by intro c hc; simp at hc; omega, by simp,
    by intro c hc; simp at hc; omega,
    claim_C5_remainder_tree 5 (by omega) [1, 2, 3] [2, 4]
      (by intro c hc; simp at hc; omega) (by simp)
      (by intro c hc; simp at hc; omega)⟩

/-! ## Claim C9: the `assert False` branches in Stage 2 of the two ECM
engines -/

/-- The accumulated product `s` of the Weierstrass Stage 2 block:
`s = cq[1] if cq[1] != 0 else 1`, then `s = s * (cq[0] - jq[0]) % n` for
each `jq` with `cq[0] != jq[0]` (`ecm_weierstrass.py`). -/
def stage2_s (n : ℤ) (cq : ℤ × ℤ) (jq_list : List (ℤ × ℤ)) : ℤ :=
  jq_list.foldl
    (fun s jq => if cq.1 ≠ jq.1 then s * (cq.1 - jq.1) % n else s)
    (if cq.2 ≠ 0 then cq.2 else 1)

/-- The fallback scan of the Weierstrass Stage 2 block: `gcd(cq[1], n)`,
then `gcd(cq[0] - jq[0], n)` over the list, returning the first value
strictly between 1 and `n`. -/
def stage2_fallback (n : ℤ) (cq : ℤ × ℤ) (jq_list : List (ℤ × ℤ)) :
    Option ℤ :=
  if 1 < pyGcd cq.2 n ∧ pyGcd cq.2 n < n then some (pyGcd cq.2 n)
  else jq_list.findSome? (fun jq =>
    if 1 < pyGcd (cq.1 - jq.1) n ∧ pyGcd (cq.1 - jq.1) n < n then
      some (pyGcd (cq.1 - jq.1) n)
    else none)

/-- One pass of the Stage 2 factor check of `ecm` in `ecm_weierstrass.py`
(from computing `s` down to the `assert False`): `some d` when a factor is
returned, `none` when the loop continues, `AssertionError` exactly when
the assert is reached. -/
def stage2_body (n : ℤ) (cq : ℤ × ℤ) (jq_list : List (ℤ × ℤ)) :
    Py (Option ℤ) :=
  if 1 < pyGcd (stage2_s n cq jq_list) n ∧
      pyGcd (stage2_s n cq jq_list) n < n then
    .ok (some (pyGcd (stage2_s n cq jq_list) n))
  else if pyGcd (stage2_s n cq jq_list) n = n then
    match stage2_fallback n cq jq_list with
    | some d => .ok (some d)
    | none => .error .assertionError
  else .ok none

/-- The root/leaf factor check of `ecm` in `ecm_polyeval.py` (from
`res = gcd(rem_tree[0], n)` down to its `assert False`). -/
def polyeval_check (n : ℕ) (rem : List ℕ) : Py (Option ℕ) :=
  if 1 < Nat.gcd (rem.getD 0 0) n ∧ Nat.gcd (rem.getD 0 0) n < n then
    .ok (some (Nat.gcd (rem.getD 0 0) n))
  else if Nat.gcd (rem.getD 0 0) n = n then
    match (rem.drop (rem.length / 2)).findSome? (fun r =>
        if 1 < Nat.gcd r n ∧ Nat.gcd r n < n then some (Nat.gcd r n)
        else none) with
    | some d => .ok (some d)
    | none => .error .assertionError
  else .ok none

theorem int_gcd_small {t n : ℤ} (hn : 2 ≤ n) (ht0 : t ≠ 0)
    (htlt : t.natAbs < n.toNat)
    (hno : ¬(1 < pyGcd t n ∧ pyGcd t n < n)) : Int.gcd t n = 1 := by
  have h1 : Int.gcd t n ∣ t.natAbs := Nat.gcd_dvd_left _ _
  have h2 : 0 < t.natAbs := Int.natAbs_pos.mpr ht0
  have h3 : Int.gcd t n ≤ t.natAbs := Nat.le_of_dvd h2 h1
  have h4 : Int.gcd t n ≠ 0 := by
    intro h0
    rw [Int.gcd_eq_zero_iff] at h0
    exact ht0 h0.1
  unfold pyGcd at hno
  push_neg at hno
  have h5 : ¬ ((1 : ℤ) < (Int.gcd t n : ℤ)) := by
    intro hgt
    have h6 := hno hgt
    omega
  omega

theorem fold_coprime (n : ℤ) (cq1 : ℤ) :
    ∀ (l : List (ℤ × ℤ)) (s : ℤ), Int.gcd s n = 1 →
      (∀ jq ∈ l, cq1 ≠ jq.1 → Int.gcd (cq1 - jq.1) n = 1) →
      Int.gcd
        (l.foldl (fun s jq => if cq1 ≠ jq.1 then s * (cq1 - jq.1) % n else s) s)
        n = 1 := by
  intro l
  induction l with
  | nil =>
    intro s hs _
    exact hs
  | cons jq l ih =>
    intro s hs hall
    rw [List.foldl_cons]
    by_cases hne : cq1 ≠ jq.1
    · rw [if_pos hne]
      apply ih
      · have ht := hall jq (by simp) hne
        have hcs : IsCoprime s n := Int.isCoprime_iff_gcd_eq_one.mpr hs
        have hct : IsCoprime (cq1 - jq.1) n :=
          Int.isCoprime_iff_gcd_eq_one.mpr ht
        have hmul : IsCoprime (s * (cq1 - jq.1)) n := hcs.mul_left hct
        have hmod : s * (cq1 - jq.1) % n =
            s * (cq1 - jq.1) + n * (-(s * (cq1 - jq.1) / n)) := by
          rw [Int.emod_def]
          ring
        rw [← Int.isCoprime_iff_gcd_eq_one, hmod]
        exact hmul.add_mul_left_left _
      · intro x hx hxne
        exact hall x (by simp [hx]) hxne
    · rw [if_neg hne]
      exact ih s hs (fun x hx hxne => hall x (by simp [hx]) hxne)

/-- The Weierstrass Stage 2 check never reaches its `assert False` on
normalized inputs. -/
theorem stage2_body_ok (n : ℤ) (hn : 2 ≤ n) (cq : ℤ × ℤ)
    (jq_list : List (ℤ × ℤ)) (hcq1a : 0 ≤ cq.1) (hcq1b : cq.1 < n)
    (hcq2a : 0 ≤ cq.2) (hcq2b : cq.2 < n)
    (hjq : ∀ jq ∈ jq_list, 0 ≤ jq.1 ∧ jq.1 < n) :
    ∃ r, stage2_body n cq jq_list = .ok r := by
  unfold stage2_body
  by_cases h1 : 1 < pyGcd (stage2_s n cq jq_list) n ∧
      pyGcd (stage2_s n cq jq_list) n < n
  · rw [if_pos h1]
    exact ⟨_, rfl⟩
  · rw [if_neg h1]
    by_cases h2 : pyGcd (stage2_s n cq jq_list) n = n
    · rw [if_pos h2]
      rcases hsf : stage2_fallback n cq jq_list with _ | d
      · exfalso
        have hco : Int.gcd (stage2_s n cq jq_list) n = 1 := by
          unfold stage2_fallback at hsf
          by_cases hc2 : 1 < pyGcd cq.2 n ∧ pyGcd cq.2 n < n
          · rw [if_pos hc2] at hsf
            cases hsf
          · rw [if_neg hc2] at hsf
            have hmem : ∀ jq ∈ jq_list, cq.1 ≠ jq.1 →
                Int.gcd (cq.1 - jq.1) n = 1 := by
              intro jq hjqmem hne
              have h3 := List.findSome?_eq_none.mp hsf jq hjqmem
              by_cases hcnd : 1 < pyGcd (cq.1 - jq.1) n ∧
                  pyGcd (cq.1 - jq.1) n < n
              · rw [if_pos hcnd] at h3
                cases h3
              · obtain ⟨hb1, hb2⟩ := hjq jq hjqmem
                exact int_gcd_small hn (by omega) (by omega) hcnd
            have hs0 : Int.gcd (if cq.2 ≠ 0 then cq.2 else 1) n = 1 := by
              by_cases hz : cq.2 ≠ 0
              · rw [if_pos hz]
                exact int_gcd_small hn hz (by omega) hc2
              · rw [if_neg hz]
                exact Int.one_gcd
            exact fold_coprime n cq.1 jq_list _ hs0 hmem
        unfold pyGcd at h2
        rw [hco] at h2
        omega
      · exact ⟨_, rfl⟩
    · rw [if_neg h2]
      exact ⟨_, rfl⟩

theorem nat_gcd_small {c n : ℕ} (hc1 : 1 ≤ c) (hcn : c < n)
    (hno : ¬(1 < Nat.gcd c n ∧ Nat.gcd c n < n)) : Nat.gcd c n = 1 := by
  have h1 : Nat.gcd c n ∣ c := Nat.gcd_dvd_left _ _
  have h3 : Nat.gcd c n ≤ c := Nat.le_of_dvd (by omega) h1
  push_neg at hno
  by_cases hg : 1 < Nat.gcd c n
  · have := hno hg
    omega
  · have h4 : Nat.gcd c n ≠ 0 := by
      intro h0
      rw [Nat.gcd_eq_zero_iff] at h0
      omega
    omega

theorem list_prod_coprime {n : ℕ} : ∀ l : List ℕ,
    (∀ c ∈ l, Nat.gcd c n = 1) → Nat.gcd l.prod n = 1 := by
  intro l
  induction l with
  | nil =>
    intro _
    simp
  | cons c l ih =>
    intro h
    rw [List.prod_cons]
    have h1 := h c (by simp)
    have h2 := ih (fun x hx => h x (by simp [hx]))
    exact Nat.Coprime.mul h1 h2

/-- The polyeval Stage 2 check never reaches its `assert False` when the
root is the product of the leaf entries mod `n` and every leaf entry lies
in `[1, n)` — which is what `remainder_tree` produces. -/
theorem polyeval_check_ok (n : ℕ) (hn : 2 ≤ n) (rem : List ℕ)
    (hroot : rem.getD 0 0 = (rem.drop (rem.length / 2)).prod % n)
    (hleaf : ∀ c ∈ rem.drop (rem.length / 2), 1 ≤ c ∧ c < n) :
    ∃ r, polyeval_check n rem = .ok r := by
  unfold polyeval_check
  by_cases h1 : 1 < Nat.gcd (rem.getD 0 0) n ∧ Nat.gcd (rem.getD 0 0) n < n
  · rw [if_pos h1]
    exact ⟨_, rfl⟩
  · rw [if_neg h1]
    by_cases h2 : Nat.gcd (rem.getD 0 0) n = n
    · rw [if_pos h2]
      rcases hsf : (rem.drop (rem.length / 2)).findSome? (fun r =>
          if 1 < Nat.gcd r n ∧ Nat.gcd r n < n then some (Nat.gcd r n)
          else none) with _ | d
      · exfalso
        have hmem : ∀ c ∈ rem.drop (rem.length / 2), Nat.gcd c n = 1 := by
          intro c hc
          have h3 := List.findSome?_eq_none.mp hsf c hc
          by_cases hcnd : 1 < Nat.gcd c n ∧ Nat.gcd c n < n
          · rw [if_pos hcnd] at h3
            cases h3
          · obtain ⟨hb1, hb2⟩ := hleaf c hc
            exact nat_gcd_small hb1 hb2 hcnd
        have hco := list_prod_coprime (rem.drop (rem.length / 2)) hmem
        rw [hroot] at h2
        have h4 : Nat.gcd ((rem.drop (rem.length / 2)).prod % n) n =
            Nat.gcd n (rem.drop (rem.length / 2)).prod :=
          (Nat.gcd_rec n _).symm
        rw [h4, Nat.gcd_comm, hco] at h2
        omega
      · exact ⟨_, rfl⟩
    · rw [if_neg h2]
      exact ⟨_, rfl⟩

/-- **C9**: in Stage 2 of both engines, under the normalization the loops
guarantee (curve point coordinates reduced mod `n`, remainder-tree root =
product mod `n` of its leaf entries, each in `[1, n)`), the factor checks
always return without reaching their `assert False`: whenever the
accumulated gcd equals `n`, the per-term fallback scan finds a divisor. -/
theorem claim_C9_assert_unreachable :
    (∀ (n : ℤ) (cq : ℤ × ℤ) (jq_list : List (ℤ × ℤ)), 2 ≤ n →
      0 ≤ cq.1 → cq.1 < n → 0 ≤ cq.2 → cq.2 < n →
      (∀ jq ∈ jq_list, 0 ≤ jq.1 ∧ jq.1 < n) →
      ∃ r, stage2_body n cq jq_list = .ok r) ∧
    (∀ (n : ℕ) (rem : List ℕ), 2 ≤ n →
      rem.getD 0 0 = (rem.drop (rem.length / 2)).prod % n →
      (∀ c ∈ rem.drop (rem.length / 2), 1 ≤ c ∧ c < n) →
      ∃ r, polyeval_check n rem = .ok r) :=
  ⟨fun n cq jql hn h1 h2 h3 h4 h5 => stage2_body_ok n hn cq jql h1 h2 h3 h4 h5,
   fun n rem hn h1 h2 => polyeval_check_ok n hn rem h1 h2⟩

theorem claim_C9_assert_unreachable_witness :
    (∃ r, stage2_body 10 (3, 4) [(5, 6)] = .ok r) ∧
    (∃ r, polyeval_check 10 [2, 3, 4] = .ok r) :=
  ⟨claim_C9_assert_unreachable.1 10 (3, 4) [(5, 6)] (by decide) (by decide)
      (by decide) (by decide) (by decide) (by decide),
   claim_C9_assert_unreachable.2 10 [2, 3, 4] (by decide) (by decide)
      (by decide)⟩

end WheelSieve
